import Mathlib

/-!
# Property store (layer1/Property.cpp, layer1/Property.h)

A shallow embedding of the per-object property store: the slab of
`PropertyUniqueEntry` records threaded into one free list and one list per
unique id, the table `id2offset`, the handle allocator, and the two string
interners (property names, string values).

Conventions of the embedding.

* `std::vector<PropertyUniqueEntry>` is a `List`; an offset is a `Nat`.  Reads use
  `getEntry` (a read outside the vector yields a value-initialised record) and writes
  use `List.set` (a write outside the vector is dropped).  The slab invariant proved
  below shows that every offset the code follows is inside the vector.
* `std::unordered_map<int,int>` is a partial function `Int → Option Nat`;
  `std::unordered_set<int>` is a duplicate-free `List Int`.
* `std::variant<int,double>` is `PropValue`; `std::get` on the other alternative throws
  `std::bad_variant_access`, which is the `thrown` outcome.  A `double` is modelled by a
  rational number (no NaN, infinities or signed zero).
* Loops that follow `next` links take a fuel argument; running out of fuel is the
  `diverged` outcome.  The fuel handed to each loop is the number of slab slots, which
  the theorems show to be enough in every reachable state.
* A call without a defined result (a read through a pointer that a resize of the vector
  has invalidated, a pointer argument read at the wrong type) is the `diverged` outcome
  too: it leaves no state, and the reachable states are those that calls with a defined
  result, returning or throwing, leave behind.
* `int` offsets and slab sizes are unbounded naturals: the slab is assumed to stay below
  2^31 slots.  The handle counter `NextUniqueID` wraps in 32 bits.
* A `const char*` text is a `String`.  The C library is outside the sources: the scans
  `sscanf(value, "%i %c", ...)` and `sscanf(value, "%lf %c", ...)` of
  `PropertySetromString` and the number conversion inside `sscanf(sval, "%f", ...)` are
  parameters, and a format string of `PropertyFmtOptions` is the function from the number
  to the text that `snprintf` writes.
* A Python object is a `PyObject` value; the getters that the host calls return an
  `Outcome` whose state is the state they were given.
* An owner object `x` of the templates of Property.h is its `prop_id` field: a call on
  an owner takes the field and returns its value after the call next to the result.
-/

namespace Property

/-! ## The string interner -/

/-- Modelled from the spec: the string interner `OVLexicon` (OVLexicon.h is included by
Property.h but is not among the sources).  Handles are the integers `1 .. n_entry`; `str` is the text
stored under a handle and `ref_cnt` its reference count.  A handle is live while its
reference count is at least 1. -/
structure OVLexicon where
  n_entry : Nat
  str : Int → String
  ref_cnt : Int → Int

/-- Modelled from the spec: a fresh interner with no strings (`OVLexicon_New`). -/
def OVLexicon_New : OVLexicon :=
  { n_entry := 0, str := fun _ => "", ref_cnt := fun _ => 0 }

/-- Modelled from the spec: the non-incrementing borrow lookup
(`OVLexicon_BorrowFromCString`): the live handle of a string, if there is one. -/
def OVLexicon_BorrowFromCString (uk : OVLexicon) (s : String) : Option Int :=
  ((List.range' 1 uk.n_entry).map Int.ofNat).find?
    (fun id => decide (uk.str id = s ∧ 0 < uk.ref_cnt id))

/-- Modelled from the spec: `intern(string) -> handle` (`OVLexicon_GetFromCString`)
creates a new slot with one reference on first sight and increments the reference count
on every subsequent call. -/
def OVLexicon_GetFromCString (uk : OVLexicon) (s : String) : OVLexicon × Int :=
  match OVLexicon_BorrowFromCString uk s with
  | some id => ({ uk with ref_cnt := Function.update uk.ref_cnt id (uk.ref_cnt id + 1) }, id)
  | none =>
    ({ n_entry := uk.n_entry + 1,
       str := Function.update uk.str ((uk.n_entry : Int) + 1) s,
       ref_cnt := Function.update uk.ref_cnt ((uk.n_entry : Int) + 1) 1 },
     (uk.n_entry : Int) + 1)

/-- Modelled from the spec: `OVLexicon_IncRef` adds one reference to a handle. -/
def OVLexicon_IncRef (uk : OVLexicon) (id : Int) : OVLexicon :=
  { uk with ref_cnt := Function.update uk.ref_cnt id (uk.ref_cnt id + 1) }

/-- Modelled from the spec: `release(handle)` (`OVLexicon_DecRef`) decrements the
reference count; the storage is free once the count is no longer positive. -/
def OVLexicon_DecRef (uk : OVLexicon) (id : Int) : OVLexicon :=
  { uk with ref_cnt := Function.update uk.ref_cnt id (uk.ref_cnt id - 1) }

/-- Modelled from the spec: `resolve(handle) -> string` (`OVLexicon_FetchCString`) is
valid as long as the reference count is at least 1. -/
def OVLexicon_FetchCString (uk : OVLexicon) (id : Int) : Option String :=
  if 0 < uk.ref_cnt id then some (uk.str id) else none

/-! ## Data model (Property.h) -/

/-- The enum `PropertyType` of Property.h. -/
inductive PropertyType where
  | Auto
  | Blank
  | Boolean
  | Int
  | Float
  | Color
  | String
deriving DecidableEq, Repr

/-- The payload `std::variant<int, double>` of an entry. -/
inductive PropValue where
  | int (v : Int)
  | double (v : Rat)
deriving DecidableEq, Repr

/-- The call `std::get<int>`: `none` stands for `std::bad_variant_access`. -/
def PropValue.get_int : PropValue → Option Int
  | .int v => some v
  | .double _ => none

/-- The call `std::get<double>`: `none` stands for `std::bad_variant_access`. -/
def PropValue.get_double : PropValue → Option Rat
  | .int _ => none
  | .double v => some v

/-- The test `std::holds_alternative<int>`. -/
def PropValue.holds_int : PropValue → Bool
  | .int _ => true
  | .double _ => false

/-- The struct `PropertyUniqueEntry`. -/
structure PropertyUniqueEntry where
  prop_id : Int
  type : PropertyType
  value : PropValue
  next : Nat
deriving DecidableEq, Repr

/-- The value-initialised record `PropertyUniqueEntry{}`. -/
instance : Inhabited PropertyUniqueEntry :=
  ⟨{ prop_id := 0, type := PropertyType.Blank, value := PropValue.int 0, next := 0 }⟩

/-- The struct `CPropertyUnique`. -/
structure CPropertyUnique where
  propnames : OVLexicon
  string_values : OVLexicon
  id2offset : Int → Option Nat
  entry : List PropertyUniqueEntry
  next_free : Nat
  NextUniqueID : Int
  ActiveIDs : List Int

/-- The constant `CPropertyUnique::InitNumEntries`. -/
def InitNumEntries : Nat := 10

/-- What a call leaves behind: a normal return with the new state and the returned
value, an escaping `std::bad_variant_access` with the state at the throw, or no result
because a walk along `next` links did not end or the call has no defined result (a pointer
argument read at the wrong type, a null pointer handed to the Python API, a variable used
after a conversion that stored nothing, a read through a pointer into the vector after a
resize). -/
inductive Outcome (α : Type) where
  | done (I : CPropertyUnique) (ret : α)
  | thrown (I : CPropertyUnique)
  | diverged

/-- The state a call leaves behind, when there is one. -/
def Outcome.state {α : Type} : Outcome α → Option CPropertyUnique
  | .done I _ => some I
  | .thrown I => some I
  | .diverged => none

/-- The read `I->entry[offset]`. -/
def getEntry (entry : List PropertyUniqueEntry) (offset : Nat) : PropertyUniqueEntry :=
  entry.getD offset default

/-- The write `I->entry[offset].next = next`. -/
def setNext (entry : List PropertyUniqueEntry) (offset next : Nat) :
    List PropertyUniqueEntry :=
  entry.set offset { getEntry entry offset with next := next }

/-- The writes `entry->type = type; entry->value = value;` at `offset`. -/
def setTypeValue (entry : List PropertyUniqueEntry) (offset : Nat) (type : PropertyType)
    (value : PropValue) : List PropertyUniqueEntry :=
  entry.set offset { getEntry entry offset with type := type, value := value }

/-- The write `entry->prop_id = prop_id` at `offset`. -/
def setPropId (entry : List PropertyUniqueEntry) (offset : Nat) (prop_id : Int) :
    List PropertyUniqueEntry :=
  entry.set offset { getEntry entry offset with prop_id := prop_id }

/-! ## PropertyInit and PropertyUniqueExpand -/

/-- The function `PropertyInit`: ten value-initialised slots, slots 2..9 linked downwards,
`next_free` at the last slot, two fresh interners. -/
def PropertyInit : CPropertyUnique :=
  { propnames := OVLexicon_New
    string_values := OVLexicon_New
    id2offset := fun _ => none
    entry := (List.range' 2 (InitNumEntries - 2)).foldl (fun e a => setNext e a (a - 1))
      (List.replicate InitNumEntries default)
    next_free := InitNumEntries - 1
    NextUniqueID := 1
    ActiveIDs := [] }

/-- The function `PropertyUniqueExpand`: when the free list is empty, resize the slab to
`size * 3 / 2` slots and push every new slot onto the free list. -/
def PropertyUniqueExpand (I : CPropertyUnique) : CPropertyUnique :=
  if I.next_free = 0 then
    let new_n_alloc := (I.entry.length * 3) / 2
    let sizeBefore := I.entry.length
    (List.range' sizeBefore (new_n_alloc - sizeBefore)).foldl
      (fun J a => { J with entry := setNext J.entry a J.next_free, next_free := a })
      { I with entry := I.entry ++ List.replicate (new_n_alloc - sizeBefore) default }
  else I

/-! ## PropertyGetNewUniqueID -/

/-- The increment of the 32-bit `int` counter, wrapping in two's complement. -/
def wrap32 (x : Int) : Int := (x + 2 ^ 31) % 2 ^ 32 - 2 ^ 31

/-- The `while (true)` loop of `PropertyGetNewUniqueID`. -/
def newUniqueIDLoop : Nat → CPropertyUnique → Outcome Int
  | 0, _ => Outcome.diverged
  | fuel + 1, I =>
    let result := I.NextUniqueID
    let I1 := { I with NextUniqueID := wrap32 (I.NextUniqueID + 1) }
    if result ≠ 0 ∧ result ∉ I1.ActiveIDs then
      Outcome.done { I1 with ActiveIDs := result :: I1.ActiveIDs } result
    else newUniqueIDLoop fuel I1

/-- The function `PropertyGetNewUniqueID`.  The counter takes at most 2^32 values, so a
loop that has not stopped after 2^32 rounds never stops. -/
def PropertyGetNewUniqueID (I : CPropertyUnique) : Outcome Int :=
  newUniqueIDLoop (2 ^ 32) I

/-- The `n` consecutive calls of `PropertyGetNewUniqueID`, with the handles they return,
in call order. -/
def newUniqueIDs : Nat → CPropertyUnique → Option (CPropertyUnique × List Int)
  | 0, I => some (I, [])
  | n + 1, I =>
    match PropertyGetNewUniqueID I with
    | Outcome.done I1 id =>
      match newUniqueIDs n I1 with
      | some (I2, ids) => some (I2, id :: ids)
      | none => none
    | _ => none

/-! ## PropertyUniqueSetTypedValue and the typed setters -/

/-- The walk `while (offset) ... prev = offset; offset = entry->next;` that looks for the
entry named `prop_id`, started at `offset` with `prev`.  It stops at the first entry with
that name (returning `prev` and the non-zero offset of the entry) or at the end of the
list (returning the last offset visited as `prev`, and 0).  The same walk is the inner
loop of `PropertyCopyProperties`. -/
def findInList (entry : List PropertyUniqueEntry) (prop_id : Int) :
    Nat → Nat → Nat → Option (Nat × Nat)
  | 0, _, _ => none
  | fuel + 1, prev, offset =>
    if offset = 0 then some (prev, 0)
    else if (getEntry entry offset).prop_id = prop_id then some (prev, offset)
    else findInList entry prop_id fuel offset (getEntry entry offset).next

/-- The guarded release of lines 226-229 and 238-241: an entry of type String holding the
`int` alternative gives up its reference in `string_values`. -/
def releaseOldString (I : CPropertyUnique) (e : PropertyUniqueEntry) : CPropertyUnique :=
  match e.type, e.value with
  | PropertyType.String, PropValue.int old =>
    { I with string_values := OVLexicon_DecRef I.string_values old }
  | _, _ => I

/-- Lines 221-246: redefining the entry found at `offset`.  Under `case Float` the stored
payload is read with `std::get<double>` and the argument as a `double`; otherwise with
`std::get<int>` and as an `int`.  Returns the state and `isset`. -/
def redefineEntry (I : CPropertyUnique) (offset : Nat) (prop_type : PropertyType)
    (v : PropValue) : Outcome Bool :=
  let e := getEntry I.entry offset
  match prop_type, v with
  | PropertyType.Float, PropValue.double d =>
    match e.value.get_double with
    | none => Outcome.thrown I
    | some old =>
      if old ≠ d ∨ e.type ≠ prop_type then
        let I1 := releaseOldString I e
        Outcome.done { I1 with entry := setTypeValue I1.entry offset prop_type (PropValue.double d) }
          true
      else Outcome.done I false
  | PropertyType.Float, PropValue.int _ => Outcome.diverged
  | _, PropValue.int i =>
    match e.value.get_int with
    | none => Outcome.thrown I
    | some old =>
      if old ≠ i ∨ e.type ≠ prop_type then
        let I1 := releaseOldString I e
        Outcome.done { I1 with entry := setTypeValue I1.entry offset prop_type (PropValue.int i) }
          true
      else Outcome.done I false
  | _, PropValue.double _ => Outcome.diverged

/-- Lines 247-259: a null value deletes the entry found at `offset`, unlinking it from
the list of `unique_id` and pushing its slot onto the free list. -/
def deleteEntry (I : CPropertyUnique) (unique_id : Int) (prev offset : Nat) :
    CPropertyUnique :=
  let e := getEntry I.entry offset
  let I1 :=
    if prev = 0 then
      let m := Function.update I.id2offset unique_id none
      { I with id2offset := if e.next ≠ 0 then Function.update m unique_id (some e.next) else m }
    else { I with entry := setNext I.entry prev e.next }
  { I1 with entry := setNext I1.entry offset I1.next_free, next_free := offset }

/-- Lines 270-300: the name was not found in the existing list, so a slot is taken from
the free list (after `PropertyUniqueExpand` when it is empty) and appended after `prev`,
or made the head when `prev` is 0.  The argument is read as `double` under `case Float`
and as `int` otherwise. -/
def appendEntry (I : CPropertyUnique) (unique_id : Int) (prev : Nat) (prop_id : Int)
    (prop_type : PropertyType) (v : PropValue) : CPropertyUnique × Bool :=
  let I1 := if I.next_free = 0 then PropertyUniqueExpand I else I
  if I1.next_free ≠ 0 then
    let offset := I1.next_free
    let I2 := { I1 with next_free := (getEntry I1.entry offset).next }
    let I3 := { I2 with entry := setNext I2.entry offset 0 }
    let I4 :=
      if prev ≠ 0 then { I3 with entry := setNext I3.entry prev offset }
      else { I3 with id2offset := Function.update I3.id2offset unique_id (some offset) }
    let I5 := { I4 with entry := setTypeValue I4.entry offset prop_type v }
    ({ I5 with entry := setPropId I5.entry offset prop_id }, true)
  else (I1, false)

/-- Lines 302-323: the unique id has no list yet, so a slot is taken from the free list
(after `PropertyUniqueExpand` when it is empty) and becomes the head of a new list. -/
def newListEntry (I : CPropertyUnique) (unique_id : Int) (prop_id : Int)
    (prop_type : PropertyType) (v : PropValue) : CPropertyUnique × Bool :=
  let I1 := if I.next_free = 0 then PropertyUniqueExpand I else I
  if I1.next_free ≠ 0 then
    let offset := I1.next_free
    let I2 := { I1 with id2offset := Function.update I1.id2offset unique_id (some offset) }
    let I3 := { I2 with next_free := (getEntry I2.entry offset).next }
    let I4 := { I3 with entry := setTypeValue I3.entry offset prop_type v }
    let I5 := { I4 with entry := setPropId I4.entry offset prop_id }
    ({ I5 with entry := setNext I5.entry offset 0 }, true)
  else (I1, false)

/-- Whether the pointer argument, read at the type that `prop_type` selects, is a value
of that kind: a `double` under `case Float`, an `int` otherwise. -/
def kindMatches (prop_type : PropertyType) (v : PropValue) : Bool :=
  match prop_type, v with
  | PropertyType.Float, PropValue.double _ => true
  | PropertyType.Float, PropValue.int _ => false
  | _, PropValue.int _ => true
  | _, PropValue.double _ => false

/-- The function `PropertyUniqueSetTypedValue`.  `value = none` is the null pointer. -/
def PropertyUniqueSetTypedValue (I : CPropertyUnique) (unique_id : Int)
    (prop_name : String) (prop_type : PropertyType) (value : Option PropValue) :
    Outcome Bool :=
  let prop_id := (OVLexicon_GetFromCString I.propnames prop_name).2
  let I0 := { I with propnames := (OVLexicon_GetFromCString I.propnames prop_name).1 }
  match I0.id2offset unique_id with
  | some head =>
    match findInList I0.entry prop_id I0.entry.length 0 head with
    | none => Outcome.diverged
    | some (prev, offset) =>
      if offset ≠ 0 then
        match value with
        | some v =>
          match redefineEntry I0 offset prop_type v with
          | Outcome.done I1 isset =>
            Outcome.done { I1 with propnames := OVLexicon_DecRef I1.propnames prop_id } isset
          | Outcome.thrown I1 => Outcome.thrown I1
          | Outcome.diverged => Outcome.diverged
        | none =>
          let I1 := deleteEntry I0 unique_id prev offset
          Outcome.done { I1 with propnames := OVLexicon_DecRef I1.propnames prop_id } true
      else
        match value with
        | some v =>
          if kindMatches prop_type v then
            Outcome.done (appendEntry I0 unique_id prev prop_id prop_type v).1
              (appendEntry I0 unique_id prev prop_id prop_type v).2
          else Outcome.diverged
        | none => Outcome.done I0 false
  | none =>
    match value with
    | some v =>
      if kindMatches prop_type v then
        Outcome.done (newListEntry I0 unique_id prop_id prop_type v).1
          (newListEntry I0 unique_id prop_id prop_type v).2
      else Outcome.diverged
    | none => Outcome.done I0 false

/-- The overload `PropertySet(G, unique_id, prop_name, const char* value)`: the text is
interned in `string_values` and stored as a String entry. -/
def PropertySet_string (I : CPropertyUnique) (unique_id : Int) (prop_name value : String) :
    Outcome Bool :=
  let val := (OVLexicon_GetFromCString I.string_values value).2
  PropertyUniqueSetTypedValue
    { I with string_values := (OVLexicon_GetFromCString I.string_values value).1 }
    unique_id prop_name PropertyType.String (some (PropValue.int val))

/-- The function `PropertyUniqueSet_b`. -/
def PropertyUniqueSet_b (I : CPropertyUnique) (unique_id : Int) (prop_name : String)
    (value : Int) : Outcome Bool :=
  PropertyUniqueSetTypedValue I unique_id prop_name PropertyType.Boolean
    (some (PropValue.int value))

/-- The overload `PropertySet(G, unique_id, prop_name, int value)`. -/
def PropertySet_int (I : CPropertyUnique) (unique_id : Int) (prop_name : String)
    (value : Int) : Outcome Bool :=
  PropertyUniqueSetTypedValue I unique_id prop_name PropertyType.Int
    (some (PropValue.int value))

/-- The overload `PropertySet(G, unique_id, prop_name, double value)`. -/
def PropertySet_double (I : CPropertyUnique) (unique_id : Int) (prop_name : String)
    (value : Rat) : Outcome Bool :=
  PropertyUniqueSetTypedValue I unique_id prop_name PropertyType.Float
    (some (PropValue.double value))

/-- The function `PropertyUniqueSet_color`. -/
def PropertyUniqueSet_color (I : CPropertyUnique) (unique_id : Int) (prop_name : String)
    (value : Int) : Outcome Bool :=
  PropertyUniqueSetTypedValue I unique_id prop_name PropertyType.Color
    (some (PropValue.int value))

/-- Deleting a property: `PropertyUniqueSetTypedValue` with `PropertyType::Blank` and a
null value, as the Python overload of `PropertySet` calls it. -/
def PropertyDelete (I : CPropertyUnique) (unique_id : Int) (prop_name : String) :
    Outcome Bool :=
  PropertyUniqueSetTypedValue I unique_id prop_name PropertyType.Blank none

/-! ## PropertyFindPropertyUniqueEntry -/

/-- The `for` loop of `PropertyFindPropertyUniqueEntry` (by name id): the first entry of
the list from `offset` whose `prop_id` is `propname_id`.  The outer `none` is a walk that
did not end; `some none` is the null pointer. -/
def findEntryLoop (entry : List PropertyUniqueEntry) (propname_id : Int) :
    Nat → Nat → Option (Option PropertyUniqueEntry)
  | 0, _ => none
  | fuel + 1, offset =>
    if offset = 0 then some none
    else if (getEntry entry offset).prop_id = propname_id then some (some (getEntry entry offset))
    else findEntryLoop entry propname_id fuel (getEntry entry offset).next

/-- The function `PropertyFindPropertyUniqueEntry(G, prop_id, int propname_id)`. -/
def PropertyFindPropertyUniqueEntry_id (I : CPropertyUnique) (prop_id : Int)
    (propname_id : Int) : Option (Option PropertyUniqueEntry) :=
  match I.id2offset prop_id with
  | some offset => findEntryLoop I.entry propname_id I.entry.length offset
  | none => some none

/-- The function `PropertyFindPropertyUniqueEntry(G, prop_id, const char* propname)`: the
name is looked up with the borrowing (non-incrementing) interner call. -/
def PropertyFindPropertyUniqueEntry (I : CPropertyUnique) (prop_id : Int)
    (propname : String) : Option (Option PropertyUniqueEntry) :=
  match OVLexicon_BorrowFromCString I.propnames propname with
  | some prop_id_tmp => PropertyFindPropertyUniqueEntry_id I prop_id prop_id_tmp
  | none => some none

/-! ## PropertyUniqueDetachChain -/

/-- The `while (offset)` loop of `PropertyUniqueDetachChain`: every entry of the list
gives up its name reference and, when of type String, its value reference (read with
`std::get<int>`), and its slot is pushed onto the free list. -/
def detachLoop : Nat → CPropertyUnique → Nat → Outcome Unit
  | 0, _, _ => Outcome.diverged
  | fuel + 1, I, offset =>
    if offset = 0 then Outcome.done I ()
    else
      let e := getEntry I.entry offset
      let I1 := { I with propnames := OVLexicon_DecRef I.propnames e.prop_id }
      if e.type = PropertyType.String ∧ e.value.get_int = none then Outcome.thrown I1
      else
        let I2 :=
          if e.type = PropertyType.String then
            { I1 with string_values :=
                OVLexicon_DecRef I1.string_values (e.value.get_int.getD 0) }
          else I1
        detachLoop fuel
          { I2 with entry := setNext I2.entry offset I2.next_free, next_free := offset } e.next

/-- The function `PropertyUniqueDetachChain`. -/
def PropertyUniqueDetachChain (I : CPropertyUnique) (unique_id : Int) : Outcome Unit :=
  match I.id2offset unique_id with
  | some offset =>
    match detachLoop I.entry.length
        { I with id2offset := Function.update I.id2offset unique_id none } offset with
    | Outcome.done I1 _ =>
      Outcome.done { I1 with ActiveIDs := I1.ActiveIDs.filter (fun x => x ≠ unique_id) } ()
    | Outcome.thrown I1 => Outcome.thrown I1
    | Outcome.diverged => Outcome.diverged
  | none =>
    Outcome.done { I with ActiveIDs := I.ActiveIDs.filter (fun x => x ≠ unique_id) } ()

/-! ## PropertyCopyProperties -/

/-- The two `OVLexicon_IncRef` calls made for the freshly filled entry at `dst_offset`:
one on its name and, when it is of type String, one on its value (read with
`std::get<int>`). -/
def copyIncRef (I : CPropertyUnique) (dst_offset : Nat) : Outcome Unit :=
  let e := getEntry I.entry dst_offset
  let I1 := { I with propnames := OVLexicon_IncRef I.propnames e.prop_id }
  if e.type = PropertyType.String then
    match e.value.get_int with
    | some v => Outcome.done { I1 with string_values := OVLexicon_IncRef I1.string_values v } ()
    | none => Outcome.thrown I1
  else Outcome.done I1 ()

/-- The outer loop of `PropertyCopyProperties` when the destination already has a list
(lines 345-406).  `dst_offset` is declared outside the loop, so every inner walk starts
where the previous one stopped.  `prop_id` and `property_type` are copied at the start of
the round, but the payload is read through `property_value`, a pointer into the vector
taken at line 351.  When the name is not found and the free list is empty,
`PropertyUniqueExpand` makes the vector grow (line 368) before the payload is read (lines
378 and 390).  A growing `resize` moves the records when the capacity is exceeded, and
`PropertyInit` and `PropertyUniqueExpand` leave no spare capacity that the code could rely
on, so the read goes through a pointer that the resize has invalidated: the call has no
defined result, which is the first test of the not-found case below.  When the free list
is not empty the vector is not resized and the pointer is valid. -/
def copyExistingLoop (dst_unique_id : Int) :
    Nat → CPropertyUnique → Nat → Nat → Outcome Unit
  | 0, _, _, _ => Outcome.diverged
  | fuel + 1, I, src_offset, dst_offset =>
    if src_offset = 0 then Outcome.done I ()
    else
      let src_entry := getEntry I.entry src_offset
      match findInList I.entry src_entry.prop_id I.entry.length 0 dst_offset with
      | none => Outcome.diverged
      | some (prev, found_offset) =>
        if found_offset ≠ 0 then
          let I1 :=
            { I with entry := setTypeValue I.entry found_offset src_entry.type src_entry.value }
          copyExistingLoop dst_unique_id fuel I1 (getEntry I1.entry src_offset).next found_offset
        else if I.next_free = 0 ∧ (PropertyUniqueExpand I).next_free ≠ 0 then Outcome.diverged
        else
          let I1 := if I.next_free = 0 then PropertyUniqueExpand I else I
          if I1.next_free ≠ 0 then
            let new_offset := I1.next_free
            let I2 := { I1 with next_free := (getEntry I1.entry new_offset).next }
            let I3 := { I2 with entry := setNext I2.entry new_offset 0 }
            let I4 :=
              if prev ≠ 0 then { I3 with entry := setNext I3.entry prev new_offset }
              else { I3 with id2offset :=
                       Function.update I3.id2offset dst_unique_id (some new_offset) }
            let I5 := { I4 with entry :=
              (setPropId (setTypeValue I4.entry new_offset src_entry.type src_entry.value)
                new_offset src_entry.prop_id) }
            match copyIncRef I5 new_offset with
            | Outcome.done I6 _ =>
              copyExistingLoop dst_unique_id fuel I6 (getEntry I6.entry src_offset).next new_offset
            | Outcome.thrown I6 => Outcome.thrown I6
            | Outcome.diverged => Outcome.diverged
          else copyExistingLoop dst_unique_id fuel I1 (getEntry I1.entry src_offset).next 0

/-- The loop of `PropertyCopyProperties` when the destination has no list yet
(lines 414-452); `ok` is never cleared, so it is left out. -/
def copyNewLoop (dst_unique_id : Int) : Nat → CPropertyUnique → Nat → Nat → Outcome Unit
  | 0, _, _, _ => Outcome.diverged
  | fuel + 1, I, src_offset, prev =>
    if src_offset = 0 then Outcome.done I ()
    else
      let I1 := if I.next_free = 0 then PropertyUniqueExpand I else I
      let src_entry := getEntry I1.entry src_offset
      if I1.next_free ≠ 0 then
        let dst_offset := I1.next_free
        let I2 := { I1 with next_free := (getEntry I1.entry dst_offset).next }
        let I3 :=
          if prev = 0 then
            { I2 with id2offset := Function.update I2.id2offset dst_unique_id (some dst_offset) }
          else { I2 with entry := setNext I2.entry prev dst_offset }
        let I4 := { I3 with entry :=
          (setNext
            (setPropId (setTypeValue I3.entry dst_offset src_entry.type src_entry.value)
              dst_offset src_entry.prop_id)
            dst_offset 0) }
        match copyIncRef I4 dst_offset with
        | Outcome.done I5 _ =>
          copyNewLoop dst_unique_id fuel I5 (getEntry I5.entry src_offset).next dst_offset
        | Outcome.thrown I5 => Outcome.thrown I5
        | Outcome.diverged => Outcome.diverged
      else copyNewLoop dst_unique_id fuel I1 (getEntry I1.entry src_offset).next prev

/-- The function `PropertyCopyProperties`; it always returns `ok = true`. -/
def PropertyCopyProperties (I : CPropertyUnique) (src_unique_id dst_unique_id : Int) :
    Outcome Bool :=
  match I.id2offset dst_unique_id with
  | some dst_offset =>
    match I.id2offset src_unique_id with
    | some src_offset =>
      match copyExistingLoop dst_unique_id I.entry.length I src_offset dst_offset with
      | Outcome.done I1 _ => Outcome.done I1 true
      | Outcome.thrown I1 => Outcome.thrown I1
      | Outcome.diverged => Outcome.diverged
    | none => Outcome.done I true
  | none =>
    match I.id2offset src_unique_id with
    | some src_offset =>
      match copyNewLoop dst_unique_id I.entry.length I src_offset 0 with
      | Outcome.done I1 _ => Outcome.done I1 true
      | Outcome.thrown I1 => Outcome.thrown I1
      | Outcome.diverged => Outcome.diverged
    | none => Outcome.done I true

/-! ## Reachable states -/

/-- A call of the public interface of the store. -/
inductive Call where
  | set_b (unique_id : Int) (prop_name : String) (value : Int)
  | set_int (unique_id : Int) (prop_name : String) (value : Int)
  | set_double (unique_id : Int) (prop_name : String) (value : Rat)
  | set_color (unique_id : Int) (prop_name : String) (value : Int)
  | set_string (unique_id : Int) (prop_name : String) (value : String)
  | delete (unique_id : Int) (prop_name : String)
  | copy (src_unique_id dst_unique_id : Int)
  | detach (unique_id : Int)
  | new_unique_id

/-- The state after a call has returned or thrown. -/
def Call.run : Call → CPropertyUnique → Option CPropertyUnique
  | Call.set_b u n v, I => (PropertyUniqueSet_b I u n v).state
  | Call.set_int u n v, I => (PropertySet_int I u n v).state
  | Call.set_double u n v, I => (PropertySet_double I u n v).state
  | Call.set_color u n v, I => (PropertyUniqueSet_color I u n v).state
  | Call.set_string u n v, I => (PropertySet_string I u n v).state
  | Call.delete u n, I => (PropertyDelete I u n).state
  | Call.copy s d, I => (PropertyCopyProperties I s d).state
  | Call.detach u, I => (PropertyUniqueDetachChain I u).state
  | Call.new_unique_id, I => (PropertyGetNewUniqueID I).state

/-- The states reachable from `PropertyInit` by any sequence of calls. -/
inductive Reachable : CPropertyUnique → Prop where
  | init : Reachable PropertyInit
  | step {I J : CPropertyUnique} (c : Call) : Reachable I → c.run I = some J → Reachable J

/-- The states after running a list of calls in order from a given state. -/
def runCalls : List Call → CPropertyUnique → Option CPropertyUnique
  | [], I => some I
  | c :: cs, I =>
    match c.run I with
    | some J => runCalls cs J
    | none => none

/-! ## Lists threaded through the slab -/

/-- The offsets `l` are the cells visited when following `next` from offset `o` until
the link `t` is reached: every cell is a non-zero offset inside the slab and links to the
following one. -/
def IsSeg (entry : List PropertyUniqueEntry) : Nat → List Nat → Nat → Prop
  | o, [], t => o = t
  | o, x :: xs, t =>
    o = x ∧ x ≠ 0 ∧ x < entry.length ∧ IsSeg entry (getEntry entry x).next xs t

/-- The offsets `l` are exactly the cells of the list that starts at offset `o` and ends
at the sentinel 0. -/
def IsChain (entry : List PropertyUniqueEntry) (o : Nat) (l : List Nat) : Prop :=
  IsSeg entry o l 0

/-- The offsets met when following `next` from `o` until 0, at most `fuel` of them. -/
def chainFrom (entry : List PropertyUniqueEntry) : Nat → Nat → List Nat
  | 0, _ => []
  | fuel + 1, o =>
    if o = 0 then [] else o :: chainFrom entry fuel (getEntry entry o).next

/-- The offsets of the free list, from `next_free`. -/
def freeList (I : CPropertyUnique) : List Nat :=
  chainFrom I.entry I.entry.length I.next_free

/-- The head offset of the list of a unique id, 0 when it has no list. -/
def headOf (I : CPropertyUnique) (unique_id : Int) : Nat :=
  (I.id2offset unique_id).getD 0

/-- The offsets of the list of a unique id, from its `id2offset` value. -/
def listOf (I : CPropertyUnique) (unique_id : Int) : List Nat :=
  chainFrom I.entry I.entry.length (headOf I unique_id)

/-- The entries of the list of a unique id, in list order. -/
def entriesOf (I : CPropertyUnique) (unique_id : Int) : List PropertyUniqueEntry :=
  (listOf I unique_id).map (getEntry I.entry)

/-- The stored content of an entry: name id, type and payload. -/
def PropertyUniqueEntry.content (e : PropertyUniqueEntry) : Int × PropertyType × PropValue :=
  (e.prop_id, e.type, e.value)

/-- The payload kind agrees with the type tag: a `double` exactly for type Float. -/
def KindOK (e : PropertyUniqueEntry) : Prop :=
  e.type = PropertyType.Float ↔ e.value.holds_int = false

/-- The slab partition for a slab `entry`, a free-list head `nf` and list heads `hd`
(0 for no list): `free` and the lists `L h` are chains from these heads, duplicate-free,
pairwise disjoint, and cover every offset from 1 up to the slab size; the entries on the
lists have payloads of the kind their type says; the slab has at least two slots. -/
structure SlabInv (entry : List PropertyUniqueEntry) (nf : Nat) (hd : Int → Nat)
    (free : List Nat) (L : Int → List Nat) : Prop where
  free_chain : IsChain entry nf free
  list_chain : ∀ h, IsChain entry (hd h) (L h)
  free_nodup : free.Nodup
  list_nodup : ∀ h, (L h).Nodup
  free_disj : ∀ h x, x ∈ L h → x ∉ free
  list_disj : ∀ h g x, x ∈ L h → x ∈ L g → h = g
  cover : ∀ x, 0 < x → x < entry.length → x ∈ free ∨ ∃ h, x ∈ L h
  kind : ∀ h x, x ∈ L h → KindOK (getEntry entry x)
  size : 2 ≤ entry.length

/-- The invariant of the store: the slab partition holds for some free list and lists,
and no `id2offset` value is 0. -/
def Inv (I : CPropertyUnique) : Prop :=
  (∃ free L, SlabInv I.entry I.next_free (headOf I) free L) ∧ ∀ h, I.id2offset h ≠ some 0

/-- The slab partition invariant as the specification words it: the free list and every
unique id's list are chains that end at offset 0 and never contain offset 0, no offset
occurs twice in a list or in two lists, every slab index from 1 to size-1 is on one of
them, and the slot at the head of the free list is on no unique id's list. -/
def SlabPartition (I : CPropertyUnique) : Prop :=
  IsChain I.entry I.next_free (freeList I) ∧
  (∀ h, IsChain I.entry (headOf I h) (listOf I h)) ∧
  (0 ∉ freeList I ∧ ∀ h, 0 ∉ listOf I h) ∧
  ((freeList I).Nodup ∧ ∀ h, (listOf I h).Nodup) ∧
  ((∀ h, ∀ x ∈ listOf I h, x ∉ freeList I) ∧
    ∀ h g, h ≠ g → ∀ x ∈ listOf I h, x ∉ listOf I g) ∧
  (∀ x, 1 ≤ x → x < I.entry.length →
    (x ∈ freeList I ∨ ∃ h, x ∈ listOf I h)) ∧
  (I.next_free ≠ 0 → ∀ h, I.next_free ∉ listOf I h)

/-- The number of entries in a list of entries that are named by the name id `id`. -/
def nameCount (es : List PropertyUniqueEntry) (id : Int) : Nat :=
  es.countP (fun e => decide (e.prop_id = id))

/-- The number of entries of type String in a list of entries whose payload is the
string handle `id`. -/
def stringCount (es : List PropertyUniqueEntry) (id : Int) : Nat :=
  es.countP (fun e => decide (e.type = PropertyType.String ∧ e.value = PropValue.int id))

/-- The state after running a list of calls from `PropertyInit` (`PropertyInit` itself
when one of the calls leaves no state). -/
def stateAfter (cs : List Call) : CPropertyUnique :=
  (runCalls cs PropertyInit).getD PropertyInit

/-- Whether a call ended with an escaping `std::bad_variant_access`. -/
def Outcome.isThrown {α : Type} : Outcome α → Bool
  | .thrown _ => true
  | _ => false

/-- The content of the entry that the name-based lookup finds, when the walk ends and
finds one. -/
def lookupContent (I : CPropertyUnique) (prop_id : Int) (propname : String) :
    Option (Int × PropertyType × PropValue) :=
  match PropertyFindPropertyUniqueEntry I prop_id propname with
  | some (some e) => some e.content
  | _ => none

/-- A run that sets, deletes and copies properties of several types on two unique ids. -/
def sampleRunMixed : List Call :=
  [Call.set_int 1 "a" 1, Call.set_string 1 "b" "x", Call.set_double 2 "a" (mkRat 5 2),
    Call.delete 1 "a", Call.copy 1 2]

/-- A run that allocates unique id 1, gives it an Int and a String property, and gives
unique id 2 a String property with the same text. -/
def sampleRunDetach : List Call :=
  [Call.new_unique_id, Call.set_int 1 "a" 1, Call.set_string 1 "b" "x",
    Call.set_string 2 "c" "x"]

/-- A run that gives unique id 1 five properties, one of each type; four of the ten
initial slots stay free, so copying the five entries makes the slab grow. -/
def sampleRunCopy : List Call :=
  [Call.set_int 1 "a" 1, Call.set_string 1 "b" "x", Call.set_double 1 "c" (mkRat 5 2),
    Call.set_b 1 "d" 1, Call.set_color 1 "e" 7]

/-! ## The host's values (Python objects) -/

/-- A Python object of the host's scripting layer (`PyObject`, `CPythonVal`), as far as
the store builds and reads one: `None`, a bool, an int, a float, a string or a list. -/
inductive PyObject where
  | none
  | bool (b : Bool)
  | int (v : Int)
  | float (v : Rat)
  | str (s : String)
  | list (items : List PyObject)

/-- Modelled from the spec: the conversion `PConvPyIntToInt` of the marshalling layer
(PConv.h, not among the sources): the value of a Python int (a bool is an int in Python);
`none` when the object is no int, in which case nothing is stored. -/
def PConvPyIntToInt : PyObject → Option Int
  | PyObject.int v => some v
  | PyObject.bool b => some (if b then 1 else 0)
  | _ => none

/-- Modelled from the spec: the conversion `PConvPyBoolToInt` of the marshalling layer
(PConv.h, not among the sources): 1 for `True`, 0 for `False`; `none` when the object is no
bool, in which case nothing is stored. -/
def PConvPyBoolToInt : PyObject → Option Int
  | PyObject.bool b => some (if b then 1 else 0)
  | _ => none

/-- Modelled from the spec: the conversion `PConvPyFloatToDouble` of the marshalling layer
(PConv.h, not among the sources): the value of a Python float; `none` when the object is no
float, in which case nothing is stored. -/
def PConvPyFloatToDouble : PyObject → Option Rat
  | PyObject.float v => some v
  | _ => none

/-- Modelled from the spec: the conversion `PConvPyStrToStr` of the marshalling layer
(PConv.h, not among the sources): the text of a Python string; `none` when the object is no
string. -/
def PConvPyStrToStr : PyObject → Option String
  | PyObject.str s => some s
  | _ => none

/-- The integer value of a `PropertyType` enumerator (`static_cast<int>`). -/
def propertyTypeToInt : PropertyType → Int
  | PropertyType.Auto => -1
  | PropertyType.Blank => 0
  | PropertyType.Boolean => 1
  | PropertyType.Int => 2
  | PropertyType.Float => 3
  | PropertyType.Color => 5
  | PropertyType.String => 6

/-- The enumerator with a given integer value (`static_cast<PropertyType>`); `none` for an
integer that names no enumerator, which no `case` label matches. -/
def propertyTypeOfInt (i : Int) : Option PropertyType :=
  if i = -1 then some PropertyType.Auto
  else if i = 0 then some PropertyType.Blank
  else if i = 1 then some PropertyType.Boolean
  else if i = 2 then some PropertyType.Int
  else if i = 3 then some PropertyType.Float
  else if i = 5 then some PropertyType.Color
  else if i = 6 then some PropertyType.String
  else none

/-! ## PropertySetromString -/

/-- The comparison `strcasecmp` of two texts, character by character with ASCII letters
folded to lower case: 0 when the texts are equal up to case, otherwise the difference of
the first two characters that differ.  Only whether the result is 0 is used. -/
def strcasecmp (a b : String) : Int :=
  let rec go : List Char → List Char → Int
    | [], [] => 0
    | [], d :: _ => -(d.toLower.toNat : Int)
    | c :: _, [] => (c.toLower.toNat : Int)
    | c :: cs, d :: ds =>
      if c.toLower = d.toLower then go cs ds
      else (c.toLower.toNat : Int) - (d.toLower.toNat : Int)
  go a.data b.data

/-- The function `PropertySetromString`.  The two scans of the C library are parameters:
`scan_i value = some v` says that `sscanf(value, "%i %c", &ival, &nextchar)` returned 1
and stored `v` (an integer and then nothing but white space), and `scan_lf value = some x`
says the same of `sscanf(value, "%lf %c", &fval, &nextchar)`. -/
def PropertySetromString (scan_i : String → Option Int) (scan_lf : String → Option Rat)
    (I : CPropertyUnique) (unique_id : Int) (prop_name value : String) : Outcome Bool :=
  match scan_i value with
  | some ival => PropertySet_int I unique_id prop_name ival
  | none =>
    match scan_lf value with
    | some fval => PropertySet_double I unique_id prop_name fval
    | none =>
      if strcasecmp value "true" = 0 ∨ strcasecmp value "yes" = 0 then
        PropertyUniqueSet_b I unique_id prop_name 1
      else if strcasecmp value "false" = 0 ∨ strcasecmp value "no" = 0 then
        PropertyUniqueSet_b I unique_id prop_name 0
      else PropertySet_string I unique_id prop_name value

/-! ## PropertyGetNamesAsPyList, PropertyGetAsFloat, PropertyGetAsString -/

/-- The `while (src_offset)` loop of `PropertyGetNamesAsPyList`: the names of the entries
from `src_offset` on, resolved in `propnames`.  A name that does not resolve is a null
pointer handed to `PyString_FromString`, which has no defined result. -/
def getNamesLoop (I : CPropertyUnique) : Nat → Nat → Outcome (List PyObject)
  | 0, _ => Outcome.diverged
  | fuel + 1, src_offset =>
    if src_offset = 0 then Outcome.done I []
    else
      match OVLexicon_FetchCString I.propnames (getEntry I.entry src_offset).prop_id with
      | none => Outcome.diverged
      | some s =>
        match getNamesLoop I fuel (getEntry I.entry src_offset).next with
        | Outcome.done J rest => Outcome.done J (PyObject.str s :: rest)
        | Outcome.thrown J => Outcome.thrown J
        | Outcome.diverged => Outcome.diverged

/-- The function `PropertyGetNamesAsPyList`: the Python list of the property names of a
unique id, in list order. -/
def PropertyGetNamesAsPyList (I : CPropertyUnique) (unique_id : Int) : Outcome PyObject :=
  match I.id2offset unique_id with
  | some src_offset =>
    match getNamesLoop I I.entry.length src_offset with
    | Outcome.done J items => Outcome.done J (PyObject.list items)
    | Outcome.thrown J => Outcome.thrown J
    | Outcome.diverged => Outcome.diverged
  | none => Outcome.done I (PyObject.list [])

/-- The test `isspace` of the C library in the "C" locale. -/
def isspace (c : Char) : Bool :=
  decide (c.toNat = 32 ∨ (9 ≤ c.toNat ∧ c.toNat ≤ 13))

/-- The call `sscanf(sval, "%f", &fval)` of the C library, as its return value and the
number it stores, if any.  White space is skipped; when the text ends before anything is
converted the call returns `EOF` (-1) and stores nothing.  Otherwise `conv`, the
conversion of the C library, yields the number the rest of the text begins with, if it
begins with one: the call returns 1 and stores the number, or returns 0 and stores
nothing. -/
def sscanf_f (conv : List Char → Option Rat) (sval : String) : Int × Option Rat :=
  match sval.data.dropWhile isspace with
  | [] => (-1, none)
  | c :: cs =>
    match conv (c :: cs) with
    | some x => (1, some x)
    | none => (0, none)

/-- The function `PropertyGetAsFloat`.  `ok_assert(1, e)` jumps to `ok_except1`, which
returns 0.0, when `e` is zero or null.  The returned number is `some x`, or `none` when
the function returns the local `fval` without anything having been stored in it. -/
def PropertyGetAsFloat (conv : List Char → Option Rat) (I : CPropertyUnique)
    (prop_id : Int) (prop_name : String) : Outcome (Option Rat) :=
  match PropertyFindPropertyUniqueEntry I prop_id prop_name with
  | none => Outcome.diverged
  | some none => Outcome.done I (some 0)
  | some (some entry) =>
    match entry.type with
    | PropertyType.Float =>
      match entry.value.get_double with
      | some d => Outcome.done I (some d)
      | none => Outcome.thrown I
    | PropertyType.Int | PropertyType.Color =>
      match entry.value.get_int with
      | some v => Outcome.done I (some (v : Rat))
      | none => Outcome.thrown I
    | PropertyType.Boolean =>
      match entry.value.get_int with
      | some v => Outcome.done I (some (if v ≠ 0 then 1 else 0))
      | none => Outcome.thrown I
    | PropertyType.String =>
      match entry.value.get_int with
      | some v =>
        match OVLexicon_FetchCString I.string_values v with
        | some sval =>
          if (sscanf_f conv sval).1 ≠ 0 then Outcome.done I (sscanf_f conv sval).2
          else Outcome.done I (some 0)
        | none => Outcome.done I (some 0)
      | none => Outcome.thrown I
    | _ => Outcome.done I (some 0)

/-- The struct `PropertyFmtOptions`: each format string is modelled by the text that
`snprintf` writes with it for a given number. -/
structure PropertyFmtOptions where
  decFmt : Int → String
  boolFmt : Int → String
  floatFmt : Rat → String

/-- The function `PropertyGetAsString` (the overload that fills `buffer`): the text
returned, `none` for `nullptr`; `ok_assert(1, entry)` jumps to `ok_except1`, which returns
`nullptr`, when no entry is found. -/
def PropertyGetAsString (I : CPropertyUnique) (prop_id : Int) (prop_name : String)
    (fmt : PropertyFmtOptions) : Outcome (Option String) :=
  match PropertyFindPropertyUniqueEntry I prop_id prop_name with
  | none => Outcome.diverged
  | some none => Outcome.done I none
  | some (some entry) =>
    match entry.type with
    | PropertyType.Float =>
      match entry.value.get_double with
      | some d => Outcome.done I (some (fmt.floatFmt d))
      | none => Outcome.thrown I
    | PropertyType.Int | PropertyType.Color =>
      match entry.value.get_int with
      | some v => Outcome.done I (some (fmt.decFmt v))
      | none => Outcome.thrown I
    | PropertyType.Boolean =>
      match entry.value.get_int with
      | some v => Outcome.done I (some (fmt.boolFmt (if v ≠ 0 then 1 else 0)))
      | none => Outcome.thrown I
    | PropertyType.String =>
      match entry.value.get_int with
      | some v => Outcome.done I (OVLexicon_FetchCString I.string_values v)
      | none => Outcome.thrown I
    | _ => Outcome.done I none

/-- The function `PropertyGetAsString` (the overload that returns
`pymol::Result<std::string>`): the text, or the error "Invalid property". -/
def PropertyGetAsString_result (I : CPropertyUnique) (prop_id : Int) (prop_name : String)
    (fmt : PropertyFmtOptions) : Outcome (Except String String) :=
  match PropertyGetAsString I prop_id prop_name fmt with
  | Outcome.done J (some res) => Outcome.done J (Except.ok res)
  | Outcome.done J none => Outcome.done J (Except.error "Invalid property")
  | Outcome.thrown J => Outcome.thrown J
  | Outcome.diverged => Outcome.diverged

/-! ## PropertyAsPyList and PropertyFromPyList -/

/-- The `switch (prop_type)` of `PropertyAsPyList` that builds `pyvalue` for an entry;
`none` is the null `pyvalue` of the `default` case.  A Boolean entry is exported as
`std::holds_alternative<int>(src_entry->value) ? Py_True : Py_False`.  A string that does
not resolve is a null pointer handed to `PyString_FromString`, which has no defined
result. -/
def exportValue (I : CPropertyUnique) (src_entry : PropertyUniqueEntry) :
    Outcome (Option PyObject) :=
  match src_entry.type with
  | PropertyType.Int | PropertyType.Color =>
    match src_entry.value.get_int with
    | some v => Outcome.done I (some (PyObject.int v))
    | none => Outcome.thrown I
  | PropertyType.Boolean => Outcome.done I (some (PyObject.bool src_entry.value.holds_int))
  | PropertyType.Float =>
    match src_entry.value.get_double with
    | some d => Outcome.done I (some (PyObject.float d))
    | none => Outcome.thrown I
  | PropertyType.String =>
    match src_entry.value.get_int with
    | some v =>
      match OVLexicon_FetchCString I.string_values v with
      | some prop_value => Outcome.done I (some (PyObject.str prop_value))
      | none => Outcome.diverged
    | none => Outcome.thrown I
  | _ => Outcome.done I none

/-- The `while (ok && src_offset)` loop of `PropertyAsPyList`: one list per entry, holding
the name, the type (when `include_type` is set) and the value; `ok` is never cleared. -/
def asPyListLoop (I : CPropertyUnique) (include_type : Bool) :
    Nat → Nat → Outcome (List PyObject)
  | 0, _ => Outcome.diverged
  | fuel + 1, src_offset =>
    if src_offset = 0 then Outcome.done I []
    else
      let src_entry := getEntry I.entry src_offset
      match exportValue I src_entry with
      | Outcome.done _ (some pyvalue) =>
        match OVLexicon_FetchCString I.propnames src_entry.prop_id with
        | some prop_name =>
          let propList :=
            if include_type then
              PyObject.list [PyObject.str prop_name, PyObject.int (propertyTypeToInt src_entry.type), pyvalue]
            else PyObject.list [PyObject.str prop_name, pyvalue]
          match asPyListLoop I include_type fuel (getEntry I.entry src_offset).next with
          | Outcome.done J rest => Outcome.done J (propList :: rest)
          | Outcome.thrown J => Outcome.thrown J
          | Outcome.diverged => Outcome.diverged
        | none => Outcome.diverged
      | Outcome.done _ none =>
        asPyListLoop I include_type fuel (getEntry I.entry src_offset).next
      | Outcome.thrown J => Outcome.thrown J
      | Outcome.diverged => Outcome.diverged

/-- The function `PropertyAsPyList`. -/
def PropertyAsPyList (I : CPropertyUnique) (unique_id : Int) (include_type : Bool) :
    Outcome PyObject :=
  match I.id2offset unique_id with
  | some src_offset =>
    match asPyListLoop I include_type I.entry.length src_offset with
    | Outcome.done J items => Outcome.done J (PyObject.list items)
    | Outcome.thrown J => Outcome.thrown J
    | Outcome.diverged => Outcome.diverged
  | none => Outcome.done I (PyObject.list [])

/-- The `switch (prop_type)` of `PropertyFromPyList` for one item: the value is converted
and handed to a setter; `case PropertyType::Int` and `case PropertyType::Color` share the
call `PropertySet(G, prop_id, prop_name, prop_value)` with an `int`.  A value that does not
convert leaves `prop_value` uninitialised, which has no defined result.  The results of the
setters are not looked at. -/
def fromPyListSet (I : CPropertyUnique) (prop_id : Int) (prop_name : String)
    (prop_typeInt : Int) (propval : PyObject) : Outcome Unit :=
  let set (o : Option (Outcome Bool)) : Outcome Unit :=
    match o with
    | some (Outcome.done J _) => Outcome.done J ()
    | some (Outcome.thrown J) => Outcome.thrown J
    | some Outcome.diverged => Outcome.diverged
    | none => Outcome.diverged
  match propertyTypeOfInt prop_typeInt with
  | some PropertyType.Int | some PropertyType.Color =>
    set ((PConvPyIntToInt propval).map (PropertySet_int I prop_id prop_name))
  | some PropertyType.Boolean =>
    set ((PConvPyBoolToInt propval).map (PropertyUniqueSet_b I prop_id prop_name))
  | some PropertyType.Float =>
    set ((PConvPyFloatToDouble propval).map (PropertySet_double I prop_id prop_name))
  | some PropertyType.String =>
    set ((PConvPyStrToStr propval).map (PropertySet_string I prop_id prop_name))
  | _ => Outcome.done I ()

/-- The `for` loop of `PropertyFromPyList` over the items of the list: an item that is a
list of three gets the unique id (allocated on the first such item) and is stored; every
other item is skipped.  Returns `prop_id`. -/
def fromPyListLoop : List PyObject → CPropertyUnique → Int → Outcome Int
  | [], I, prop_id => Outcome.done I prop_id
  | PyObject.list [pVal, pType, propval] :: rest, I, prop_id =>
    let withId (I1 : CPropertyUnique) (id : Int) : Outcome Int :=
      match PConvPyStrToStr pVal, PConvPyIntToInt pType with
      | some prop_name, some prop_typeInt =>
        match fromPyListSet I1 id prop_name prop_typeInt propval with
        | Outcome.done I2 _ => fromPyListLoop rest I2 id
        | Outcome.thrown I2 => Outcome.thrown I2
        | Outcome.diverged => Outcome.diverged
      | _, _ => Outcome.diverged
    if prop_id = 0 then
      match PropertyGetNewUniqueID I with
      | Outcome.done I1 id => withId I1 id
      | Outcome.thrown I1 => Outcome.thrown I1
      | Outcome.diverged => Outcome.diverged
    else withId I prop_id
  | _ :: rest, I, prop_id => fromPyListLoop rest I prop_id

/-- The function `PropertyFromPyList`; `none` is the null pointer.  Returns the unique id
the items were stored under, 0 when there was none. -/
def PropertyFromPyList (I : CPropertyUnique) (list : Option PyObject) : Outcome Int :=
  match list with
  | some (PyObject.list items) => fromPyListLoop items I 0
  | _ => Outcome.done I 0

/-! ## Typed values -/

/-- A value of one of the five property types, as the setter of that type takes it. -/
inductive TypedValue where
  | Boolean (value : Int)
  | Int (value : Int)
  | Float (value : Rat)
  | Color (value : Int)
  | String (value : String)

/-- The public setter for a typed value: `PropertyUniqueSet_b`, the three overloads of
`PropertySet`, `PropertyUniqueSet_color`. -/
def setTyped (I : CPropertyUnique) (unique_id : Int) (prop_name : String) :
    TypedValue → Outcome Bool
  | TypedValue.Boolean value => PropertyUniqueSet_b I unique_id prop_name value
  | TypedValue.Int value => PropertySet_int I unique_id prop_name value
  | TypedValue.Float value => PropertySet_double I unique_id prop_name value
  | TypedValue.Color value => PropertyUniqueSet_color I unique_id prop_name value
  | TypedValue.String value => PropertySet_string I unique_id prop_name value

/-- Setting a list of named typed values on a unique id, one after another; `none` when
one of the calls does not return. -/
def setAll (unique_id : Int) : List (String × TypedValue) → CPropertyUnique →
    Option CPropertyUnique
  | [], I => some I
  | (prop_name, value) :: rest, I =>
    match setTyped I unique_id prop_name value with
    | Outcome.done J _ => setAll unique_id rest J
    | _ => none

/-- Whether a stored content (name id, type, payload) is a given typed value: the type is
that of the value and the payload is the number, or for a String the handle of the text in
`string_values`. -/
def holdsTypedValue (I : CPropertyUnique) (c : Int × PropertyType × PropValue)
    (value : TypedValue) : Prop :=
  match value with
  | TypedValue.Boolean b => c.2 = (PropertyType.Boolean, PropValue.int b)
  | TypedValue.Int i => c.2 = (PropertyType.Int, PropValue.int i)
  | TypedValue.Float d => c.2 = (PropertyType.Float, PropValue.double d)
  | TypedValue.Color i => c.2 = (PropertyType.Color, PropValue.int i)
  | TypedValue.String s =>
    c.2.1 = PropertyType.String ∧
      c.2.2.get_int.bind (OVLexicon_FetchCString I.string_values) = some s

/-- Two texts are equal when the case of ASCII letters is ignored. -/
def equalsIgnoreCase (a b : String) : Bool :=
  decide (a.data.map Char.toLower = b.data.map Char.toLower)

/-- The type inference for a text as the specification words it: an integer if the text
scans as one, else a floating-point number if it scans as one, else Boolean 1 for "true"
or "yes" and Boolean 0 for "false" or "no" in any case, else the text as a String. -/
def inferTypedValue (scan_i : String → Option Int) (scan_lf : String → Option Rat)
    (text : String) : TypedValue :=
  match scan_i text with
  | some v => TypedValue.Int v
  | none =>
    match scan_lf text with
    | some x => TypedValue.Float x
    | none =>
      if equalsIgnoreCase text "true" || equalsIgnoreCase text "yes" then
        TypedValue.Boolean 1
      else if equalsIgnoreCase text "false" || equalsIgnoreCase text "no" then
        TypedValue.Boolean 0
      else TypedValue.String text

/-- Exporting the properties of a unique id with `PropertyAsPyList` (types included) and
loading the exported list with `PropertyFromPyList`; returns the unique id that
`PropertyFromPyList` stored the list under. -/
def exportThenLoad (I : CPropertyUnique) (unique_id : Int) : Outcome Int :=
  match PropertyAsPyList I unique_id true with
  | Outcome.done J list => PropertyFromPyList J (some list)
  | Outcome.thrown J => Outcome.thrown J
  | Outcome.diverged => Outcome.diverged

/-- A run that gives unique id 1 the properties a, b and unique id 2 the properties b, a,
in these orders, and then copies the properties of 1 into 2. -/
def sampleRunDuplicate : List Call :=
  [Call.set_int 1 "a" 1, Call.set_int 1 "b" 2, Call.set_int 2 "b" 20, Call.set_int 2 "a" 10,
    Call.copy 1 2]

/-- A run of nine insertions on unique id 1, as many as the initial slab has free slots. -/
def sampleRunNine : List Call :=
  [Call.set_int 1 "a" 1, Call.set_int 1 "b" 2, Call.set_int 1 "c" 3, Call.set_int 1 "d" 4,
    Call.set_int 1 "e" 5, Call.set_int 1 "f" 6, Call.set_int 1 "g" 7, Call.set_int 1 "h" 8,
    Call.set_int 1 "i" 9]

/-- The properties of the ordering scenario: a = 1, b = 2.5, c = "x". -/
def sampleProps : List (String × TypedValue) :=
  [("a", TypedValue.Int 1), ("b", TypedValue.Float (mkRat 5 2)), ("c", TypedValue.String "x")]

/-- A scan for integers that knows the text "42" only. -/
def sampleScanInt (value : String) : Option Int :=
  if value = "42" then some 42 else none

/-- A scan for floating-point numbers that knows the text "3.14" only. -/
def sampleScanDouble (value : String) : Option Rat :=
  if value = "3.14" then some (mkRat 157 50) else none

/-- The value returned by a call, when it returns. -/
def Outcome.ret {α : Type} : Outcome α → Option α
  | .done _ r => some r
  | _ => none

/-! ## PropertySetPropertyImpl and the setter for an owner object -/

/-- Modelled from the spec: the conversion `PConvPyStrToStrPtr` of the marshalling layer
(PConv.h, not among the sources): the text of a Python string; `none` when the object is no
string. -/
def PConvPyStrToStrPtr : PyObject → Option String
  | PyObject.str s => some s
  | _ => none

/-- The function `strlen` of the C library: the number of `char`s (bytes) of a text. -/
def strlen (s : String) : Nat := s.utf8ByteSize

/-- Running a setter whose result is not looked at, and returning `ret`. -/
def thenReturn {α β : Type} (o : Outcome α) (ret : β) : Outcome β :=
  match o with
  | Outcome.done J _ => Outcome.done J ret
  | Outcome.thrown J => Outcome.thrown J
  | Outcome.diverged => Outcome.diverged

/-- The overload `PropertySet(G, prop_id, propname, PyObject* value)` that derives the
property type from the Python type, trying float, bool, int and string in this order; a
null pointer or `None` deletes the property; any other object is a `TypeError` and the
call returns false.  `none` is the null pointer. -/
def PropertySet_py (I : CPropertyUnique) (prop_id : Int) (propname : String)
    (value : Option PyObject) : Outcome Bool :=
  match value.bind PConvPyFloatToDouble with
  | some valueFloat => thenReturn (PropertySet_double I prop_id propname valueFloat) true
  | none =>
    match value.bind PConvPyBoolToInt with
    | some valueInt => thenReturn (PropertyUniqueSet_b I prop_id propname valueInt) true
    | none =>
      match value.bind PConvPyIntToInt with
      | some valueInt => thenReturn (PropertySet_int I prop_id propname valueInt) true
      | none =>
        match value.bind PConvPyStrToStrPtr with
        | some valueStr => thenReturn (PropertySet_string I prop_id propname valueStr) true
        | none =>
          match value with
          | none => thenReturn (PropertyDelete I prop_id propname) true
          | some PyObject.none => thenReturn (PropertyDelete I prop_id propname) true
          | _ => Outcome.done I false

/-- The function `PropertySetPropertyImpl` (the build with Python): a name whose length
`keylen` is more than 1024 is rejected with a diagnostic and 0 is returned.  `keylen` is
an `int`: the `size_t` of `strlen` is narrowed to 32 bits.  The scans of
`PropertySetromString` are parameters. -/
def PropertySetPropertyImpl (scan_i : String → Option Int) (scan_lf : String → Option Rat)
    (I : CPropertyUnique) (prop_id : Int) (propname : String) (value : Option PyObject)
    (proptype : PropertyType) : Outcome Int :=
  let keylen : Int := wrap32 (strlen propname)
  if keylen > 1024 then Outcome.done I 0
  else
    match (if proptype = PropertyType.Auto then value.bind PConvPyStrToStrPtr else none) with
    | some valueStr =>
      thenReturn (PropertySetromString scan_i scan_lf I prop_id propname valueStr) 1
    | none =>
      if proptype = PropertyType.Color then
        match value.bind PConvPyIntToInt with
        | none => Outcome.done I 0
        | some valueInt => thenReturn (PropertyUniqueSet_color I prop_id propname valueInt) 1
      else
        match PropertySet_py I prop_id propname value with
        | Outcome.done J ret => Outcome.done J (if ret then 1 else 0)
        | Outcome.thrown J => Outcome.thrown J
        | Outcome.diverged => Outcome.diverged

/-- The template `PropertyCheckUniqueID(G, x)` of Property.h for an owner object `x` with a
`prop_id` field: an owner whose `prop_id` is 0 gets a new unique id.  Returns the
`prop_id` of `x` after the call. -/
def PropertyCheckUniqueID (I : CPropertyUnique) (x_prop_id : Int) : Outcome Int :=
  if x_prop_id = 0 then PropertyGetNewUniqueID I else Outcome.done I x_prop_id

/-- The outcome of a call on an owner object: the `prop_id` of the owner after the call
next to the returned number. -/
def withOwner (id : Int) (o : Outcome Int) : Outcome (Int × Int) :=
  match o with
  | Outcome.done I2 ret => Outcome.done I2 (id, ret)
  | Outcome.thrown I2 => Outcome.thrown I2
  | Outcome.diverged => Outcome.diverged

/-- The template `PropertySet(G, x, propname, value, proptype)` of Property.h for an owner
object `x`: `PropertyCheckUniqueID`, then `PropertySetPropertyImpl`.  Returns the `prop_id`
of `x` after the call and the returned number. -/
def PropertySet_owner (scan_i : String → Option Int) (scan_lf : String → Option Rat)
    (I : CPropertyUnique) (x_prop_id : Int) (propname : String) (value : Option PyObject)
    (proptype : PropertyType) : Outcome (Int × Int) :=
  match PropertyCheckUniqueID I x_prop_id with
  | Outcome.done I1 id =>
    withOwner id (PropertySetPropertyImpl scan_i scan_lf I1 id propname value proptype)
  | Outcome.thrown I1 => Outcome.thrown I1
  | Outcome.diverged => Outcome.diverged

/-- A name of 1025 characters. -/
def sampleLongName : String := String.mk (List.replicate 1025 'a')

/-- A name of exactly 1024 characters. -/
def sampleName1024 : String := String.mk (List.replicate 1024 'a')

/-! ## Counting the entries that hold a name -/

/-- The number of entries named by the name id `id` on the lists of the unique ids `hs`. -/
def totalNameCount (I : CPropertyUnique) (hs : List Int) (id : Int) : Nat :=
  (hs.map (fun h => nameCount (entriesOf I h) id)).sum

/-- The reference counts of the name interner cover the entries: for distinct unique ids
the number of their entries with a name id is at most the reference count of that id, and
an id beyond the handles handed out so far has no reference. -/
def RefInv (I : CPropertyUnique) : Prop :=
  (∀ hs : List Int, hs.Nodup → ∀ id, (totalNameCount I hs id : Int) ≤ I.propnames.ref_cnt id) ∧
    ∀ id : Int, (I.propnames.n_entry : Int) < id → I.propnames.ref_cnt id ≤ 0

/-- The same for lists of slots `L`, one for each unique id. -/
def RefAbs (I : CPropertyUnique) (L : Int → List Nat) : Prop :=
  (∀ hs : List Int, hs.Nodup → ∀ id,
      (((hs.map (fun h => nameCount ((L h).map (getEntry I.entry)) id)).sum : Nat) : Int) ≤
        I.propnames.ref_cnt id) ∧
    ∀ id : Int, (I.propnames.n_entry : Int) < id → I.propnames.ref_cnt id ≤ 0

/-- A state whose handle counter is at the largest 32-bit value. -/
def sampleStateAtMax : CPropertyUnique :=
  { PropertyInit with NextUniqueID := 2147483647, ActiveIDs := [1, 2] }

/-- A run that gives unique id 1 the Float property a = 2.5 and unique id 2 eight Int
properties: all nine free slots of the initial slab are taken. -/
def sampleRunFull : List Call :=
  [Call.set_double 1 "a" (mkRat 5 2), Call.set_int 2 "b" 1, Call.set_int 2 "c" 2,
    Call.set_int 2 "d" 3, Call.set_int 2 "e" 4, Call.set_int 2 "f" 5, Call.set_int 2 "g" 6,
    Call.set_int 2 "h" 7, Call.set_int 2 "i" 8]

/-! # Theorems -/

/-! ## Reading and writing slab slots -/

theorem getEntry_set (e : List PropertyUniqueEntry) (i y : Nat) (a : PropertyUniqueEntry) :
    getEntry (e.set i a) y = if y = i ∧ i < e.length then a else getEntry e y := by
  unfold getEntry
  simp only [List.getD_eq_getElem?_getD, List.getElem?_set]
  by_cases h : i = y
  · subst h
    by_cases h2 : i < e.length
    · simp [h2]
    · simp [h2, List.getElem?_eq_none (not_lt.mp h2)]
  · have : ¬ (y = i) := fun h' => h h'.symm
    simp [h, this]

@[simp] theorem getEntry_setNext (e : List PropertyUniqueEntry) (i n y : Nat) :
    getEntry (setNext e i n) y =
      if y = i ∧ i < e.length then { getEntry e i with next := n } else getEntry e y := by
  unfold setNext; exact getEntry_set _ _ _ _

@[simp] theorem getEntry_setTypeValue (e : List PropertyUniqueEntry) (i y : Nat)
    (ty : PropertyType) (v : PropValue) :
    getEntry (setTypeValue e i ty v) y =
      if y = i ∧ i < e.length then { getEntry e i with type := ty, value := v }
      else getEntry e y := by
  unfold setTypeValue; exact getEntry_set _ _ _ _

@[simp] theorem getEntry_setPropId (e : List PropertyUniqueEntry) (i y : Nat) (p : Int) :
    getEntry (setPropId e i p) y =
      if y = i ∧ i < e.length then { getEntry e i with prop_id := p } else getEntry e y := by
  unfold setPropId; exact getEntry_set _ _ _ _

@[simp] theorem length_setNext (e : List PropertyUniqueEntry) (i n : Nat) :
    (setNext e i n).length = e.length := by
  unfold setNext; simp

@[simp] theorem length_setTypeValue (e : List PropertyUniqueEntry) (i : Nat)
    (ty : PropertyType) (v : PropValue) : (setTypeValue e i ty v).length = e.length := by
  unfold setTypeValue; simp

@[simp] theorem length_setPropId (e : List PropertyUniqueEntry) (i : Nat) (p : Int) :
    (setPropId e i p).length = e.length := by
  unfold setPropId; simp

theorem getEntry_append_left (e e2 : List PropertyUniqueEntry) (y : Nat) (h : y < e.length) :
    getEntry (e ++ e2) y = getEntry e y := by
  unfold getEntry; exact List.getD_append _ _ _ _ h

theorem getEntry_append_replicate (e : List PropertyUniqueEntry) (k y : Nat)
    (h : e.length ≤ y) : getEntry (e ++ List.replicate k default) y = default := by
  unfold getEntry
  rw [List.getD_append_right _ _ _ _ h, List.getD_eq_getElem?_getD]
  by_cases h2 : y - e.length < k
  · simp [List.getElem?_replicate, h2]
  · simp [List.getElem?_replicate, h2]

/-! ## Segments and chains -/

theorem isSeg_nil (e : List PropertyUniqueEntry) (o t : Nat) : IsSeg e o [] t ↔ o = t :=
  Iff.rfl

theorem isSeg_cons (e : List PropertyUniqueEntry) (o x t : Nat) (xs : List Nat) :
    IsSeg e o (x :: xs) t ↔
      o = x ∧ x ≠ 0 ∧ x < e.length ∧ IsSeg e (getEntry e x).next xs t :=
  Iff.rfl

theorem IsSeg.congr {e e2 : List PropertyUniqueEntry} {l : List Nat} {o t : Nat}
    (h : IsSeg e o l t) (hlen : e.length ≤ e2.length)
    (hn : ∀ x ∈ l, (getEntry e2 x).next = (getEntry e x).next) : IsSeg e2 o l t := by
  induction l generalizing o with
  | nil => exact h
  | cons x xs ih =>
    obtain ⟨h1, h2, h3, h4⟩ := h
    refine ⟨h1, h2, lt_of_lt_of_le h3 hlen, ?_⟩
    rw [hn x (List.mem_cons_self _ _)]
    exact ih h4 (fun y hy => hn y (List.mem_cons_of_mem _ hy))

theorem isSeg_append (e : List PropertyUniqueEntry) (l1 l2 : List Nat) (o t : Nat) :
    IsSeg e o (l1 ++ l2) t ↔ ∃ m, IsSeg e o l1 m ∧ IsSeg e m l2 t := by
  induction l1 generalizing o with
  | nil =>
    constructor
    · intro h; exact ⟨o, rfl, h⟩
    · rintro ⟨m, h1, h2⟩
      have : o = m := h1
      subst this; exact h2
  | cons x xs ih =>
    constructor
    · rintro ⟨h1, h2, h3, h4⟩
      obtain ⟨m, h5, h6⟩ := (ih _).1 h4
      exact ⟨m, ⟨h1, h2, h3, h5⟩, h6⟩
    · rintro ⟨m, ⟨h1, h2, h3, h5⟩, h6⟩
      exact ⟨h1, h2, h3, (ih _).2 ⟨m, h5, h6⟩⟩

theorem IsSeg.mem_bound {e : List PropertyUniqueEntry} {l : List Nat} {o t x : Nat}
    (h : IsSeg e o l t) (hx : x ∈ l) : x ≠ 0 ∧ x < e.length := by
  induction l generalizing o with
  | nil => cases hx
  | cons y ys ih =>
    obtain ⟨_, h2, h3, h4⟩ := h
    rcases List.mem_cons.1 hx with rfl | hx
    · exact ⟨h2, h3⟩
    · exact ih h4 hx

theorem isChain_zero (e : List PropertyUniqueEntry) (l : List Nat) :
    IsChain e 0 l ↔ l = [] := by
  cases l with
  | nil => simp [IsChain, IsSeg]
  | cons x xs =>
    simp only [IsChain, IsSeg, reduceCtorEq, iff_false, not_and]
    intro h1 h2
    exact absurd h1.symm h2

theorem IsChain.unique {e : List PropertyUniqueEntry} {l l2 : List Nat} {o : Nat}
    (h : IsChain e o l) (h2 : IsChain e o l2) : l = l2 := by
  induction l generalizing o l2 with
  | nil =>
    have : o = 0 := h
    subst this
    exact ((isChain_zero e l2).1 h2).symm
  | cons x xs ih =>
    obtain ⟨h1, hx0, _, h4⟩ := h
    cases l2 with
    | nil =>
      have : o = 0 := h2
      exact absurd (h1 ▸ this) hx0
    | cons y ys =>
      obtain ⟨g1, _, _, g4⟩ := h2
      have hxy : x = y := h1.symm.trans g1
      subst hxy
      rw [ih h4 g4]

theorem IsChain.chainFrom_eq {e : List PropertyUniqueEntry} {l : List Nat} {o : Nat}
    (h : IsChain e o l) (fuel : Nat) (hf : l.length ≤ fuel) : chainFrom e fuel o = l := by
  induction l generalizing o fuel with
  | nil =>
    have : o = 0 := h
    subst this
    cases fuel <;> simp [chainFrom]
  | cons x xs ih =>
    obtain ⟨h1, hx0, _, h4⟩ := h
    subst h1
    cases fuel with
    | zero => simp at hf
    | succ f =>
      simp only [chainFrom, hx0, if_false]
      rw [ih h4 f (by simpa using hf)]

theorem length_lt_of_nodup_bound {l : List Nat} {n : Nat} (hn : 1 ≤ n) (hd : l.Nodup)
    (hb : ∀ x ∈ l, x ≠ 0 ∧ x < n) : l.length < n := by
  have hsub : l ⊆ List.range' 1 (n - 1) := by
    intro x hx
    obtain ⟨h0, h1⟩ := hb x hx
    rw [List.mem_range']
    exact ⟨x - 1, by omega, by omega⟩
  have := (List.subperm_of_subset hd hsub).length_le
  simp at this
  omega

theorem IsSeg.next_mem {e : List PropertyUniqueEntry} {l : List Nat} {o x : Nat}
    (h : IsChain e o l) (hx : x ∈ l) :
    (getEntry e x).next = 0 ∨ (getEntry e x).next ∈ l := by
  induction l generalizing o with
  | nil => cases hx
  | cons y ys ih =>
    obtain ⟨_, _, _, h4⟩ := h
    rcases List.mem_cons.1 hx with rfl | hx
    · cases ys with
      | nil => left; exact h4
      | cons z zs =>
        right
        have : (getEntry e x).next = z := h4.1
        rw [this]; simp
    · rcases ih h4 hx with h | h
      · exact Or.inl h
      · exact Or.inr (List.mem_cons_of_mem _ h)

/-- A member of a chain starts the chain of the cells from it on. -/
theorem IsChain.split_at {e : List PropertyUniqueEntry} {l : List Nat} {o x : Nat}
    (h : IsChain e o l) (hx : x ∈ l) :
    ∃ l1 l2, l = l1 ++ x :: l2 ∧ IsSeg e o l1 x ∧ IsChain e x (x :: l2) := by
  obtain ⟨l1, l2, rfl⟩ := List.append_of_mem hx
  obtain ⟨m, h1, h2⟩ := (isSeg_append e l1 (x :: l2) o 0).1 h
  have : m = x := h2.1
  subst this
  exact ⟨l1, l2, rfl, h1, h2⟩

/-! ## Steps that preserve the slab partition -/

theorem kindOK_congr {a b : PropertyUniqueEntry} (ht : a.type = b.type)
    (hv : a.value = b.value) : KindOK a ↔ KindOK b := by
  unfold KindOK; rw [ht, hv]

theorem SlabInv.overwrite {e e2 : List PropertyUniqueEntry} {nf : Nat} {hd : Int → Nat}
    {free : List Nat} {L : Int → List Nat} (h : SlabInv e nf hd free L)
    (hlen : e2.length = e.length)
    (hn : ∀ y, (getEntry e2 y).next = (getEntry e y).next)
    (hk : ∀ h x, x ∈ L h → KindOK (getEntry e2 x)) : SlabInv e2 nf hd free L where
  free_chain := IsSeg.congr h.free_chain (le_of_eq hlen.symm) (fun y _ => hn y)
  list_chain := fun u => IsSeg.congr (h.list_chain u) (le_of_eq hlen.symm) (fun y _ => hn y)
  free_nodup := h.free_nodup
  list_nodup := h.list_nodup
  free_disj := h.free_disj
  list_disj := h.list_disj
  cover := fun x h0 hx => h.cover x h0 (hlen ▸ hx)
  kind := hk
  size := hlen ▸ h.size

theorem SlabInv.alloc_head {e e2 : List PropertyUniqueEntry} {nf x : Nat} {hd : Int → Nat}
    {rest : List Nat} {L : Int → List Nat} (h : SlabInv e nf hd (x :: rest) L)
    (uid : Int) (hu : L uid = []) (hlen : e2.length = e.length)
    (hsame : ∀ y, y ≠ x → getEntry e2 y = getEntry e y)
    (hx : (getEntry e2 x).next = 0) (hk : KindOK (getEntry e2 x)) :
    SlabInv e2 (getEntry e x).next (Function.update hd uid x) rest
      (Function.update L uid [x]) := by
  obtain ⟨hnf, hx0, hxlen, hrest⟩ := h.free_chain
  have hxrest : x ∉ rest := (List.nodup_cons.1 h.free_nodup).1
  have hxL : ∀ u, x ∉ L u := fun u hm => h.free_disj u x hm (List.mem_cons_self _ _)
  refine ⟨?_, ?_, (List.nodup_cons.1 h.free_nodup).2, ?_, ?_, ?_, ?_, ?_, hlen ▸ h.size⟩
  · exact IsSeg.congr hrest (le_of_eq hlen.symm)
      (fun y hy => by rw [hsame y (fun hyx => hxrest (hyx ▸ hy))])
  · intro u
    by_cases hu2 : u = uid
    · subst hu2
      simp only [Function.update_same]
      exact ⟨rfl, hx0, hlen ▸ hxlen, hx⟩
    · simp only [Function.update_noteq hu2]
      exact IsSeg.congr (h.list_chain u) (le_of_eq hlen.symm)
        (fun y hy => by rw [hsame y (fun hyx => hxL u (hyx ▸ hy))])
  · intro u
    by_cases hu2 : u = uid
    · subst hu2; simp
    · simp only [Function.update_noteq hu2]; exact h.list_nodup u
  · intro u y hy hyr
    by_cases hu2 : u = uid
    · subst hu2
      simp only [Function.update_same, List.mem_singleton] at hy
      exact hxrest (hy ▸ hyr)
    · simp only [Function.update_noteq hu2] at hy
      exact h.free_disj u y hy (List.mem_cons_of_mem _ hyr)
  · intro u g y hy hg
    by_cases hu2 : u = uid <;> by_cases hg2 : g = uid
    · rw [hu2, hg2]
    · subst hu2
      simp only [Function.update_same, List.mem_singleton, Function.update_noteq hg2] at hy hg
      exact absurd (hy ▸ hg) (hxL g)
    · subst hg2
      simp only [Function.update_same, List.mem_singleton, Function.update_noteq hu2] at hy hg
      exact absurd (hg ▸ hy) (hxL u)
    · simp only [Function.update_noteq hu2, Function.update_noteq hg2] at hy hg
      exact h.list_disj u g y hy hg
  · intro y hy0 hylen
    rcases h.cover y hy0 (hlen ▸ hylen) with hf | ⟨u, hu3⟩
    · rcases List.mem_cons.1 hf with rfl | hf
      · exact Or.inr ⟨uid, by simp⟩
      · exact Or.inl hf
    · refine Or.inr ⟨u, ?_⟩
      by_cases hu2 : u = uid
      · subst hu2; rw [hu] at hu3; cases hu3
      · simpa only [Function.update_noteq hu2] using hu3
  · intro u y hy
    by_cases hu2 : u = uid
    · subst hu2
      simp only [Function.update_same, List.mem_singleton] at hy
      subst hy; exact hk
    · simp only [Function.update_noteq hu2] at hy
      rw [hsame y (fun hyx => hxL u (hyx ▸ hy))]
      exact h.kind u y hy

theorem SlabInv.alloc_append {e e2 : List PropertyUniqueEntry} {nf x : Nat} {hd : Int → Nat}
    {rest : List Nat} {L : Int → List Nat} (h : SlabInv e nf hd (x :: rest) L)
    (uid : Int) (l1 : List Nat) (p : Nat) (hu : L uid = l1 ++ [p])
    (hlen : e2.length = e.length)
    (hsame : ∀ y, y ≠ x → y ≠ p → getEntry e2 y = getEntry e y)
    (hp : getEntry e2 p = { getEntry e p with next := x })
    (hx : (getEntry e2 x).next = 0) (hk : KindOK (getEntry e2 x)) :
    SlabInv e2 (getEntry e x).next hd rest (Function.update L uid (l1 ++ [p, x])) := by
  obtain ⟨hnf, hx0, hxlen, hrest⟩ := h.free_chain
  have hxrest : x ∉ rest := (List.nodup_cons.1 h.free_nodup).1
  have hxL : ∀ u, x ∉ L u := fun u hm => h.free_disj u x hm (List.mem_cons_self _ _)
  have hpL : p ∈ L uid := by rw [hu]; simp
  have hpx : p ≠ x := fun hpx => hxL uid (hpx ▸ hpL)
  have hnd := h.list_nodup uid
  rw [hu] at hnd
  have hpl1 : p ∉ l1 := by
    intro hm
    have := List.nodup_append.1 hnd
    exact this.2.2 hm (List.mem_singleton_self p)
  have hmem : ∀ y, y ∈ l1 ++ [p, x] ↔ y ∈ L uid ∨ y = x := by
    intro y; rw [hu]; simp only [List.mem_append, List.mem_cons, List.mem_singleton,
      List.not_mem_nil, or_false]; tauto
  refine ⟨?_, ?_, (List.nodup_cons.1 h.free_nodup).2, ?_, ?_, ?_, ?_, ?_, hlen ▸ h.size⟩
  · refine IsSeg.congr hrest (le_of_eq hlen.symm) (fun y hy => ?_)
    rw [hsame y (fun hyx => hxrest (hyx ▸ hy))
      (fun hyp => h.free_disj uid p hpL (List.mem_cons_of_mem _ (hyp ▸ hy)))]
  · intro u
    by_cases hu2 : u = uid
    · subst hu2
      simp only [Function.update_same]
      have hc := h.list_chain u
      rw [hu] at hc
      obtain ⟨m, hc1, hc2⟩ := (isSeg_append e l1 [p] (hd u) 0).1 hc
      obtain ⟨hm, hp0, hplen, _⟩ := hc2
      subst hm
      refine (isSeg_append e2 l1 [m, x] (hd u) 0).2 ⟨m, ?_, ?_⟩
      · refine IsSeg.congr hc1 (le_of_eq hlen.symm) (fun y hy => ?_)
        rw [hsame y (fun hyx => hxL u (hyx ▸ (by rw [hu]; simp [hy])))
          (fun hyp => hpl1 (hyp ▸ hy))]
      · refine ⟨rfl, hp0, hlen ▸ hplen, ?_⟩
        rw [hp]
        exact ⟨rfl, hx0, hlen ▸ hxlen, hx⟩
    · simp only [Function.update_noteq hu2]
      refine IsSeg.congr (h.list_chain u) (le_of_eq hlen.symm) (fun y hy => ?_)
      rw [hsame y (fun hyx => hxL u (hyx ▸ hy))
        (fun hyp => hu2 (h.list_disj u uid p (hyp ▸ hy) hpL))]
  · intro u
    by_cases hu2 : u = uid
    · subst hu2
      simp only [Function.update_same]
      have : l1 ++ [p, x] = (l1 ++ [p]) ++ [x] := by simp
      rw [this]
      refine List.nodup_append.2 ⟨hnd, List.nodup_singleton x, ?_⟩
      intro a ha hb
      rw [List.mem_singleton] at hb
      subst hb
      exact hxL u (hu ▸ ha)
    · simp only [Function.update_noteq hu2]; exact h.list_nodup u
  · intro u y hy hyr
    by_cases hu2 : u = uid
    · subst hu2
      simp only [Function.update_same] at hy
      rcases (hmem y).1 hy with hy | hy
      · exact h.free_disj u y hy (List.mem_cons_of_mem _ hyr)
      · exact hxrest (hy ▸ hyr)
    · simp only [Function.update_noteq hu2] at hy
      exact h.free_disj u y hy (List.mem_cons_of_mem _ hyr)
  · intro u g y hy hg
    by_cases hu2 : u = uid <;> by_cases hg2 : g = uid
    · rw [hu2, hg2]
    · subst hu2
      simp only [Function.update_same, Function.update_noteq hg2] at hy hg
      rcases (hmem y).1 hy with hy | hy
      · exact h.list_disj u g y hy hg
      · exact absurd (hy ▸ hg) (hxL g)
    · subst hg2
      simp only [Function.update_same, Function.update_noteq hu2] at hy hg
      rcases (hmem y).1 hg with hg | hg
      · exact h.list_disj u g y hy hg
      · exact absurd (hg ▸ hy) (hxL u)
    · simp only [Function.update_noteq hu2, Function.update_noteq hg2] at hy hg
      exact h.list_disj u g y hy hg
  · intro y hy0 hylen
    rcases h.cover y hy0 (hlen ▸ hylen) with hf | ⟨u, hu3⟩
    · rcases List.mem_cons.1 hf with rfl | hf
      · exact Or.inr ⟨uid, by simp⟩
      · exact Or.inl hf
    · refine Or.inr ⟨u, ?_⟩
      by_cases hu2 : u = uid
      · subst hu2; simp only [Function.update_same]; exact (hmem y).2 (Or.inl hu3)
      · simpa only [Function.update_noteq hu2] using hu3
  · intro u y hy
    by_cases hu2 : u = uid
    · subst hu2
      simp only [Function.update_same] at hy
      rcases (hmem y).1 hy with hy1 | hy1
      · by_cases hyp : y = p
        · rw [hyp, hp]
          exact (kindOK_congr rfl rfl).1 (h.kind u p hpL)
        · rw [hsame y (fun hyx => hxL u (hyx ▸ hy1)) hyp]
          exact h.kind u y hy1
      · rw [hy1]; exact hk
    · simp only [Function.update_noteq hu2] at hy
      rw [hsame y (fun hyx => hxL u (hyx ▸ hy))
        (fun hyp => hu2 (h.list_disj u uid p (hyp ▸ hy) hpL))]
      exact h.kind u y hy

theorem SlabInv.release {e E : List PropertyUniqueEntry} {nf x : Nat} {hd : Int → Nat}
    {free : List Nat} {L : Int → List Nat} (h : SlabInv e nf hd free L)
    (uid : Int) (l1 l2 : List Nat) (hdnew : Nat) (hu : L uid = l1 ++ x :: l2)
    (hlen : E.length = e.length)
    (hxn : (getEntry E x).next = nf)
    (hout : ∀ y, y ∉ L uid → getEntry E y = getEntry e y)
    (hkeep : ∀ y ∈ l1 ++ l2, KindOK (getEntry E y))
    (hchain : IsChain E hdnew (l1 ++ l2)) :
    SlabInv E x (Function.update hd uid hdnew) (x :: free)
      (Function.update L uid (l1 ++ l2)) := by
  have hxL : x ∈ L uid := by rw [hu]; simp
  have hxb := IsSeg.mem_bound (h.list_chain uid) hxL
  have hxfree : x ∉ free := h.free_disj uid x hxL
  have hnd := h.list_nodup uid
  rw [hu] at hnd
  have hxl : x ∉ l1 ++ l2 := by
    intro hm
    have h1 := List.nodup_append.1 hnd
    have h2 := List.nodup_cons.1 h1.2.1
    rcases List.mem_append.1 hm with hm | hm
    · exact h1.2.2 hm (List.mem_cons_self _ _)
    · exact h2.1 hm
  have hsub : ∀ u y, y ∈ Function.update L uid (l1 ++ l2) u → y ∈ L u := by
    intro u y hy
    by_cases hu2 : u = uid
    · subst hu2
      simp only [Function.update_same] at hy
      rw [hu]
      rcases List.mem_append.1 hy with hy | hy
      · exact List.mem_append_left _ hy
      · exact List.mem_append_right _ (List.mem_cons_of_mem _ hy)
    · simpa only [Function.update_noteq hu2] using hy
  have hne : ∀ u y, y ∈ Function.update L uid (l1 ++ l2) u → y ≠ x := by
    intro u y hy hyx
    by_cases hu2 : u = uid
    · subst hu2
      simp only [Function.update_same] at hy
      exact hxl (hyx ▸ hy)
    · simp only [Function.update_noteq hu2] at hy
      exact hu2 (h.list_disj u uid x (hyx ▸ hy) hxL)
  refine ⟨?_, ?_, List.nodup_cons.2 ⟨hxfree, h.free_nodup⟩, ?_, ?_, ?_, ?_, ?_, hlen ▸ h.size⟩
  · refine ⟨rfl, hxb.1, hlen ▸ hxb.2, ?_⟩
    rw [hxn]
    refine IsSeg.congr h.free_chain (le_of_eq hlen.symm) (fun y hy => ?_)
    rw [hout y (fun hyL => h.free_disj uid y hyL hy)]
  · intro u
    by_cases hu2 : u = uid
    · subst hu2
      simp only [Function.update_same]
      exact hchain
    · simp only [Function.update_noteq hu2]
      refine IsSeg.congr (h.list_chain u) (le_of_eq hlen.symm) (fun y hy => ?_)
      rw [hout y (fun hyL => hu2 (h.list_disj u uid y hy hyL))]
  · intro u
    by_cases hu2 : u = uid
    · subst hu2
      simp only [Function.update_same]
      have h1 := List.nodup_append.1 hnd
      have h2 := List.nodup_cons.1 h1.2.1
      exact List.nodup_append.2 ⟨h1.1, h2.2,
        fun a ha hb => h1.2.2 ha (List.mem_cons_of_mem _ hb)⟩
    · simp only [Function.update_noteq hu2]; exact h.list_nodup u
  · intro u y hy hyf
    rcases List.mem_cons.1 hyf with hyx | hyf
    · exact hne u y hy hyx
    · exact h.free_disj u y (hsub u y hy) hyf
  · intro u g y hy hg
    exact h.list_disj u g y (hsub u y hy) (hsub g y hg)
  · intro y hy0 hylen
    by_cases hyx : y = x
    · exact Or.inl (hyx ▸ List.mem_cons_self _ _)
    rcases h.cover y hy0 (hlen ▸ hylen) with hf | ⟨u, hu3⟩
    · exact Or.inl (List.mem_cons_of_mem _ hf)
    · refine Or.inr ⟨u, ?_⟩
      by_cases hu2 : u = uid
      · subst hu2
        simp only [Function.update_same]
        rw [hu] at hu3
        rcases List.mem_append.1 hu3 with hm | hm
        · exact List.mem_append_left _ hm
        · rcases List.mem_cons.1 hm with hm | hm
          · exact absurd hm hyx
          · exact List.mem_append_right _ hm
      · simpa only [Function.update_noteq hu2] using hu3
  · intro u y hy
    by_cases hu2 : u = uid
    · subst hu2
      simp only [Function.update_same] at hy
      exact hkeep y hy
    · simp only [Function.update_noteq hu2] at hy
      rw [hout y (fun hyL => hu2 (h.list_disj u uid y hy hyL))]
      exact h.kind u y hy

theorem SlabInv.delete_head {e : List PropertyUniqueEntry} {nf x : Nat} {hd : Int → Nat}
    {free : List Nat} {L : Int → List Nat} (h : SlabInv e nf hd free L)
    (uid : Int) (l2 : List Nat) (hu : L uid = x :: l2) :
    SlabInv (setNext e x nf) x (Function.update hd uid (getEntry e x).next) (x :: free)
      (Function.update L uid l2) := by
  have hc := h.list_chain uid
  rw [hu] at hc
  obtain ⟨_, hx0, hxlen, hrest⟩ := hc
  have hnd := h.list_nodup uid
  rw [hu] at hnd
  have hxl2 : x ∉ l2 := (List.nodup_cons.1 hnd).1
  have key := h.release uid [] l2 (getEntry e x).next (E := setNext e x nf) (x := x)
    (by simpa using hu) (by simp) (by simp [hxlen])
    (fun y hy => by
      have : y ≠ x := fun hyx => hy (by rw [hu, hyx]; simp)
      simp [this])
    (fun y hy => by
      have hy2 : y ∈ l2 := by simpa using hy
      have : y ≠ x := fun hyx => hxl2 (hyx ▸ hy2)
      simp only [getEntry_setNext, this, false_and, if_false]
      exact h.kind uid y (by rw [hu]; exact List.mem_cons_of_mem _ hy2))
    (by
      simp only [List.nil_append]
      refine IsSeg.congr hrest (by simp) (fun y hy => ?_)
      have : y ≠ x := fun hyx => hxl2 (hyx ▸ hy)
      simp [this])
  simpa using key

theorem SlabInv.delete_mid {e : List PropertyUniqueEntry} {nf x p : Nat} {hd : Int → Nat}
    {free : List Nat} {L : Int → List Nat} (h : SlabInv e nf hd free L)
    (uid : Int) (l1 l2 : List Nat) (hu : L uid = l1 ++ p :: x :: l2) :
    SlabInv (setNext (setNext e p (getEntry e x).next) x nf) x hd (x :: free)
      (Function.update L uid (l1 ++ p :: l2)) := by
  have hc := h.list_chain uid
  rw [hu] at hc
  obtain ⟨m, hc1, hc2⟩ := (isSeg_append e l1 (p :: x :: l2) (hd uid) 0).1 hc
  obtain ⟨hm, hp0, hplen, _, hx0, hxlen, hrest⟩ := hc2
  subst hm
  have hnd := h.list_nodup uid
  rw [hu] at hnd
  have hnd1 := List.nodup_append.1 hnd
  have hnd2 := List.nodup_cons.1 hnd1.2.1
  have hnd3 := List.nodup_cons.1 hnd2.2
  have hpx : m ≠ x := fun hpx => hnd2.1 (hpx ▸ List.mem_cons_self _ _)
  have hxl2 : x ∉ l2 := hnd3.1
  have hpl2 : m ∉ l2 := fun hm => hnd2.1 (List.mem_cons_of_mem _ hm)
  have hxl1 : x ∉ l1 := fun hm => hnd1.2.2 hm (by simp)
  have hpl1 : m ∉ l1 := fun hm => hnd1.2.2 hm (by simp)
  have key := h.release uid (l1 ++ [m]) l2 (hd uid)
    (E := setNext (setNext e m (getEntry e x).next) x nf) (x := x)
    (by simpa using hu) (by simp) (by simp [hxlen])
    (fun y hy => by
      have h1 : y ≠ x := fun hyx => hy (by rw [hu, hyx]; simp)
      have h2 : y ≠ m := fun hyx => hy (by rw [hu, hyx]; simp)
      simp [h1, h2])
    (fun y hy => by
      have hyL : y ∈ L uid := by
        rw [hu]
        simp only [List.append_assoc, List.singleton_append, List.mem_append,
          List.mem_cons] at hy ⊢
        tauto
      have h1 : y ≠ x := by
        intro hyx
        simp only [List.append_assoc, List.singleton_append, List.mem_append,
          List.mem_cons] at hy
        rcases hy with hy | hy | hy
        · exact hxl1 (hyx ▸ hy)
        · exact hpx (hy.symm.trans hyx)
        · exact hxl2 (hyx ▸ hy)
      simp only [getEntry_setNext, h1, false_and, if_false]
      by_cases h2 : y = m
      · simp only [h2, hplen, and_self, if_true]
        exact (kindOK_congr rfl rfl).1 (h.kind uid m (by rw [hu]; simp))
      · simp only [h2, false_and, if_false]
        exact h.kind uid y hyL)
    (by
      rw [List.append_assoc]
      refine (isSeg_append _ l1 ([m] ++ l2) (hd uid) 0).2 ⟨m, ?_, ?_⟩
      · refine IsSeg.congr hc1 (by simp) (fun y hy => ?_)
        have h1 : y ≠ x := fun hyx => hxl1 (hyx ▸ hy)
        have h2 : y ≠ m := fun hyx => hpl1 (hyx ▸ hy)
        simp [h1, h2]
      · refine ⟨rfl, hp0, by simpa using hplen, ?_⟩
        have : (getEntry (setNext (setNext e m (getEntry e x).next) x nf) m).next
            = (getEntry e x).next := by simp [hpx, hplen]
        rw [this]
        refine IsSeg.congr hrest (by simp) (fun y hy => ?_)
        have h1 : y ≠ x := fun hyx => hxl2 (hyx ▸ hy)
        have h2 : y ≠ m := fun hyx => hpl2 (hyx ▸ hy)
        simp [h1, h2])
  have hupd : Function.update hd uid (hd uid) = hd := Function.update_eq_self uid hd
  rw [hupd] at key
  simpa using key

/-! ## PropertyUniqueExpand -/

theorem expand_fold (I : CPropertyUnique) (n k : Nat) (hk : n + k ≤ I.entry.length) :
    ∃ J, (List.range' n k).foldl
        (fun J a => { J with entry := setNext J.entry a J.next_free, next_free := a }) I = J ∧
      J.entry.length = I.entry.length ∧
      (∀ y, (y < n ∨ n + k ≤ y) → getEntry J.entry y = getEntry I.entry y) ∧
      (∀ y, n ≤ y → y < n + k → getEntry J.entry y =
        { getEntry I.entry y with next := if y = n then I.next_free else y - 1 }) ∧
      J.next_free = (if k = 0 then I.next_free else n + k - 1) ∧
      J.id2offset = I.id2offset ∧ J.propnames = I.propnames ∧
      J.string_values = I.string_values ∧ J.NextUniqueID = I.NextUniqueID ∧
      J.ActiveIDs = I.ActiveIDs := by
  induction k with
  | zero =>
    refine ⟨I, by simp, rfl, fun _ _ => rfl, ?_, by simp, rfl, rfl, rfl, rfl, rfl⟩
    intro y h1 h2; omega
  | succ k ih =>
    obtain ⟨J, hJ, h1, h2, h3, h4, h5, h6, h7, h8, h9⟩ := ih (by omega)
    refine ⟨{ J with entry := setNext J.entry (n + k) J.next_free, next_free := n + k },
      ?_, ?_, ?_, ?_, ?_, h5, h6, h7, h8, h9⟩
    · rw [List.range'_concat, List.foldl_append, hJ]
      simp
    · simp [h1]
    · intro y hy
      have : y ≠ n + k := by omega
      simp only [getEntry_setNext, this, false_and, if_false]
      exact h2 y (by omega)
    · intro y hy1 hy2
      by_cases hyk : y = n + k
      · subst hyk
        have hlt : n + k < J.entry.length := by omega
        simp only [getEntry_setNext, hlt, and_self, if_true]
        rw [h2 (n + k) (Or.inr (le_refl _)), h4]
        by_cases hk0 : k = 0
        · subst hk0; simp
        · have : n + k ≠ n := by omega
          simp [hk0, this]
      · simp only [getEntry_setNext, hyk, false_and, if_false]
        exact h3 y hy1 (by omega)
    · simp

theorem isSeg_descending (e : List PropertyUniqueEntry) (n k t : Nat) (hn : 1 ≤ n)
    (hlen : n + k ≤ e.length)
    (hnext : ∀ y, n ≤ y → y < n + k → (getEntry e y).next = if y = n then t else y - 1) :
    IsSeg e (if k = 0 then t else n + k - 1) (List.range' n k).reverse t := by
  induction k with
  | zero => simp [IsSeg]
  | succ k ih =>
    rw [List.range'_concat, List.reverse_append, one_mul]
    simp only [List.reverse_cons, List.reverse_nil, List.nil_append,
      List.singleton_append, Nat.add_eq_zero, one_ne_zero, and_false, if_false]
    refine ⟨by omega, by omega, by omega, ?_⟩
    rw [hnext (n + k) (by omega) (by omega)]
    have := ih (by omega) (fun y h1 h2 => hnext y h1 (by omega))
    by_cases hk0 : k = 0
    · subst hk0; simpa using this
    · have h2 : n + k ≠ n := by omega
      simpa [hk0, h2] using this

/-- What `PropertyUniqueExpand` does when the free list is empty. -/
theorem expand_spec (I : CPropertyUnique) (hd : Int → Nat) (L : Int → List Nat)
    (h : SlabInv I.entry I.next_free hd [] L) :
    ∃ free, SlabInv (PropertyUniqueExpand I).entry (PropertyUniqueExpand I).next_free hd free L ∧
      (PropertyUniqueExpand I).next_free ≠ 0 ∧
      (PropertyUniqueExpand I).entry.length = I.entry.length * 3 / 2 ∧
      (∀ y, y < I.entry.length →
        getEntry (PropertyUniqueExpand I).entry y = getEntry I.entry y) ∧
      (PropertyUniqueExpand I).id2offset = I.id2offset ∧
      (PropertyUniqueExpand I).propnames = I.propnames ∧
      (PropertyUniqueExpand I).string_values = I.string_values ∧
      (PropertyUniqueExpand I).NextUniqueID = I.NextUniqueID ∧
      (PropertyUniqueExpand I).ActiveIDs = I.ActiveIDs := by
  have hnf : I.next_free = 0 := h.free_chain
  have hsz := h.size
  set n := I.entry.length with hn
  set k := n * 3 / 2 - n with hkdef
  have hk1 : 1 ≤ k := by omega
  set I0 : CPropertyUnique :=
    { I with entry := I.entry ++ List.replicate k default } with hI0
  have hlen0 : I0.entry.length = n + k := by simp [hI0, hn]
  obtain ⟨J, hJ, h1, h2, h3, h4, h5, h6, h7, h8, h9⟩ := expand_fold I0 n k (by omega)
  have hE : PropertyUniqueExpand I = J := by
    unfold PropertyUniqueExpand
    rw [if_pos hnf]
    exact hJ
  rw [hE]
  have hJlen : J.entry.length = n + k := by rw [h1, hlen0]
  have hold : ∀ y, y < n → getEntry J.entry y = getEntry I.entry y := by
    intro y hy
    rw [h2 y (Or.inl hy)]
    exact getEntry_append_left _ _ _ hy
  have hLb : ∀ u y, y ∈ L u → y < n := fun u y hy =>
    (IsSeg.mem_bound (h.list_chain u) hy).2
  have hseg := isSeg_descending J.entry n k 0 (by omega) (by omega)
    (fun y hy1 hy2 => by rw [h3 y hy1 hy2]; simp [hI0, hnf])
  have hk0 : k ≠ 0 := by omega
  simp only [hk0, if_false] at hseg h4
  refine ⟨(List.range' n k).reverse, ⟨?_, ?_, ?_, h.list_nodup, ?_, h.list_disj, ?_, ?_, ?_⟩,
    by rw [h4]; omega, by rw [hJlen]; omega, hold, h5, h6, h7, h8, h9⟩
  · rw [h4]; exact hseg
  · intro u
    exact IsSeg.congr (h.list_chain u) (by rw [hJlen]; omega)
      (fun y hy => by rw [hold y (hLb u y hy)])
  · exact List.nodup_reverse.2 (List.nodup_range' n k)
  · intro u y hy hyf
    have := hLb u y hy
    rw [List.mem_reverse, List.mem_range'] at hyf
    obtain ⟨i, _, hi⟩ := hyf
    omega
  · intro y hy0 hylen
    by_cases hyn : y < n
    · rcases h.cover y hy0 hyn with hf | hu
      · cases hf
      · exact Or.inr hu
    · left
      rw [List.mem_reverse, List.mem_range']
      exact ⟨y - n, by omega, by omega⟩
  · intro u y hy
    rw [hold y (hLb u y hy)]
    exact h.kind u y hy
  · rw [hJlen]; omega

/-! ## The walk that looks for a name -/

theorem getLast?_getD_cons (x : Nat) (l : List Nat) (d : Nat) :
    (x :: l).getLast?.getD d = l.getLast?.getD x := by
  cases l with
  | nil => simp
  | cons y ys =>
    rw [List.getLast?_cons_cons]
    obtain ⟨z, hz⟩ : ∃ z, (y :: ys).getLast? = some z :=
      ⟨_, List.getLast?_eq_getLast _ (by simp)⟩
    simp [hz]

theorem getLast?_getD_concat (l : List Nat) (p d : Nat) :
    (l ++ [p]).getLast?.getD d = p := by
  simp [List.getLast?_append]

theorem findInList_spec (e : List PropertyUniqueEntry) (pid : Int) (l : List Nat) (o : Nat)
    (hc : IsChain e o l) (fuel prev : Nat) (hf : l.length < fuel) :
    (∃ l1 x l2, l = l1 ++ x :: l2 ∧ (∀ y ∈ l1, (getEntry e y).prop_id ≠ pid) ∧
        (getEntry e x).prop_id = pid ∧ x ≠ 0 ∧
        findInList e pid fuel prev o = some (l1.getLast?.getD prev, x)) ∨
      ((∀ y ∈ l, (getEntry e y).prop_id ≠ pid) ∧
        findInList e pid fuel prev o = some (l.getLast?.getD prev, 0)) := by
  induction l generalizing o fuel prev with
  | nil =>
    have : o = 0 := hc
    subst this
    cases fuel with
    | zero => simp at hf
    | succ f => right; simp [findInList]
  | cons x xs ih =>
    obtain ⟨h1, hx0, _, h4⟩ := hc
    subst h1
    cases fuel with
    | zero => simp at hf
    | succ f =>
      by_cases hp : (getEntry e o).prop_id = pid
      · left
        exact ⟨[], o, xs, rfl, by simp, hp, hx0, by simp [findInList, hx0, hp]⟩
      · have hf2 : xs.length < f := by simpa using hf
        rcases ih _ h4 f o hf2 with ⟨l1, y, l2, hl, hall, hy, hy0, hres⟩ | ⟨hall, hres⟩
        · left
          refine ⟨o :: l1, y, l2, by rw [hl]; rfl, ?_, hy, hy0, ?_⟩
          · intro z hz
            rcases List.mem_cons.1 hz with rfl | hz
            · exact hp
            · exact hall z hz
          · rw [getLast?_getD_cons]
            simp only [findInList, hx0, if_false, hp]
            exact hres
        · right
          refine ⟨?_, ?_⟩
          · intro z hz
            rcases List.mem_cons.1 hz with rfl | hz
            · exact hp
            · exact hall z hz
          · rw [getLast?_getD_cons]
            simp only [findInList, hx0, if_false, hp]
            exact hres

/-! ## The table of list heads -/

theorem headOf_update_some (m : Int → Option Nat) (uid : Int) (x : Nat) :
    (fun h => ((Function.update m uid (some x)) h).getD 0) =
      Function.update (fun h => (m h).getD 0) uid x := by
  funext h
  by_cases hh : h = uid
  · subst hh; simp
  · simp [Function.update_noteq hh]

theorem headOf_update_none (m : Int → Option Nat) (uid : Int) :
    (fun h => ((Function.update m uid none) h).getD 0) =
      Function.update (fun h => (m h).getD 0) uid 0 := by
  funext h
  by_cases hh : h = uid
  · subst hh; simp
  · simp [Function.update_noteq hh]

theorem headOf_eq_update_some {I J : CPropertyUnique} {u : Int} {x : Nat}
    (hJ : J.id2offset = Function.update I.id2offset u (some x)) :
    headOf J = Function.update (headOf I) u x := by
  unfold headOf
  rw [hJ]
  exact headOf_update_some _ _ _

theorem headOf_eq_update_none {I J : CPropertyUnique} {u : Int}
    (hJ : J.id2offset = Function.update I.id2offset u none) :
    headOf J = Function.update (headOf I) u 0 := by
  unfold headOf
  rw [hJ]
  exact headOf_update_none _ _

theorem headOf_congr {I J : CPropertyUnique} (hJ : J.id2offset = I.id2offset) :
    headOf J = headOf I := by
  unfold headOf
  rw [hJ]

theorem SlabInv.head_congr {I J : CPropertyUnique} {e : List PropertyUniqueEntry} {nf : Nat}
    {free : List Nat} {L : Int → List Nat} (h : SlabInv e nf (headOf I) free L)
    (hm : J.id2offset = I.id2offset) : SlabInv e nf (headOf J) free L := by
  rw [headOf_congr hm]; exact h

theorem Inv.of_same_slab {I J : CPropertyUnique} (h : Inv I) (he : J.entry = I.entry)
    (hn : J.next_free = I.next_free) (hm : J.id2offset = I.id2offset) : Inv J := by
  unfold Inv headOf at *
  rw [he, hn, hm]
  exact h

theorem SlabInv.chain_length_lt {e : List PropertyUniqueEntry} {nf : Nat} {hd : Int → Nat}
    {free : List Nat} {L : Int → List Nat} (h : SlabInv e nf hd free L) (u : Int) :
    (L u).length < e.length :=
  length_lt_of_nodup_bound (by have := h.size; omega) (h.list_nodup u)
    (fun _ hx => IsSeg.mem_bound (h.list_chain u) hx)

theorem SlabInv.free_length_lt {e : List PropertyUniqueEntry} {nf : Nat} {hd : Int → Nat}
    {free : List Nat} {L : Int → List Nat} (h : SlabInv e nf hd free L) :
    free.length < e.length :=
  length_lt_of_nodup_bound (by have := h.size; omega) h.free_nodup
    (fun _ hx => IsSeg.mem_bound h.free_chain hx)

theorem IsChain.ne_nil_of_ne_zero {e : List PropertyUniqueEntry} {o : Nat} {l : List Nat}
    (h : IsChain e o l) (ho : o ≠ 0) : ∃ x rest, l = x :: rest ∧ x = o := by
  cases l with
  | nil => exact absurd h ho
  | cons x rest => exact ⟨x, rest, rfl, h.1.symm⟩

/-- The state from which a slot is taken: the store itself, or the expanded store when
the free list is empty.  Its free list is not empty. -/
theorem prepare_alloc (I : CPropertyUnique) (hd : Int → Nat) (free : List Nat)
    (L : Int → List Nat) (h : SlabInv I.entry I.next_free hd free L) :
    ∃ rest, SlabInv (if I.next_free = 0 then PropertyUniqueExpand I else I).entry
        (if I.next_free = 0 then PropertyUniqueExpand I else I).next_free hd
        ((if I.next_free = 0 then PropertyUniqueExpand I else I).next_free :: rest) L ∧
      (if I.next_free = 0 then PropertyUniqueExpand I else I).next_free ≠ 0 ∧
      I.entry.length ≤ (if I.next_free = 0 then PropertyUniqueExpand I else I).entry.length ∧
      (∀ y, y < I.entry.length →
        getEntry (if I.next_free = 0 then PropertyUniqueExpand I else I).entry y
          = getEntry I.entry y) ∧
      (if I.next_free = 0 then PropertyUniqueExpand I else I).id2offset = I.id2offset ∧
      (if I.next_free = 0 then PropertyUniqueExpand I else I).propnames = I.propnames ∧
      (if I.next_free = 0 then PropertyUniqueExpand I else I).string_values
        = I.string_values ∧
      (if I.next_free = 0 then PropertyUniqueExpand I else I).NextUniqueID
        = I.NextUniqueID ∧
      (if I.next_free = 0 then PropertyUniqueExpand I else I).ActiveIDs = I.ActiveIDs := by
  by_cases hnf : I.next_free = 0
  · simp only [hnf, if_true]
    have hfree : free = [] := by
      have := h.free_chain
      rw [hnf] at this
      exact (isChain_zero _ _).1 this
    subst hfree
    obtain ⟨free2, h1, h2, h3, h4, h5, h6, h7, h8, h9⟩ := expand_spec I hd L h
    obtain ⟨x, rest, hfr, hx⟩ := IsChain.ne_nil_of_ne_zero h1.free_chain h2
    subst hfr
    refine ⟨rest, hx ▸ h1, h2, ?_, h4, h5, h6, h7, h8, h9⟩
    rw [h3]; omega
  · simp only [hnf, if_false]
    obtain ⟨x, rest, hfr, hx⟩ := IsChain.ne_nil_of_ne_zero h.free_chain hnf
    subst hfr
    exact ⟨rest, hx ▸ h, hnf, le_refl _, fun _ _ => trivial, trivial, trivial, trivial, trivial,
      trivial⟩

/-! ## Taking a slot for a new entry -/

theorem kindOK_of_kindMatches (pid : Int) (ty : PropertyType) (v : PropValue) (n : Nat)
    (hk : kindMatches ty v = true) :
    KindOK { prop_id := pid, type := ty, value := v, next := n } := by
  unfold KindOK
  cases ty <;> cases v <;> simp_all [kindMatches, PropValue.holds_int]

theorem SlabInv.list_nil_of_head_zero {e : List PropertyUniqueEntry} {nf : Nat}
    {hd : Int → Nat} {free : List Nat} {L : Int → List Nat} (h : SlabInv e nf hd free L)
    (u : Int) (hu : hd u = 0) : L u = [] := by
  have := h.list_chain u
  rw [hu] at this
  exact (isChain_zero _ _).1 this

/-- What `newListEntry` does in a state that satisfies the slab partition. -/
theorem newListEntry_spec (I : CPropertyUnique) (free : List Nat) (L : Int → List Nat)
    (h : SlabInv I.entry I.next_free (headOf I) free L) (uid : Int)
    (hu : I.id2offset uid = none) (pid : Int) (ty : PropertyType) (v : PropValue)
    (hk : kindMatches ty v = true) :
    ∃ x rest, SlabInv (newListEntry I uid pid ty v).1.entry
        (newListEntry I uid pid ty v).1.next_free (headOf (newListEntry I uid pid ty v).1)
        rest (Function.update L uid [x]) ∧
      (newListEntry I uid pid ty v).1.id2offset = Function.update I.id2offset uid (some x) ∧
      x ≠ 0 ∧ (∀ u, x ∉ L u) ∧
      getEntry (newListEntry I uid pid ty v).1.entry x
        = { prop_id := pid, type := ty, value := v, next := 0 } ∧
      (∀ u y, y ∈ L u → getEntry (newListEntry I uid pid ty v).1.entry y = getEntry I.entry y) ∧
      I.entry.length ≤ (newListEntry I uid pid ty v).1.entry.length ∧
      (newListEntry I uid pid ty v).1.propnames = I.propnames ∧
      (newListEntry I uid pid ty v).1.string_values = I.string_values ∧
      (newListEntry I uid pid ty v).1.NextUniqueID = I.NextUniqueID ∧
      (newListEntry I uid pid ty v).1.ActiveIDs = I.ActiveIDs ∧
      (newListEntry I uid pid ty v).2 = true := by
  obtain ⟨rest, h1, hnz, hlen, hold, hm, hp, hs, hni, hai⟩ := prepare_alloc I (headOf I) free L h
  unfold newListEntry
  dsimp only
  set I1 := (if I.next_free = 0 then PropertyUniqueExpand I else I) with hI1
  set x := I1.next_free with hx
  simp only [if_pos hnz]
  have hxb := IsSeg.mem_bound h1.free_chain (List.mem_cons_self _ _)
  have hxL : ∀ u, x ∉ L u := fun u hm => h1.free_disj u x hm (List.mem_cons_self _ _)
  have hLu : L uid = [] := h.list_nil_of_head_zero uid (by simp [headOf, hu])
  have hLb : ∀ u y, y ∈ L u → y < I.entry.length ∧ y ≠ x := fun u y hy =>
    ⟨(IsSeg.mem_bound (h.list_chain u) hy).2, fun hyx => hxL u (hyx ▸ hy)⟩
  refine ⟨x, rest, ?_, by simp [hm], hxb.1, hxL, by simp [hxb.2], ?_, by simpa using hlen,
    hp, hs, hni, hai, trivial⟩
  · rw [headOf_eq_update_some (I := I) (u := uid) (x := x) (by simp [hm])]
    exact h1.alloc_head uid hLu (by simp) (fun y hy => by simp [hy]) (by simp [hxb.2])
      (by simpa [hxb.2] using kindOK_of_kindMatches pid ty v 0 hk)
  · intro u y hy
    obtain ⟨hy1, hy2⟩ := hLb u y hy
    simp only [getEntry_setNext, getEntry_setPropId, getEntry_setTypeValue, hy2, false_and,
      if_false]
    exact hold y hy1

/-- What `appendEntry` does in a state that satisfies the slab partition, when `prev` is
the last cell of the list of `uid`. -/
theorem appendEntry_spec (I : CPropertyUnique) (free : List Nat) (L : Int → List Nat)
    (h : SlabInv I.entry I.next_free (headOf I) free L) (uid : Int) (l1 : List Nat) (p : Nat)
    (hu : L uid = l1 ++ [p]) (pid : Int) (ty : PropertyType) (v : PropValue)
    (hk : kindMatches ty v = true) :
    ∃ x rest, SlabInv (appendEntry I uid p pid ty v).1.entry
        (appendEntry I uid p pid ty v).1.next_free (headOf (appendEntry I uid p pid ty v).1)
        rest (Function.update L uid (l1 ++ [p, x])) ∧
      (appendEntry I uid p pid ty v).1.id2offset = I.id2offset ∧
      x ≠ 0 ∧ (∀ u, x ∉ L u) ∧
      getEntry (appendEntry I uid p pid ty v).1.entry x
        = { prop_id := pid, type := ty, value := v, next := 0 } ∧
      (∀ u y, y ∈ L u → y ≠ p →
        getEntry (appendEntry I uid p pid ty v).1.entry y = getEntry I.entry y) ∧
      getEntry (appendEntry I uid p pid ty v).1.entry p = { getEntry I.entry p with next := x } ∧
      I.entry.length ≤ (appendEntry I uid p pid ty v).1.entry.length ∧
      (appendEntry I uid p pid ty v).1.propnames = I.propnames ∧
      (appendEntry I uid p pid ty v).1.string_values = I.string_values ∧
      (appendEntry I uid p pid ty v).1.NextUniqueID = I.NextUniqueID ∧
      (appendEntry I uid p pid ty v).1.ActiveIDs = I.ActiveIDs ∧
      (appendEntry I uid p pid ty v).2 = true := by
  obtain ⟨rest, h1, hnz, hlen, hold, hm, hp, hs, hni, hai⟩ := prepare_alloc I (headOf I) free L h
  unfold appendEntry
  dsimp only
  set I1 := (if I.next_free = 0 then PropertyUniqueExpand I else I) with hI1
  set x := I1.next_free with hx
  have hpL : p ∈ L uid := by rw [hu]; simp
  have hpb := IsSeg.mem_bound (h.list_chain uid) hpL
  have hpb1 : p < I1.entry.length := lt_of_lt_of_le hpb.2 hlen
  simp only [if_pos hnz, if_pos hpb.1]
  have hxb := IsSeg.mem_bound h1.free_chain (List.mem_cons_self _ _)
  have hxL : ∀ u, x ∉ L u := fun u hm => h1.free_disj u x hm (List.mem_cons_self _ _)
  have hpx : p ≠ x := fun hpx => hxL uid (hpx ▸ hpL)
  have hLb : ∀ u y, y ∈ L u → y < I.entry.length ∧ y ≠ x := fun u y hy =>
    ⟨(IsSeg.mem_bound (h.list_chain u) hy).2, fun hyx => hxL u (hyx ▸ hy)⟩
  refine ⟨x, rest, ?_, by simp [hm], hxb.1, hxL, by simp [hxb.2, hpx.symm], ?_, ?_,
    by simpa using hlen, hp, hs, hni, hai, trivial⟩
  · rw [headOf_congr (I := I) (by simp [hm])]
    exact h1.alloc_append uid l1 p hu (by simp) (fun y hy1 hy2 => by simp [hy1, hy2])
      (by simp [hpx, hpb1, hxb.2]) (by simp [hxb.2, hpx.symm])
      (by simpa [hxb.2, hpx.symm] using kindOK_of_kindMatches pid ty v 0 hk)
  · intro u y hy hyp
    obtain ⟨hy1, hy2⟩ := hLb u y hy
    simp only [getEntry_setNext, getEntry_setPropId, getEntry_setTypeValue, hy2, hyp,
      false_and, if_false]
    exact hold y hy1
  · simp only [getEntry_setNext, getEntry_setPropId, getEntry_setTypeValue, hpx,
      false_and, if_false, length_setNext, hpb1, and_self, if_true]
    rw [hold p hpb.2]

/-! ## Deleting and redefining an entry -/

theorem headOf_delete (m : Int → Option Nat) (uid : Int) (n : Nat) :
    (fun h => ((if n ≠ 0 then Function.update (Function.update m uid none) uid (some n)
        else Function.update m uid none) h).getD 0) =
      Function.update (fun h => (m h).getD 0) uid n := by
  funext h
  by_cases hn : n = 0
  · subst hn
    by_cases hh : h = uid
    · subst hh; simp
    · simp [Function.update_noteq hh]
  · by_cases hh : h = uid
    · subst hh; simp [hn]
    · simp [hn, Function.update_noteq hh]

theorem deleteEntry_head (I : CPropertyUnique) (uid : Int) (x : Nat) :
    deleteEntry I uid 0 x =
      { I with
        id2offset := if (getEntry I.entry x).next ≠ 0 then
            Function.update (Function.update I.id2offset uid none) uid
              (some (getEntry I.entry x).next)
          else Function.update I.id2offset uid none
        entry := setNext I.entry x I.next_free
        next_free := x } := by
  unfold deleteEntry
  simp

theorem deleteEntry_mid (I : CPropertyUnique) (uid : Int) (p x : Nat) (hp : p ≠ 0) :
    deleteEntry I uid p x =
      { I with
        entry := setNext (setNext I.entry p (getEntry I.entry x).next) x I.next_free
        next_free := x } := by
  unfold deleteEntry
  simp [hp]

/-- What `deleteEntry` does to the cell `x` of the list of `uid`, when `prev` is the cell
before it (0 when `x` is the head). -/
theorem deleteEntry_spec (I : CPropertyUnique) (free : List Nat) (L : Int → List Nat)
    (h : SlabInv I.entry I.next_free (headOf I) free L)
    (hz : ∀ u, I.id2offset u ≠ some 0) (uid : Int) (l1 l2 : List Nat) (x : Nat)
    (hu : L uid = l1 ++ x :: l2) :
    SlabInv (deleteEntry I uid (l1.getLast?.getD 0) x).entry
        (deleteEntry I uid (l1.getLast?.getD 0) x).next_free
        (headOf (deleteEntry I uid (l1.getLast?.getD 0) x)) (x :: free)
        (Function.update L uid (l1 ++ l2)) ∧
      (∀ u, (deleteEntry I uid (l1.getLast?.getD 0) x).id2offset u ≠ some 0) ∧
      (∀ u, u ≠ uid → (deleteEntry I uid (l1.getLast?.getD 0) x).id2offset u = I.id2offset u) ∧
      (deleteEntry I uid (l1.getLast?.getD 0) x).propnames = I.propnames ∧
      (deleteEntry I uid (l1.getLast?.getD 0) x).string_values = I.string_values ∧
      (deleteEntry I uid (l1.getLast?.getD 0) x).NextUniqueID = I.NextUniqueID ∧
      (deleteEntry I uid (l1.getLast?.getD 0) x).ActiveIDs = I.ActiveIDs := by
  rcases List.eq_nil_or_concat l1 with hl1 | ⟨l0, p, hl1⟩
  · subst hl1
    simp only [List.getLast?_nil, Option.getD_none, List.nil_append]
    rw [deleteEntry_head]
    refine ⟨?_, ?_, ?_, rfl, rfl, rfl, rfl⟩
    · have := h.delete_head uid l2 (by simpa using hu)
      unfold headOf
      dsimp only
      rw [headOf_delete]
      exact this
    · intro u
      show (if (getEntry I.entry x).next ≠ 0 then
            Function.update (Function.update I.id2offset uid none) uid
              (some (getEntry I.entry x).next)
          else Function.update I.id2offset uid none) u ≠ some 0
      by_cases hn : (getEntry I.entry x).next = 0
      · simp only [hn, ne_eq, not_true_eq_false, if_false]
        by_cases hh : u = uid
        · subst hh; simp
        · simp only [Function.update_noteq hh]; exact hz u
      · simp only [hn, ne_eq, not_false_eq_true, if_true]
        by_cases hh : u = uid
        · subst hh; simpa using hn
        · simp only [Function.update_noteq hh]; exact hz u
    · intro u hh
      show (if (getEntry I.entry x).next ≠ 0 then
            Function.update (Function.update I.id2offset uid none) uid
              (some (getEntry I.entry x).next)
          else Function.update I.id2offset uid none) u = I.id2offset u
      by_cases hn : (getEntry I.entry x).next = 0
      · simp [hn, Function.update_noteq hh]
      · simp [hn, Function.update_noteq hh]
  · rw [List.concat_eq_append] at hl1
    subst hl1
    have hpL : p ∈ L uid := by rw [hu]; simp
    have hpb := IsSeg.mem_bound (h.list_chain uid) hpL
    rw [getLast?_getD_concat]
    rw [deleteEntry_mid _ _ _ _ hpb.1]
    refine ⟨?_, hz, fun _ _ => rfl, rfl, rfl, rfl, rfl⟩
    have := h.delete_mid uid l0 l2 (p := p) (x := x) (by simpa using hu)
    have hh : headOf
        { I with entry := setNext I.entry p (getEntry I.entry x).next } = headOf I := rfl
    have e1 : l0 ++ [p] ++ l2 = l0 ++ p :: l2 := by simp
    rw [e1]
    exact this

/-- What `redefineEntry` does to a cell of a list: a normal return changes at most the
type and payload of that cell and the string reference counts. -/
theorem redefineEntry_spec (I : CPropertyUnique) (free : List Nat) (L : Int → List Nat)
    (h : SlabInv I.entry I.next_free (headOf I) free L) (uid : Int) (x : Nat)
    (hx : x ∈ L uid) (ty : PropertyType) (v : PropValue) :
    match redefineEntry I x ty v with
    | Outcome.done J _ =>
      SlabInv J.entry J.next_free (headOf J) free L ∧ J.id2offset = I.id2offset ∧
        J.propnames = I.propnames ∧ J.NextUniqueID = I.NextUniqueID ∧
        J.ActiveIDs = I.ActiveIDs
    | Outcome.thrown J => J = I
    | Outcome.diverged => True := by
  have hxb := IsSeg.mem_bound (h.list_chain uid) hx
  have key : ∀ (J : CPropertyUnique) (ty2 : PropertyType) (v2 : PropValue),
      J.entry = I.entry → J.next_free = I.next_free → J.id2offset = I.id2offset →
      KindOK { prop_id := 0, type := ty2, value := v2, next := 0 } →
      SlabInv (setTypeValue J.entry x ty2 v2) J.next_free (headOf I) free L := by
    intro J ty2 v2 he hn hm hk
    rw [he, hn]
    refine h.overwrite (by simp) (fun y => ?_) (fun u y hy => ?_)
    · by_cases hyx : y = x
      · subst hyx; simp [hxb.2]
      · simp [hyx]
    · by_cases hyx : y = x
      · subst hyx
        simp only [getEntry_setTypeValue, hxb.2, and_self, if_true]
        exact (kindOK_congr rfl rfl).1 hk
      · simp only [getEntry_setTypeValue, hyx, false_and, if_false]
        exact h.kind u y hy
  have hrel : ∀ e : PropertyUniqueEntry, (releaseOldString I e).entry = I.entry ∧
      (releaseOldString I e).next_free = I.next_free ∧
      (releaseOldString I e).id2offset = I.id2offset ∧
      (releaseOldString I e).propnames = I.propnames ∧
      (releaseOldString I e).NextUniqueID = I.NextUniqueID ∧
      (releaseOldString I e).ActiveIDs = I.ActiveIDs := by
    intro e
    unfold releaseOldString
    split <;> simp
  unfold redefineEntry
  dsimp only
  obtain ⟨r1, r2, r3, r4, r5, r6⟩ := hrel (getEntry I.entry x)
  cases hv : (getEntry I.entry x).value with
  | int old =>
    cases ty <;> cases v <;> simp only [PropValue.get_int, PropValue.get_double]
    all_goals
      first
      | trivial
      | (split_ifs with hc
         · exact ⟨SlabInv.head_congr
             (key _ _ _ r1 r2 r3 (by simp [KindOK, PropValue.holds_int])) r3, r3, r4, r5, r6⟩
         · exact ⟨h, rfl, rfl, rfl, rfl⟩)
  | double old =>
    cases ty <;> cases v <;> simp only [PropValue.get_int, PropValue.get_double]
    all_goals
      first
      | trivial
      | (split_ifs with hc
         · exact ⟨SlabInv.head_congr
             (key _ _ _ r1 r2 r3 (by simp [KindOK, PropValue.holds_int])) r3, r3, r4, r5, r6⟩
         · exact ⟨h, rfl, rfl, rfl, rfl⟩)

/-! ## PropertyUniqueSetTypedValue keeps the invariant -/

theorem Inv.of_slab {I : CPropertyUnique} {free : List Nat} {L : Int → List Nat}
    (h : SlabInv I.entry I.next_free (headOf I) free L)
    (hz : ∀ u, I.id2offset u ≠ some 0) : Inv I :=
  ⟨⟨free, L, h⟩, hz⟩

theorem SlabInv.list_eq_of_head {I : CPropertyUnique} {free : List Nat} {L : Int → List Nat}
    (h : SlabInv I.entry I.next_free (headOf I) free L) {uid : Int} {head : Nat}
    (hm : I.id2offset uid = some head) : IsChain I.entry head (L uid) := by
  have := h.list_chain uid
  simpa [headOf, hm] using this

theorem setTypedValue_inv (I : CPropertyUnique) (hI : Inv I) (uid : Int) (name : String)
    (ty : PropertyType) (value : Option PropValue) (J : CPropertyUnique)
    (hJ : (PropertyUniqueSetTypedValue I uid name ty value).state = some J) : Inv J := by
  obtain ⟨⟨free, L, h⟩, hz⟩ := hI
  unfold PropertyUniqueSetTypedValue at hJ
  dsimp only at hJ
  set pid := (OVLexicon_GetFromCString I.propnames name).2 with hpid
  set I0 : CPropertyUnique :=
    { I with propnames := (OVLexicon_GetFromCString I.propnames name).1 } with hI0
  have h0 : SlabInv I0.entry I0.next_free (headOf I0) free L := h
  have hz0 : ∀ u, I0.id2offset u ≠ some 0 := hz
  cases hm : I.id2offset uid with
  | none =>
    rw [hm] at hJ
    dsimp only at hJ
    cases value with
    | none =>
      simp only [Outcome.state, Option.some.injEq] at hJ
      subst hJ
      exact Inv.of_slab h0 hz0
    | some v =>
      dsimp only at hJ
      by_cases hk : kindMatches ty v = true
      · rw [if_pos hk] at hJ
        simp only [Outcome.state, Option.some.injEq] at hJ
        obtain ⟨x, rest, s1, s2, s3, _⟩ := newListEntry_spec I0 free L h0 uid hm pid ty v hk
        subst hJ
        refine Inv.of_slab s1 (fun u => ?_)
        rw [s2]
        by_cases hu : u = uid
        · subst hu; simpa using s3
        · rw [Function.update_noteq hu]; exact hz0 u
      · rw [if_neg hk] at hJ
        simp [Outcome.state] at hJ
  | some head =>
    rw [hm] at hJ
    dsimp only at hJ
    have hc : IsChain I.entry head (L uid) := h.list_eq_of_head hm
    have hhead : head ≠ 0 := fun h0 => hz uid (h0 ▸ hm)
    have hfuel := h.chain_length_lt uid
    rcases findInList_spec I.entry pid (L uid) head hc I.entry.length 0 hfuel with
      ⟨l1, x, l2, hl, _, _, hx0, hres⟩ | ⟨_, hres⟩
    · rw [hres] at hJ
      dsimp only at hJ
      rw [if_pos hx0] at hJ
      cases value with
      | none =>
        dsimp only at hJ
        simp only [Outcome.state, Option.some.injEq] at hJ
        obtain ⟨d1, d2, _⟩ := deleteEntry_spec I0 free L h0 hz0 uid l1 l2 x hl
        subst hJ
        exact Inv.of_slab d1 d2
      | some v =>
        dsimp only at hJ
        have hxL : x ∈ L uid := by rw [hl]; simp
        have := redefineEntry_spec I0 free L h0 uid x hxL ty v
        cases hr : redefineEntry I0 x ty v with
        | done I1 b =>
          rw [hr] at hJ this
          dsimp only at hJ this
          simp only [Outcome.state, Option.some.injEq] at hJ
          subst hJ
          exact Inv.of_slab this.1 (fun u => by
            show I1.id2offset u ≠ some 0
            rw [this.2.1]; exact hz0 u)
        | thrown I1 =>
          rw [hr] at hJ this
          dsimp only at hJ this
          simp only [Outcome.state, Option.some.injEq] at hJ
          subst hJ
          rw [this]
          exact Inv.of_slab h0 hz0
        | diverged =>
          rw [hr] at hJ
          simp [Outcome.state] at hJ
    · rw [hres] at hJ
      dsimp only at hJ
      rw [if_neg (by simp)] at hJ
      cases value with
      | none =>
        dsimp only at hJ
        simp only [Outcome.state, Option.some.injEq] at hJ
        subst hJ
        exact Inv.of_slab h0 hz0
      | some v =>
        dsimp only at hJ
        by_cases hk : kindMatches ty v = true
        · rw [if_pos hk] at hJ
          simp only [Outcome.state, Option.some.injEq] at hJ
          obtain ⟨y, rest, hLy, _⟩ := IsChain.ne_nil_of_ne_zero hc hhead
          rcases List.eq_nil_or_concat (L uid) with hnil | ⟨l0, p, hl0⟩
          · rw [hnil] at hLy; cases hLy
          · rw [List.concat_eq_append] at hl0
            rw [hl0, getLast?_getD_concat] at hJ
            obtain ⟨x, rest, s1, s2, _⟩ := appendEntry_spec I0 free L h0 uid l0 p hl0 pid ty v hk
            subst hJ
            refine Inv.of_slab s1 (fun u => ?_)
            rw [s2]; exact hz0 u
        · rw [if_neg hk] at hJ
          simp [Outcome.state] at hJ

/-! ## PropertyUniqueDetachChain -/

theorem KindOK.string_int {e : PropertyUniqueEntry} (hk : KindOK e)
    (hs : e.type = PropertyType.String) : ∃ v, e.value = PropValue.int v := by
  unfold KindOK at hk
  cases hv : e.value with
  | int v => exact ⟨v, rfl⟩
  | double d =>
    rw [hv, hs] at hk
    simp [PropValue.holds_int] at hk

theorem nameCount_cons (e : PropertyUniqueEntry) (es : List PropertyUniqueEntry) (id : Int) :
    (nameCount (e :: es) id : Int) = nameCount es id + (if e.prop_id = id then 1 else 0) := by
  unfold nameCount
  rw [List.countP_cons]
  by_cases h : e.prop_id = id <;> simp [h]

theorem stringCount_cons (e : PropertyUniqueEntry) (es : List PropertyUniqueEntry) (id : Int) :
    (stringCount (e :: es) id : Int) = stringCount es id +
      (if e.type = PropertyType.String ∧ e.value = PropValue.int id then 1 else 0) := by
  unfold stringCount
  rw [List.countP_cons]
  by_cases h : e.type = PropertyType.String ∧ e.value = PropValue.int id <;> simp [h]

theorem detachLoop_spec (uid : Int) (l : List Nat) :
    ∀ (fuel : Nat) (I : CPropertyUnique) (offset : Nat) (free : List Nat)
      (L : Int → List Nat),
      SlabInv I.entry I.next_free (Function.update (headOf I) uid offset) free L →
      L uid = l → l.length < fuel →
      ∃ J, detachLoop fuel I offset = Outcome.done J () ∧
        SlabInv J.entry J.next_free (Function.update (headOf I) uid 0) (l.reverse ++ free)
          (Function.update L uid []) ∧
        J.id2offset = I.id2offset ∧
        J.entry.length = I.entry.length ∧
        (∀ y, y ∉ l → getEntry J.entry y = getEntry I.entry y) ∧
        (∀ id, J.propnames.ref_cnt id =
          I.propnames.ref_cnt id - nameCount (l.map (getEntry I.entry)) id) ∧
        J.propnames.str = I.propnames.str ∧ J.propnames.n_entry = I.propnames.n_entry ∧
        (∀ id, J.string_values.ref_cnt id =
          I.string_values.ref_cnt id - stringCount (l.map (getEntry I.entry)) id) ∧
        J.string_values.str = I.string_values.str ∧
        J.string_values.n_entry = I.string_values.n_entry ∧
        J.NextUniqueID = I.NextUniqueID ∧ J.ActiveIDs = I.ActiveIDs := by
  induction l with
  | nil =>
    intro fuel I offset free L h hl hf
    have hc := h.list_chain uid
    rw [hl] at hc
    simp only [Function.update_same] at hc
    have ho : offset = 0 := hc
    subst ho
    cases fuel with
    | zero => simp at hf
    | succ f =>
      refine ⟨I, by simp [detachLoop], ?_, rfl, rfl, fun _ _ => rfl, ?_, rfl, rfl, ?_, rfl, rfl,
        rfl, rfl⟩
      · have : Function.update L uid [] = L := by
          rw [← hl]; exact Function.update_eq_self uid L
        rw [this]
        simpa using h
      · intro id; simp [nameCount]
      · intro id; simp [stringCount]
  | cons x l2 ih =>
    intro fuel I offset free L h hl hf
    have hc := h.list_chain uid
    rw [hl] at hc
    simp only [Function.update_same] at hc
    obtain ⟨ho, hx0, hxlen, _⟩ := hc
    subst ho
    have hnd := h.list_nodup uid
    rw [hl] at hnd
    have hxl2 : offset ∉ l2 := (List.nodup_cons.1 hnd).1
    have hk := h.kind uid offset (by rw [hl]; simp)
    cases fuel with
    | zero => simp at hf
    | succ f =>
      have hf2 : l2.length < f := by simpa using hf
      have hdel := h.delete_head uid l2 hl
      rw [Function.update_idem] at hdel
      have hmap : ∀ e2 : List PropertyUniqueEntry,
          (∀ y, y ≠ offset → getEntry e2 y = getEntry I.entry y) →
          l2.map (getEntry e2) = l2.map (getEntry I.entry) := by
        intro e2 he2
        refine List.map_congr_left (fun y hy => he2 y (fun hyx => hxl2 (hyx ▸ hy)))
      have hsame : ∀ y, y ≠ offset →
          getEntry (setNext I.entry offset I.next_free) y = getEntry I.entry y := by
        intro y hy; simp [hy]
      by_cases hs : (getEntry I.entry offset).type = PropertyType.String
      · obtain ⟨v, hv⟩ := hk.string_int hs
        obtain ⟨J, j1, j2, j3, j4, j5, j6, j7, j8, j9, j10, j11, j12, j13⟩ :=
          ih f
            { I with
              propnames := OVLexicon_DecRef I.propnames (getEntry I.entry offset).prop_id
              string_values := OVLexicon_DecRef I.string_values v
              entry := setNext I.entry offset I.next_free
              next_free := offset }
            (getEntry I.entry offset).next (offset :: free) (Function.update L uid l2)
            hdel (by simp) hf2
        refine ⟨J, ?_, ?_, j3, by rw [j4]; simp, ?_, ?_, j7, j8, ?_, j10, j11, j12, j13⟩
        · rw [← j1]
          simp [detachLoop, hx0, hs, hv, PropValue.get_int]
        · rw [Function.update_idem] at j2
          simpa using j2
        · intro y hy
          rw [j5 y (fun hm => hy (List.mem_cons_of_mem _ hm))]
          exact hsame y (fun hyx => hy (hyx ▸ List.mem_cons_self _ _))
        · intro id
          rw [j6 id, List.map_cons, nameCount_cons]
          dsimp only
          rw [hmap _ hsame]
          simp only [OVLexicon_DecRef]
          by_cases hid : (getEntry I.entry offset).prop_id = id
          · subst hid; simp; ring
          · simp [hid, Function.update_noteq (Ne.symm hid)]
        · intro id
          rw [j9 id, List.map_cons, stringCount_cons]
          dsimp only
          rw [hmap _ hsame]
          simp only [OVLexicon_DecRef, hs, hv, true_and, PropValue.int.injEq]
          by_cases hid : v = id
          · subst hid; simp; ring
          · simp [hid, Function.update_noteq (Ne.symm hid)]
      · obtain ⟨J, j1, j2, j3, j4, j5, j6, j7, j8, j9, j10, j11, j12, j13⟩ :=
          ih f
            { I with
              propnames := OVLexicon_DecRef I.propnames (getEntry I.entry offset).prop_id
              entry := setNext I.entry offset I.next_free
              next_free := offset }
            (getEntry I.entry offset).next (offset :: free) (Function.update L uid l2)
            hdel (by simp) hf2
        refine ⟨J, ?_, ?_, j3, by rw [j4]; simp, ?_, ?_, j7, j8, ?_, j10, j11, j12, j13⟩
        · rw [← j1]
          simp [detachLoop, hx0, hs]
        · rw [Function.update_idem] at j2
          simpa using j2
        · intro y hy
          rw [j5 y (fun hm => hy (List.mem_cons_of_mem _ hm))]
          exact hsame y (fun hyx => hy (hyx ▸ List.mem_cons_self _ _))
        · intro id
          rw [j6 id, List.map_cons, nameCount_cons]
          dsimp only
          rw [hmap _ hsame]
          simp only [OVLexicon_DecRef]
          by_cases hid : (getEntry I.entry offset).prop_id = id
          · subst hid; simp; ring
          · simp [hid, Function.update_noteq (Ne.symm hid)]
        · intro id
          rw [j9 id, List.map_cons, stringCount_cons]
          dsimp only
          rw [hmap _ hsame]
          simp [hs]

theorem SlabInv.listOf_eq {I : CPropertyUnique} {free : List Nat} {L : Int → List Nat}
    (h : SlabInv I.entry I.next_free (headOf I) free L) (u : Int) : listOf I u = L u :=
  IsChain.chainFrom_eq (h.list_chain u) _ (le_of_lt (h.chain_length_lt u))

theorem SlabInv.freeList_eq {I : CPropertyUnique} {free : List Nat} {L : Int → List Nat}
    (h : SlabInv I.entry I.next_free (headOf I) free L) : freeList I = free :=
  IsChain.chainFrom_eq h.free_chain _ (le_of_lt h.free_length_lt)

/-- What `PropertyUniqueDetachChain` does in a state that satisfies the slab partition. -/
theorem detachChain_spec (I : CPropertyUnique) (free : List Nat) (L : Int → List Nat)
    (h : SlabInv I.entry I.next_free (headOf I) free L) (uid : Int) :
    ∃ J, PropertyUniqueDetachChain I uid = Outcome.done J () ∧
      SlabInv J.entry J.next_free (headOf J) ((L uid).reverse ++ free)
        (Function.update L uid []) ∧
      J.id2offset = Function.update I.id2offset uid none ∧
      J.ActiveIDs = I.ActiveIDs.filter (fun x => x ≠ uid) ∧
      J.entry.length = I.entry.length ∧
      (∀ y, y ∉ L uid → getEntry J.entry y = getEntry I.entry y) ∧
      (∀ id, J.propnames.ref_cnt id =
        I.propnames.ref_cnt id - nameCount ((L uid).map (getEntry I.entry)) id) ∧
      J.propnames.str = I.propnames.str ∧ J.propnames.n_entry = I.propnames.n_entry ∧
      (∀ id, J.string_values.ref_cnt id =
        I.string_values.ref_cnt id - stringCount ((L uid).map (getEntry I.entry)) id) ∧
      J.string_values.str = I.string_values.str ∧
      J.string_values.n_entry = I.string_values.n_entry ∧
      J.NextUniqueID = I.NextUniqueID := by
  cases hm : I.id2offset uid with
  | none =>
    have hLu : L uid = [] := h.list_nil_of_head_zero uid (by simp [headOf, hm])
    have hupd : Function.update I.id2offset uid none = I.id2offset := by
      rw [← hm]; exact Function.update_eq_self uid _
    have hL : Function.update L uid [] = L := by
      rw [← hLu]; exact Function.update_eq_self uid L
    refine ⟨{ I with ActiveIDs := I.ActiveIDs.filter (fun x => x ≠ uid) }, ?_, ?_, hupd.symm,
      rfl, rfl, fun _ _ => rfl, ?_, rfl, rfl, ?_, rfl, rfl, rfl⟩
    · unfold PropertyUniqueDetachChain
      rw [hm]
    · rw [hLu, hL]
      simpa using h
    · intro id; simp [hLu, nameCount]
    · intro id; simp [hLu, stringCount]
  | some offset =>
    have hh : headOf I uid = offset := by simp [headOf, hm]
    have h1 : SlabInv I.entry I.next_free
        (Function.update
          (headOf { I with id2offset := Function.update I.id2offset uid none }) uid offset)
        free L := by
      rw [headOf_eq_update_none (I := I) (u := uid) rfl, Function.update_idem, ← hh,
        Function.update_eq_self]
      exact h
    obtain ⟨J, j1, j2, j3, j4, j5, j6, j7, j8, j9, j10, j11, j12, j13⟩ :=
      detachLoop_spec uid (L uid) I.entry.length
        { I with id2offset := Function.update I.id2offset uid none } offset free L h1 rfl
        (h.chain_length_lt uid)
    refine ⟨{ J with ActiveIDs := J.ActiveIDs.filter (fun x => x ≠ uid) }, ?_, ?_, j3,
      by rw [j13], j4, j5, j6, j7, j8, j9, j10, j11, j12⟩
    · unfold PropertyUniqueDetachChain
      rw [hm]
      dsimp only
      rw [j1]
    · have e1 : headOf { I with id2offset := Function.update I.id2offset uid none } =
          Function.update (headOf I) uid 0 := headOf_eq_update_none rfl
      have e2 : headOf { J with ActiveIDs := J.ActiveIDs.filter (fun x => x ≠ uid) } =
          Function.update (headOf I) uid 0 := headOf_eq_update_none (I := I) j3
      rw [e2]
      rw [e1, Function.update_idem] at j2
      exact j2

theorem detachChain_inv (I : CPropertyUnique) (hI : Inv I) (uid : Int) (J : CPropertyUnique)
    (hJ : (PropertyUniqueDetachChain I uid).state = some J) : Inv J := by
  obtain ⟨⟨free, L, h⟩, hz⟩ := hI
  obtain ⟨J2, j1, j2, j3, _⟩ := detachChain_spec I free L h uid
  rw [j1] at hJ
  simp only [Outcome.state, Option.some.injEq] at hJ
  subst hJ
  refine Inv.of_slab j2 (fun u => ?_)
  rw [j3]
  by_cases hu : u = uid
  · subst hu; simp
  · rw [Function.update_noteq hu]; exact hz u

/-! ## PropertyCopyProperties: taking and filling a slot -/

theorem copyIncRef_spec (I : CPropertyUnique) (x : Nat) (hk : KindOK (getEntry I.entry x)) :
    ∃ J, copyIncRef I x = Outcome.done J () ∧ J.entry = I.entry ∧
      J.next_free = I.next_free ∧ J.id2offset = I.id2offset ∧
      J.NextUniqueID = I.NextUniqueID ∧ J.ActiveIDs = I.ActiveIDs ∧
      (∀ id, J.propnames.ref_cnt id = I.propnames.ref_cnt id +
        (if (getEntry I.entry x).prop_id = id then 1 else 0)) ∧
      J.propnames.str = I.propnames.str ∧ J.propnames.n_entry = I.propnames.n_entry ∧
      (∀ id, J.string_values.ref_cnt id = I.string_values.ref_cnt id +
        (if (getEntry I.entry x).type = PropertyType.String ∧
            (getEntry I.entry x).value = PropValue.int id then 1 else 0)) ∧
      J.string_values.str = I.string_values.str ∧
      J.string_values.n_entry = I.string_values.n_entry := by
  have hname : ∀ id, (OVLexicon_IncRef I.propnames (getEntry I.entry x).prop_id).ref_cnt id =
      I.propnames.ref_cnt id + (if (getEntry I.entry x).prop_id = id then 1 else 0) := by
    intro id
    simp only [OVLexicon_IncRef]
    by_cases hid : (getEntry I.entry x).prop_id = id
    · subst hid; simp
    · simp [hid, Function.update_noteq (Ne.symm hid)]
  by_cases hs : (getEntry I.entry x).type = PropertyType.String
  · obtain ⟨v, hv⟩ := hk.string_int hs
    refine ⟨{ I with
        propnames := OVLexicon_IncRef I.propnames (getEntry I.entry x).prop_id
        string_values := OVLexicon_IncRef I.string_values v }, ?_, rfl, rfl, rfl, rfl, rfl,
      hname, rfl, rfl, ?_, rfl, rfl⟩
    · simp [copyIncRef, hs, hv, PropValue.get_int]
    · intro id
      simp only [OVLexicon_IncRef, hs, hv, true_and, PropValue.int.injEq]
      by_cases hid : v = id
      · subst hid; simp
      · simp [hid, Function.update_noteq (Ne.symm hid)]
  · refine ⟨{ I with
        propnames := OVLexicon_IncRef I.propnames (getEntry I.entry x).prop_id }, ?_, rfl, rfl,
      rfl, rfl, rfl, hname, rfl, rfl, ?_, rfl, rfl⟩
    · simp [copyIncRef, hs]
    · intro id; simp [hs]

/-- The effect shared by the two copy loops when a slot is taken for a copied entry:
`J4` is the state after the slot `x` has been unlinked from the free list, linked as the
head of the list of `dst` or after its last cell `prev`, and filled with the content of
the source cell `a`. -/
theorem copy_alloc_spec (I I1 J4 : CPropertyUnique) (free rest : List Nat)
    (L : Int → List Nat) (src dst : Int) (a prev : Nat)
    (h : SlabInv I.entry I.next_free (headOf I) free L)
    (hz : ∀ u, I.id2offset u ≠ some 0)
    (h1 : SlabInv I1.entry I1.next_free (headOf I) (I1.next_free :: rest) L)
    (hlen1 : I.entry.length ≤ I1.entry.length)
    (hold : ∀ y, y < I.entry.length → getEntry I1.entry y = getEntry I.entry y)
    (ha : a ∈ L src)
    (hlen : J4.entry.length = I1.entry.length)
    (hnf : J4.next_free = (getEntry I1.entry I1.next_free).next)
    (hx : getEntry J4.entry I1.next_free =
      { prop_id := (getEntry I.entry a).prop_id, type := (getEntry I.entry a).type,
        value := (getEntry I.entry a).value, next := 0 })
    (hcase : (L dst = [] ∧ prev = 0 ∧
          J4.id2offset = Function.update I.id2offset dst (some I1.next_free) ∧
          ∀ y, y ≠ I1.next_free → getEntry J4.entry y = getEntry I1.entry y) ∨
        (∃ d0, L dst = d0 ++ [prev] ∧ J4.id2offset = I.id2offset ∧
          (∀ y, y ≠ I1.next_free → y ≠ prev → getEntry J4.entry y = getEntry I1.entry y) ∧
          getEntry J4.entry prev = { getEntry I1.entry prev with next := I1.next_free }))
    (hpn : J4.propnames = I.propnames) (hsv : J4.string_values = I.string_values)
    (hni : J4.NextUniqueID = I.NextUniqueID) (hai : J4.ActiveIDs = I.ActiveIDs) :
    ∃ I5, copyIncRef J4 I1.next_free = Outcome.done I5 () ∧
      SlabInv I5.entry I5.next_free (headOf I5) rest
        (Function.update L dst (L dst ++ [I1.next_free])) ∧
      (∀ u, I5.id2offset u ≠ some 0) ∧
      (∀ u, u ≠ dst → I5.id2offset u = I.id2offset u) ∧
      I1.next_free ≠ 0 ∧ (∀ u, I1.next_free ∉ L u) ∧
      (getEntry I5.entry I1.next_free).content = (getEntry I.entry a).content ∧
      (∀ u y, y ∈ L u → y ≠ prev → getEntry I5.entry y = getEntry I.entry y) ∧
      (∀ u y, y ∈ L u → (getEntry I5.entry y).content = (getEntry I.entry y).content) ∧
      (prev ≠ 0 → (getEntry I5.entry prev).next = I1.next_free) ∧
      (∀ id, I5.propnames.ref_cnt id = I.propnames.ref_cnt id +
        (if (getEntry I.entry a).prop_id = id then 1 else 0)) ∧
      I5.propnames.str = I.propnames.str ∧ I5.propnames.n_entry = I.propnames.n_entry ∧
      (∀ id, I5.string_values.ref_cnt id = I.string_values.ref_cnt id +
        (if (getEntry I.entry a).type = PropertyType.String ∧
            (getEntry I.entry a).value = PropValue.int id then 1 else 0)) ∧
      I5.string_values.str = I.string_values.str ∧
      I5.string_values.n_entry = I.string_values.n_entry ∧
      I5.NextUniqueID = I.NextUniqueID ∧ I5.ActiveIDs = I.ActiveIDs ∧
      I.entry.length ≤ I5.entry.length := by
  set x := I1.next_free with hxdef
  have hxb := IsSeg.mem_bound h1.free_chain (List.mem_cons_self _ _)
  have hxL : ∀ u, x ∉ L u := fun u hm => h1.free_disj u x hm (List.mem_cons_self _ _)
  have hLb : ∀ u y, y ∈ L u → y < I.entry.length ∧ y ≠ x := fun u y hy =>
    ⟨(IsSeg.mem_bound (h.list_chain u) hy).2, fun hyx => hxL u (hyx ▸ hy)⟩
  have hkx : KindOK (getEntry J4.entry x) := by
    rw [hx]
    exact (kindOK_congr rfl rfl).1 (h.kind src a ha)
  obtain ⟨I5, c1, c2, c3, c4, c5, c6, c7, c8, c9, c10, c11, c12⟩ := copyIncRef_spec J4 x hkx
  have hcont : (getEntry I5.entry x).content = (getEntry I.entry a).content := by
    rw [c2, hx]; rfl
  have hpid : (getEntry J4.entry x).prop_id = (getEntry I.entry a).prop_id := by rw [hx]
  have hty : (getEntry J4.entry x).type = (getEntry I.entry a).type := by rw [hx]
  have hval : (getEntry J4.entry x).value = (getEntry I.entry a).value := by rw [hx]
  rw [hpid] at c7
  rw [hty, hval] at c10
  rcases hcase with ⟨hd0, hp0, hm, hsame⟩ | ⟨d0, hd0, hm, hsame, hp⟩
  · have hsl := h1.alloc_head dst hd0 hlen hsame (by rw [hx]) hkx
    have hfr : ∀ u y, y ∈ L u → getEntry I5.entry y = getEntry I.entry y := by
      intro u y hy
      obtain ⟨hy1, hy2⟩ := hLb u y hy
      rw [c2, hsame y hy2, hold y hy1]
    refine ⟨I5, c1, ?_, ?_, ?_, hxb.1, hxL, hcont, fun u y hy _ => hfr u y hy,
      fun u y hy => by rw [hfr u y hy], fun hp => absurd hp0 hp, ?_, ?_, ?_, ?_, ?_, ?_, ?_, ?_,
      ?_⟩
    · rw [c2, c3, hnf, hd0, List.nil_append,
        headOf_eq_update_some (I := I) (J := I5) (u := dst) (x := x) (by rw [c4, hm])]
      exact hsl
    · intro u
      rw [c4, hm]
      by_cases hu : u = dst
      · subst hu; simpa using hxb.1
      · rw [Function.update_noteq hu]; exact hz u
    · intro u hu
      rw [c4, hm, Function.update_noteq hu]
    · intro id; rw [c7 id, hpn]
    · rw [c8, hpn]
    · rw [c9, hpn]
    · intro id; rw [c10 id, hsv]
    · rw [c11, hsv]
    · rw [c12, hsv]
    · rw [c5, hni]
    · rw [c6, hai]
    · rw [c2, hlen]; exact hlen1
  · have hpL : prev ∈ L dst := by rw [hd0]; simp
    have hpb := hLb dst prev hpL
    have hsl := h1.alloc_append dst d0 prev hd0 hlen hsame hp (by rw [hx]) hkx
    have hfr : ∀ u y, y ∈ L u → y ≠ prev → getEntry I5.entry y = getEntry I.entry y := by
      intro u y hy hyp
      obtain ⟨hy1, hy2⟩ := hLb u y hy
      rw [c2, hsame y hy2 hyp, hold y hy1]
    have hprev : getEntry I5.entry prev = { getEntry I.entry prev with next := x } := by
      rw [c2, hp, hold prev hpb.1]
    refine ⟨I5, c1, ?_, ?_, ?_, hxb.1, hxL, hcont, hfr, ?_, fun _ => by rw [hprev], ?_, ?_, ?_,
      ?_, ?_, ?_, ?_, ?_, ?_⟩
    · rw [c2, c3, hnf, hd0, headOf_congr (I := I) (J := I5) (by rw [c4, hm])]
      simpa using hsl
    · intro u; rw [c4, hm]; exact hz u
    · intro u _; rw [c4, hm]
    · intro u y hy
      by_cases hyp : y = prev
      · rw [hyp, hprev]; rfl
      · rw [hfr u y hy hyp]
    · intro id; rw [c7 id, hpn]
    · rw [c8, hpn]
    · rw [c9, hpn]
    · intro id; rw [c10 id, hsv]
    · rw [c11, hsv]
    · rw [c12, hsv]
    · rw [c5, hni]
    · rw [c6, hai]
    · rw [c2, hlen]; exact hlen1

/-! ## PropertyCopyProperties into a unique id without a list -/

/-- One round of `copyNewLoop` at the source cell `a`. -/
theorem copyNew_step (src dst : Int) (hsd : src ≠ dst) (I : CPropertyUnique) (a prev : Nat)
    (free : List Nat) (L : Int → List Nat)
    (h : SlabInv I.entry I.next_free (headOf I) free L)
    (hz : ∀ u, I.id2offset u ≠ some 0) (ha : a ∈ L src)
    (hprev : (L dst = [] ∧ prev = 0) ∨ ∃ d0, L dst = d0 ++ [prev]) :
    ∃ I5 x rest,
      (∀ f, copyNewLoop dst (f + 1) I a prev =
        copyNewLoop dst f I5 (getEntry I.entry a).next x) ∧
      SlabInv I5.entry I5.next_free (headOf I5) rest (Function.update L dst (L dst ++ [x])) ∧
      (∀ u, I5.id2offset u ≠ some 0) ∧
      (∀ u, u ≠ dst → I5.id2offset u = I.id2offset u) ∧
      x ≠ 0 ∧ (∀ u, x ∉ L u) ∧
      (getEntry I5.entry x).content = (getEntry I.entry a).content ∧
      (∀ u y, y ∈ L u → y ≠ prev → getEntry I5.entry y = getEntry I.entry y) ∧
      (∀ u y, y ∈ L u → (getEntry I5.entry y).content = (getEntry I.entry y).content) ∧
      (∀ id, I5.propnames.ref_cnt id = I.propnames.ref_cnt id +
        (if (getEntry I.entry a).prop_id = id then 1 else 0)) ∧
      I5.propnames.str = I.propnames.str ∧ I5.propnames.n_entry = I.propnames.n_entry ∧
      (∀ id, I5.string_values.ref_cnt id = I.string_values.ref_cnt id +
        (if (getEntry I.entry a).type = PropertyType.String ∧
            (getEntry I.entry a).value = PropValue.int id then 1 else 0)) ∧
      I5.string_values.str = I.string_values.str ∧
      I5.string_values.n_entry = I.string_values.n_entry ∧
      I5.NextUniqueID = I.NextUniqueID ∧ I5.ActiveIDs = I.ActiveIDs ∧
      I.entry.length ≤ I5.entry.length := by
  obtain ⟨rest, h1, hnz, hlen1, hold, hm, hp, hs, hni, hai⟩ :=
    prepare_alloc I (headOf I) free L h
  have hab := IsSeg.mem_bound (h.list_chain src) ha
  have hxb := IsSeg.mem_bound h1.free_chain (List.mem_cons_self _ _)
  have hax : a ≠ (if I.next_free = 0 then PropertyUniqueExpand I else I).next_free :=
    fun hax => h1.free_disj src a ha (hax ▸ List.mem_cons_self _ _)
  rcases hprev with ⟨hd0, hp0⟩ | ⟨d0, hd0⟩
  · subst hp0
    obtain ⟨I5, c1, c2, c3, c4, c5, c6, c7, c8, c9, _, c10, c11, c12, c13, c14, c15, c16, c17,
      c18⟩ :=
      copy_alloc_spec I (if I.next_free = 0 then PropertyUniqueExpand I else I)
        { (if I.next_free = 0 then PropertyUniqueExpand I else I) with
          next_free := (getEntry (if I.next_free = 0 then PropertyUniqueExpand I else I).entry
            (if I.next_free = 0 then PropertyUniqueExpand I else I).next_free).next
          id2offset := Function.update
            (if I.next_free = 0 then PropertyUniqueExpand I else I).id2offset dst
            (some (if I.next_free = 0 then PropertyUniqueExpand I else I).next_free)
          entry := setNext
            (setPropId
              (setTypeValue (if I.next_free = 0 then PropertyUniqueExpand I else I).entry
                (if I.next_free = 0 then PropertyUniqueExpand I else I).next_free
                (getEntry (if I.next_free = 0 then PropertyUniqueExpand I else I).entry a).type
                (getEntry (if I.next_free = 0 then PropertyUniqueExpand I else I).entry a).value)
              (if I.next_free = 0 then PropertyUniqueExpand I else I).next_free
              (getEntry (if I.next_free = 0 then PropertyUniqueExpand I else I).entry a).prop_id)
            (if I.next_free = 0 then PropertyUniqueExpand I else I).next_free 0 }
        free rest L src dst a 0 h hz h1 hlen1 hold ha (by simp) rfl
        (by simp [hxb.2, hold a hab.2])
        (Or.inl ⟨hd0, rfl, by simp [hm], fun y hy => by simp [hy]⟩) hp hs hni hai
    refine ⟨I5, _, rest, ?_, c2, c3, c4, c5, c6, c7, c8, c9, c10, c11, c12, c13, c14, c15, c16,
      c17, c18⟩
    intro f
    rw [copyNewLoop]
    simp only [if_neg hab.1, if_pos hnz, if_true]
    rw [c1]
    dsimp only
    rw [c8 src a ha hab.1]
  · have hpL : prev ∈ L dst := by rw [hd0]; simp
    have hpb := IsSeg.mem_bound (h.list_chain dst) hpL
    have hpb1 : prev < (if I.next_free = 0 then PropertyUniqueExpand I else I).entry.length :=
      lt_of_lt_of_le hpb.2 hlen1
    have hpx : prev ≠ (if I.next_free = 0 then PropertyUniqueExpand I else I).next_free :=
      fun hpx => h1.free_disj dst prev hpL (hpx ▸ List.mem_cons_self _ _)
    have hap : a ≠ prev := fun hap => hsd (h.list_disj src dst a ha (hap ▸ hpL))
    obtain ⟨I5, c1, c2, c3, c4, c5, c6, c7, c8, c9, _, c10, c11, c12, c13, c14, c15, c16, c17,
      c18⟩ :=
      copy_alloc_spec I (if I.next_free = 0 then PropertyUniqueExpand I else I)
        { (if I.next_free = 0 then PropertyUniqueExpand I else I) with
          next_free := (getEntry (if I.next_free = 0 then PropertyUniqueExpand I else I).entry
            (if I.next_free = 0 then PropertyUniqueExpand I else I).next_free).next
          entry := setNext
            (setPropId
              (setTypeValue
                (setNext (if I.next_free = 0 then PropertyUniqueExpand I else I).entry prev
                  (if I.next_free = 0 then PropertyUniqueExpand I else I).next_free)
                (if I.next_free = 0 then PropertyUniqueExpand I else I).next_free
                (getEntry (if I.next_free = 0 then PropertyUniqueExpand I else I).entry a).type
                (getEntry (if I.next_free = 0 then PropertyUniqueExpand I else I).entry a).value)
              (if I.next_free = 0 then PropertyUniqueExpand I else I).next_free
              (getEntry (if I.next_free = 0 then PropertyUniqueExpand I else I).entry a).prop_id)
            (if I.next_free = 0 then PropertyUniqueExpand I else I).next_free 0 }
        free rest L src dst a prev h hz h1 hlen1 hold ha (by simp) rfl
        (by simp [hxb.2, hold a hab.2, hpx.symm])
        (Or.inr ⟨d0, hd0, hm, fun y hy1 hy2 => by simp [hy1, hy2],
          by simp [hpx, hpb1]⟩) hp hs hni hai
    refine ⟨I5, _, rest, ?_, c2, c3, c4, c5, c6, c7, c8, c9, c10, c11, c12, c13, c14, c15, c16,
      c17, c18⟩
    intro f
    rw [copyNewLoop]
    simp only [if_neg hab.1, if_pos hnz, if_neg hpb.1]
    rw [c1]
    dsimp only
    rw [c8 src a ha hap]

theorem copyNewLoop_spec (src dst : Int) (hsd : src ≠ dst) (s : List Nat) :
    ∀ (fuel : Nat) (I : CPropertyUnique) (src_offset prev : Nat) (free : List Nat)
      (L : Int → List Nat),
      SlabInv I.entry I.next_free (headOf I) free L →
      (∀ u, I.id2offset u ≠ some 0) →
      IsChain I.entry src_offset s →
      (∀ y ∈ s, y ∈ L src) →
      ((L dst = [] ∧ prev = 0) ∨ ∃ d0, L dst = d0 ++ [prev]) →
      s.length < fuel →
      ∃ J xs free2, copyNewLoop dst fuel I src_offset prev = Outcome.done J () ∧
        SlabInv J.entry J.next_free (headOf J) free2 (Function.update L dst (L dst ++ xs)) ∧
        (∀ u, J.id2offset u ≠ some 0) ∧
        (∀ u, u ≠ dst → J.id2offset u = I.id2offset u) ∧
        xs.map (fun y => (getEntry J.entry y).content) =
          s.map (fun y => (getEntry I.entry y).content) ∧
        (∀ u y, y ∈ L u → (getEntry J.entry y).content = (getEntry I.entry y).content) ∧
        (∀ u, u ≠ dst → ∀ y ∈ L u, getEntry J.entry y = getEntry I.entry y) ∧
        (∀ id, J.propnames.ref_cnt id =
          I.propnames.ref_cnt id + nameCount (s.map (getEntry I.entry)) id) ∧
        J.propnames.str = I.propnames.str ∧ J.propnames.n_entry = I.propnames.n_entry ∧
        (∀ id, J.string_values.ref_cnt id =
          I.string_values.ref_cnt id + stringCount (s.map (getEntry I.entry)) id) ∧
        J.string_values.str = I.string_values.str ∧
        J.string_values.n_entry = I.string_values.n_entry ∧
        J.NextUniqueID = I.NextUniqueID ∧ J.ActiveIDs = I.ActiveIDs ∧
        I.entry.length ≤ J.entry.length := by
  induction s with
  | nil =>
    intro fuel I src_offset prev free L h hz hc _ _ hf
    have ho : src_offset = 0 := hc
    subst ho
    cases fuel with
    | zero => simp at hf
    | succ f =>
      refine ⟨I, [], free, by simp [copyNewLoop], ?_, hz, fun _ _ => rfl, rfl,
        fun _ _ _ => rfl, fun _ _ _ _ => rfl, ?_, rfl, rfl, ?_, rfl, rfl, rfl, rfl, le_refl _⟩
      · rw [List.append_nil, Function.update_eq_self]; exact h
      · intro id; simp [nameCount]
      · intro id; simp [stringCount]
  | cons a s2 ih =>
    intro fuel I src_offset prev free L h hz hc hsub hprev hf
    obtain ⟨ho, ha0, halen, hc2⟩ := hc
    subst ho
    have ha : src_offset ∈ L src := hsub _ (List.mem_cons_self _ _)
    cases fuel with
    | zero => simp at hf
    | succ f =>
      have hf2 : s2.length < f := by simpa using hf
      obtain ⟨I5, x, rest, e1, e2, e3, e4, e5, e6, e7, e8, e9, e10, e11, e12, e13, e14, e15,
        e16, e17, e18⟩ := copyNew_step src dst hsd I src_offset prev free L h hz ha hprev
      have hLsrc : Function.update L dst (L dst ++ [x]) src = L src :=
        Function.update_noteq hsd _ _
      have hLdst : Function.update L dst (L dst ++ [x]) dst = L dst ++ [x] :=
        Function.update_same _ _ _
      have hfr : ∀ y ∈ L src, getEntry I5.entry y = getEntry I.entry y := by
        intro y hy
        refine e8 src y hy (fun hyp => ?_)
        rcases hprev with ⟨_, hp0⟩ | ⟨d0, hd0⟩
        · exact (IsSeg.mem_bound (h.list_chain src) hy).1 (hyp.trans hp0)
        · exact hsd (h.list_disj src dst y hy (by rw [hd0, hyp]; simp))
      have hc3 : IsChain I5.entry (getEntry I.entry src_offset).next s2 :=
        IsSeg.congr hc2 e18 (fun y hy => by
          rw [hfr y (hsub y (List.mem_cons_of_mem _ hy))])
      obtain ⟨J, xs, free2, j1, j2, j3, j4, j5, j6, j7, j8, j9, j10, j11, j12, j13, j14, j15,
        j16⟩ := ih f I5 (getEntry I.entry src_offset).next x rest
          (Function.update L dst (L dst ++ [x])) e2 e3 hc3
          (fun y hy => by rw [hLsrc]; exact hsub y (List.mem_cons_of_mem _ hy))
          (Or.inr ⟨L dst, hLdst⟩) hf2
      have hmapE : s2.map (getEntry I5.entry) = s2.map (getEntry I.entry) :=
        List.map_congr_left (fun y hy => hfr y (hsub y (List.mem_cons_of_mem _ hy)))
      refine ⟨J, x :: xs, free2, ?_, ?_, j3, ?_, ?_, ?_, ?_, ?_, by rw [j9, e11],
        by rw [j10, e12], ?_, by rw [j12, e14], by rw [j13, e15], by rw [j14, e16],
        by rw [j15, e17], le_trans e18 j16⟩
      · rw [e1 f, j1]
      · rw [hLdst, Function.update_idem] at j2
        simpa using j2
      · intro u hu; rw [j4 u hu, e4 u hu]
      · rw [List.map_cons, List.map_cons, j5]
        have hx1 : (getEntry J.entry x).content = (getEntry I5.entry x).content :=
          j6 dst x (by rw [hLdst]; simp)
        rw [hx1, e7]
        congr 1
        exact List.map_congr_left (fun y hy => by
          rw [hfr y (hsub y (List.mem_cons_of_mem _ hy))])
      · intro u y hy
        have : y ∈ Function.update L dst (L dst ++ [x]) u := by
          by_cases hu : u = dst
          · subst hu; rw [hLdst]; exact List.mem_append_left _ hy
          · rw [Function.update_noteq hu]; exact hy
        rw [j6 u y this, e9 u y hy]
      · intro u hu y hy
        have hyu : y ∈ Function.update L dst (L dst ++ [x]) u := by
          rw [Function.update_noteq hu]; exact hy
        rw [j7 u hu y hyu]
        refine e8 u y hy (fun hyp => ?_)
        rcases hprev with ⟨_, hp0⟩ | ⟨d0, hd0⟩
        · exact (IsSeg.mem_bound (h.list_chain u) hy).1 (hyp.trans hp0)
        · exact hu (h.list_disj u dst y hy (by rw [hd0, hyp]; simp))
      · intro id
        rw [j8 id, e10 id, hmapE, List.map_cons, nameCount_cons]
        ring
      · intro id
        rw [j11 id, e13 id, hmapE, List.map_cons, stringCount_cons]
        ring

/-- What `PropertyCopyProperties` does when the destination has no list. -/
theorem copyNew_spec (I : CPropertyUnique) (free : List Nat) (L : Int → List Nat)
    (h : SlabInv I.entry I.next_free (headOf I) free L)
    (hz : ∀ u, I.id2offset u ≠ some 0) (src dst : Int) (hdst : I.id2offset dst = none) :
    ∃ J xs free2, PropertyCopyProperties I src dst = Outcome.done J true ∧
      SlabInv J.entry J.next_free (headOf J) free2 (Function.update L dst xs) ∧
      (∀ u, J.id2offset u ≠ some 0) ∧
      (∀ u, u ≠ dst → J.id2offset u = I.id2offset u) ∧
      xs.map (fun y => (getEntry J.entry y).content) =
        (L src).map (fun y => (getEntry I.entry y).content) ∧
      (∀ u, u ≠ dst → ∀ y ∈ L u, getEntry J.entry y = getEntry I.entry y) ∧
      (∀ id, J.propnames.ref_cnt id =
        I.propnames.ref_cnt id + nameCount ((L src).map (getEntry I.entry)) id) ∧
      J.propnames.str = I.propnames.str ∧ J.propnames.n_entry = I.propnames.n_entry ∧
      (∀ id, J.string_values.ref_cnt id =
        I.string_values.ref_cnt id + stringCount ((L src).map (getEntry I.entry)) id) ∧
      J.string_values.str = I.string_values.str ∧
      J.string_values.n_entry = I.string_values.n_entry ∧
      J.NextUniqueID = I.NextUniqueID ∧ J.ActiveIDs = I.ActiveIDs ∧
      I.entry.length ≤ J.entry.length := by
  have hLd : L dst = [] := h.list_nil_of_head_zero dst (by simp [headOf, hdst])
  cases hsrc : I.id2offset src with
  | none =>
    have hLs : L src = [] := h.list_nil_of_head_zero src (by simp [headOf, hsrc])
    refine ⟨I, [], free, ?_, ?_, hz, fun _ _ => rfl, by simp [hLs], fun _ _ _ _ => rfl, ?_,
      rfl, rfl, ?_, rfl, rfl, rfl, rfl, le_refl _⟩
    · unfold PropertyCopyProperties
      rw [hdst, hsrc]
    · rw [← hLd, Function.update_eq_self]; exact h
    · intro id; simp [hLs, nameCount]
    · intro id; simp [hLs, stringCount]
  | some src_offset =>
    have hsd : src ≠ dst := by
      intro hsd; rw [hsd, hdst] at hsrc; cases hsrc
    have hc : IsChain I.entry src_offset (L src) := h.list_eq_of_head hsrc
    obtain ⟨J, xs, free2, j1, j2, j3, j4, j5, _, j7, j8, j9, j10, j11, j12, j13, j14, j15,
      j16⟩ := copyNewLoop_spec src dst hsd (L src) I.entry.length I src_offset 0 free L h hz hc
        (fun _ hy => hy) (Or.inl ⟨hLd, rfl⟩) (h.chain_length_lt src)
    refine ⟨J, xs, free2, ?_, ?_, j3, j4, j5, j7, j8, j9, j10, j11, j12, j13, j14, j15, j16⟩
    · unfold PropertyCopyProperties
      rw [hdst, hsrc]
      dsimp only
      rw [j1]
    · rw [hLd, List.nil_append] at j2; exact j2

/-! ## PropertyCopyProperties into a unique id that has a list -/

theorem copyExistingLoop_inv (dst : Int) :
    ∀ (fuel : Nat) (I : CPropertyUnique) (src_offset dst_offset : Nat) (free : List Nat)
      (L : Int → List Nat),
      SlabInv I.entry I.next_free (headOf I) free L →
      (∀ u, I.id2offset u ≠ some 0) →
      dst_offset ∈ L dst →
      (src_offset = 0 ∨ ∃ u, src_offset ∈ L u) →
      ∀ J, (copyExistingLoop dst fuel I src_offset dst_offset).state = some J → Inv J := by
  intro fuel
  induction fuel with
  | zero =>
    intro I src_offset dst_offset free L _ _ _ _ J hJ
    simp [copyExistingLoop, Outcome.state] at hJ
  | succ f ih =>
    intro I src_offset dst_offset free L h hz hd hs J hJ
    rw [copyExistingLoop] at hJ
    by_cases hs0 : src_offset = 0
    · simp only [if_pos hs0, Outcome.state, Option.some.injEq] at hJ
      subst hJ
      exact Inv.of_slab h hz
    · simp only [if_neg hs0] at hJ
      obtain ⟨u, ha⟩ : ∃ u, src_offset ∈ L u := by
        rcases hs with hs | hs
        · exact absurd hs hs0
        · exact hs
      have hab := IsSeg.mem_bound (h.list_chain u) ha
      obtain ⟨la, lb, hLd, _, hsuf⟩ := IsChain.split_at (h.list_chain dst) hd
      have hfuel : (dst_offset :: lb).length < I.entry.length := by
        have := h.chain_length_lt dst
        rw [hLd] at this
        simp only [List.length_append, List.length_cons] at this ⊢
        omega
      rcases findInList_spec I.entry (getEntry I.entry src_offset).prop_id (dst_offset :: lb)
          dst_offset hsuf I.entry.length 0 hfuel with
        ⟨l1, x, l2, hl, _, _, hx0, hres⟩ | ⟨_, hres⟩
      · rw [hres] at hJ
        simp only [if_pos hx0] at hJ
        have hxL : x ∈ L dst := by
          rw [hLd]
          refine List.mem_append_right _ ?_
          rw [hl]; simp
        have hxb := IsSeg.mem_bound (h.list_chain dst) hxL
        have hnext : ∀ y, (getEntry (setTypeValue I.entry x (getEntry I.entry src_offset).type
            (getEntry I.entry src_offset).value) y).next = (getEntry I.entry y).next := by
          intro y
          by_cases hyx : y = x
          · subst hyx; simp [hxb.2]
          · simp [hyx]
        have h2 : SlabInv (setTypeValue I.entry x (getEntry I.entry src_offset).type
            (getEntry I.entry src_offset).value) I.next_free (headOf I) free L := by
          refine h.overwrite (by simp) hnext (fun w y hy => ?_)
          by_cases hyx : y = x
          · subst hyx
            simp only [getEntry_setTypeValue, hxb.2, and_self, if_true]
            exact (kindOK_congr rfl rfl).1 (h.kind u src_offset ha)
          · simp only [getEntry_setTypeValue, hyx, false_and, if_false]
            exact h.kind w y hy
        refine ih { I with entry := (setTypeValue I.entry x (getEntry I.entry src_offset).type
            (getEntry I.entry src_offset).value) } _ x free L h2 hz hxL ?_ J hJ
        show (getEntry (setTypeValue I.entry x (getEntry I.entry src_offset).type
            (getEntry I.entry src_offset).value) src_offset).next = 0 ∨ _
        rw [hnext]
        rcases IsSeg.next_mem (h.list_chain u) ha with hn | hn
        · exact Or.inl hn
        · exact Or.inr ⟨u, hn⟩
      · rw [hres] at hJ
        simp only [ne_eq, not_true_eq_false, if_false] at hJ
        by_cases hstale : I.next_free = 0 ∧ ¬ (PropertyUniqueExpand I).next_free = 0
        · simp only [if_pos hstale, Outcome.state] at hJ
          cases hJ
        simp only [if_neg hstale] at hJ
        obtain ⟨d0, prev, hd0⟩ : ∃ d0 prev, L dst = d0 ++ [prev] := by
          rcases List.eq_nil_or_concat (L dst) with hnil | ⟨d0, p, hd0⟩
          · rw [hnil] at hd; cases hd
          · exact ⟨d0, p, by rw [hd0, List.concat_eq_append]⟩
        have hlast : (dst_offset :: lb).getLast?.getD 0 = prev := by
          have e1 : (L dst).getLast?.getD 0 = prev := by
            rw [hd0]; exact getLast?_getD_concat _ _ _
          rw [hLd, List.getLast?_append] at e1
          obtain ⟨z, hz2⟩ : ∃ z, (dst_offset :: lb).getLast? = some z :=
            ⟨_, List.getLast?_eq_getLast _ (by simp)⟩
          rw [hz2] at e1 ⊢
          simpa using e1
        rw [hlast] at hJ
        obtain ⟨rest, h1, hnz, hlen1, hold, hm, hp, hsv, hni, hai⟩ :=
          prepare_alloc I (headOf I) free L h
        have hpL : prev ∈ L dst := by rw [hd0]; simp
        have hpb := IsSeg.mem_bound (h.list_chain dst) hpL
        have hpb1 : prev < (if I.next_free = 0 then PropertyUniqueExpand I else I).entry.length :=
          lt_of_lt_of_le hpb.2 hlen1
        have hxb := IsSeg.mem_bound h1.free_chain (List.mem_cons_self _ _)
        have hpx : prev ≠ (if I.next_free = 0 then PropertyUniqueExpand I else I).next_free :=
          fun hpx => h1.free_disj dst prev hpL (hpx ▸ List.mem_cons_self _ _)
        simp only [if_pos hnz, if_pos hpb.1] at hJ
        obtain ⟨I6, c1, c2, c3, _, c5, c6, _, c8, _, c10, _⟩ :=
          copy_alloc_spec I (if I.next_free = 0 then PropertyUniqueExpand I else I)
            { (if I.next_free = 0 then PropertyUniqueExpand I else I) with
              next_free := (getEntry (if I.next_free = 0 then PropertyUniqueExpand I else I).entry
                (if I.next_free = 0 then PropertyUniqueExpand I else I).next_free).next
              entry := setPropId
                (setTypeValue
                  (setNext
                    (setNext (if I.next_free = 0 then PropertyUniqueExpand I else I).entry
                      (if I.next_free = 0 then PropertyUniqueExpand I else I).next_free 0)
                    prev (if I.next_free = 0 then PropertyUniqueExpand I else I).next_free)
                  (if I.next_free = 0 then PropertyUniqueExpand I else I).next_free
                  (getEntry I.entry src_offset).type (getEntry I.entry src_offset).value)
                (if I.next_free = 0 then PropertyUniqueExpand I else I).next_free
                (getEntry I.entry src_offset).prop_id }
            free rest L u dst src_offset prev h hz h1 hlen1 hold ha (by simp) rfl
            (by simp [hxb.2, hpx.symm])
            (Or.inr ⟨d0, hd0, hm, fun y hy1 hy2 => by simp [hy1, hy2],
              by simp [hpx, hpb1]⟩) hp hsv hni hai
        rw [c1] at hJ
        dsimp only at hJ
        refine ih I6 _ _ rest _ c2 c3 (by simp) ?_ J hJ
        by_cases hap : src_offset = prev
        · right
          refine ⟨dst, ?_⟩
          rw [hap, c10 hpb.1]
          simp
        · rw [c8 u src_offset ha hap]
          rcases IsSeg.next_mem (h.list_chain u) ha with hn | hn
          · exact Or.inl hn
          · right
            refine ⟨u, ?_⟩
            by_cases hu : u = dst
            · subst hu
              simp only [Function.update_same]
              exact List.mem_append_left _ hn
            · rw [Function.update_noteq hu]; exact hn

theorem copyProperties_inv (I : CPropertyUnique) (hI : Inv I) (src dst : Int)
    (J : CPropertyUnique) (hJ : (PropertyCopyProperties I src dst).state = some J) : Inv J := by
  obtain ⟨⟨free, L, h⟩, hz⟩ := hI
  cases hdst : I.id2offset dst with
  | none =>
    obtain ⟨J2, xs, free2, j1, j2, j3, _⟩ := copyNew_spec I free L h hz src dst hdst
    rw [j1] at hJ
    simp only [Outcome.state, Option.some.injEq] at hJ
    subst hJ
    exact Inv.of_slab j2 j3
  | some dst_offset =>
    unfold PropertyCopyProperties at hJ
    rw [hdst] at hJ
    dsimp only at hJ
    cases hsrc : I.id2offset src with
    | none =>
      rw [hsrc] at hJ
      simp only [Outcome.state, Option.some.injEq] at hJ
      subst hJ
      exact Inv.of_slab h hz
    | some src_offset =>
      rw [hsrc] at hJ
      dsimp only at hJ
      have hd0 : dst_offset ≠ 0 := fun h0 => hz dst (h0 ▸ hdst)
      have hs0 : src_offset ≠ 0 := fun h0 => hz src (h0 ▸ hsrc)
      obtain ⟨y, r, hy, hyd⟩ := IsChain.ne_nil_of_ne_zero (h.list_eq_of_head hdst) hd0
      obtain ⟨y2, r2, hy2, hys⟩ := IsChain.ne_nil_of_ne_zero (h.list_eq_of_head hsrc) hs0
      have key := copyExistingLoop_inv dst I.entry.length I src_offset dst_offset free L h hz
        (by rw [hy, hyd]; simp) (Or.inr ⟨src, by rw [hy2, hys]; simp⟩) J
      cases hr : copyExistingLoop dst I.entry.length I src_offset dst_offset with
      | done I1 b =>
        rw [hr] at hJ key
        exact key hJ
      | thrown I1 =>
        rw [hr] at hJ key
        exact key hJ
      | diverged =>
        rw [hr] at hJ
        simp [Outcome.state] at hJ

/-! ## PropertyGetNewUniqueID -/

theorem wrap32_range (x : Int) : -2147483648 ≤ wrap32 x ∧ wrap32 x < 2147483648 := by
  unfold wrap32
  norm_num
  omega

theorem wrap32_add (n : Int) (k : Nat) :
    wrap32 (wrap32 (n + 1) + k) = wrap32 (n + (k + 1 : Nat)) := by
  unfold wrap32
  norm_num
  omega

theorem wrap32_self (n : Int) (h1 : -2147483648 ≤ n) (h2 : n < 2147483648) :
    wrap32 (n + (0 : Nat)) = n := by
  unfold wrap32
  norm_num
  omega

theorem wrap32_inj (n : Int) (i j : Nat) (hi : i < 4294967296) (hj : j < 4294967296)
    (h : wrap32 (n + i) = wrap32 (n + j)) : i = j := by
  unfold wrap32 at h
  norm_num at h
  omega

/-- Among `M = 2^32` consecutive candidates of the counter, one is non-zero and not in a
list of fewer than `2^32 - 1` live ids. -/
theorem exists_free_candidate (n : Int) (A : List Int) (M : Nat) (hM : M = 4294967296)
    (hA : A.length + 1 < M) :
    ∃ k, k < M ∧ wrap32 (n + k) ≠ 0 ∧ wrap32 (n + k) ∉ A := by
  by_contra hcon
  push_neg at hcon
  have hnd : ((List.range M).map (fun k : Nat => wrap32 (n + k))).Nodup := by
    refine List.Nodup.map_on ?_ (List.nodup_range M)
    intro i hi j hj hij
    rw [List.mem_range] at hi hj
    exact wrap32_inj n i j (by omega) (by omega) hij
  have hlen : ((List.range M).map (fun k : Nat => wrap32 (n + k))).length = M := by simp
  have hsplit := List.length_eq_countP_add_countP (fun x : Int => decide (x = 0))
    ((List.range M).map (fun k : Nat => wrap32 (n + k)))
  have hzero : List.countP (fun x : Int => decide (x = 0))
      ((List.range M).map (fun k : Nat => wrap32 (n + k))) ≤ 1 := by
    have := List.nodup_iff_count_le_one.1 hnd 0
    rw [List.count_eq_countP] at this
    refine le_trans (le_of_eq ?_) this
    congr 1
  have hfil : List.countP (fun x : Int => ! decide (x = 0))
      ((List.range M).map (fun k : Nat => wrap32 (n + k))) =
      (((List.range M).map (fun k : Nat => wrap32 (n + k))).filter
        (fun x : Int => ! decide (x = 0))).length := by
    rw [List.countP_eq_length_filter]
  have hsub : ((List.range M).map (fun k : Nat => wrap32 (n + k))).filter
      (fun x : Int => ! decide (x = 0)) ⊆ A := by
    intro x hx
    rw [List.mem_filter, List.mem_map] at hx
    obtain ⟨⟨k, hk, rfl⟩, hx0⟩ := hx
    rw [List.mem_range] at hk
    have hx0' : wrap32 (n + k) ≠ 0 := by simpa using hx0
    exact hcon k hk hx0'
  have hle := (List.subperm_of_subset (hnd.filter _) hsub).length_le
  have e : (fun x : Int => decide ¬(fun x : Int => decide (x = 0)) x = true) =
      (fun x : Int => ! decide (x = 0)) := by
    funext x; simp
  rw [e] at hsplit
  omega

/-- The loop of `PropertyGetNewUniqueID` stops at the first candidate that is non-zero and
not live, when there is one within the fuel. -/
theorem newUniqueIDLoop_done (fuel : Nat) :
    ∀ (I : CPropertyUnique) (k : Nat), k < fuel →
      wrap32 (I.NextUniqueID + k) ≠ 0 → wrap32 (I.NextUniqueID + k) ∉ I.ActiveIDs →
      -2147483648 ≤ I.NextUniqueID → I.NextUniqueID < 2147483648 →
      ∃ J id, newUniqueIDLoop fuel I = Outcome.done J id ∧ id ≠ 0 ∧ id ∉ I.ActiveIDs ∧
        J.ActiveIDs = id :: I.ActiveIDs ∧
        -2147483648 ≤ J.NextUniqueID ∧ J.NextUniqueID < 2147483648 ∧
        J.entry = I.entry ∧ J.next_free = I.next_free ∧ J.id2offset = I.id2offset ∧
        J.propnames = I.propnames ∧ J.string_values = I.string_values := by
  induction fuel with
  | zero => intro I k hk; omega
  | succ f ih =>
    intro I k hk h0 hA hr1 hr2
    by_cases hc : I.NextUniqueID ≠ 0 ∧ I.NextUniqueID ∉ I.ActiveIDs
    · refine ⟨{ I with NextUniqueID := wrap32 (I.NextUniqueID + 1)
                       ActiveIDs := I.NextUniqueID :: I.ActiveIDs }, I.NextUniqueID, ?_, hc.1, hc.2,
        rfl, (wrap32_range _).1, (wrap32_range _).2, rfl, rfl, rfl, rfl, rfl⟩
      rw [newUniqueIDLoop]
      simp only [hc, ne_eq, not_false_eq_true, and_self, if_true]
    · cases k with
      | zero =>
        exfalso
        rw [wrap32_self _ hr1 hr2] at h0 hA
        exact hc ⟨h0, hA⟩
      | succ k =>
        obtain ⟨J, id, j1, j2, j3, j4, j5, j6, j7, j8, j9, j10, j11⟩ :=
          ih { I with NextUniqueID := wrap32 (I.NextUniqueID + 1) } k (by omega)
            (by show wrap32 (wrap32 (I.NextUniqueID + 1) + k) ≠ 0
                rw [wrap32_add]; exact h0)
            (by show wrap32 (wrap32 (I.NextUniqueID + 1) + k) ∉ I.ActiveIDs
                rw [wrap32_add]; exact hA)
            (wrap32_range _).1 (wrap32_range _).2
        refine ⟨J, id, ?_, j2, j3, j4, j5, j6, j7, j8, j9, j10, j11⟩
        rw [newUniqueIDLoop]
        simp only [ne_eq] at hc
        simp only [ne_eq, hc, if_false]
        exact j1

theorem getNewUniqueID_spec (I : CPropertyUnique) (hr1 : -2147483648 ≤ I.NextUniqueID)
    (hr2 : I.NextUniqueID < 2147483648) (hA : I.ActiveIDs.length + 1 < 2 ^ 32) :
    ∃ J id, PropertyGetNewUniqueID I = Outcome.done J id ∧ id ≠ 0 ∧ id ∉ I.ActiveIDs ∧
      J.ActiveIDs = id :: I.ActiveIDs ∧
      -2147483648 ≤ J.NextUniqueID ∧ J.NextUniqueID < 2147483648 ∧
      J.entry = I.entry ∧ J.next_free = I.next_free ∧ J.id2offset = I.id2offset ∧
      J.propnames = I.propnames ∧ J.string_values = I.string_values := by
  obtain ⟨k, hk, h0, hk2⟩ :=
    exists_free_candidate I.NextUniqueID I.ActiveIDs (2 ^ 32) (by norm_num) hA
  exact newUniqueIDLoop_done (2 ^ 32) I k hk h0 hk2 hr1 hr2

theorem newUniqueIDLoop_frame (fuel : Nat) :
    ∀ (I J : CPropertyUnique), (newUniqueIDLoop fuel I).state = some J →
      J.entry = I.entry ∧ J.next_free = I.next_free ∧ J.id2offset = I.id2offset := by
  induction fuel with
  | zero => intro I J hJ; simp [newUniqueIDLoop, Outcome.state] at hJ
  | succ f ih =>
    intro I J hJ
    rw [newUniqueIDLoop] at hJ
    dsimp only at hJ
    split_ifs at hJ with hc
    · simp only [Outcome.state, Option.some.injEq] at hJ
      subst hJ
      exact ⟨rfl, rfl, rfl⟩
    · exact ih { I with NextUniqueID := wrap32 (I.NextUniqueID + 1) } J hJ

/-! ## The invariant holds in every reachable state -/

theorem propertyInit_slab :
    SlabInv PropertyInit.entry PropertyInit.next_free (headOf PropertyInit)
      [9, 8, 7, 6, 5, 4, 3, 2, 1] (fun _ => []) where
  free_chain := by
    unfold IsChain
    simp only [IsSeg]
    decide
  list_chain := fun _ => rfl
  free_nodup := by decide
  list_nodup := fun _ => List.nodup_nil
  free_disj := fun _ _ hx => by cases hx
  list_disj := fun _ _ _ hx => by cases hx
  cover := by
    intro x h0 hx
    left
    have hlen : PropertyInit.entry.length = 10 := by decide
    rw [hlen] at hx
    interval_cases x <;> simp
  kind := fun _ _ hx => by cases hx
  size := by decide

theorem propertyInit_inv : Inv PropertyInit :=
  Inv.of_slab propertyInit_slab (fun _ h => by cases h)

theorem call_inv (c : Call) (I J : CPropertyUnique) (hI : Inv I) (hJ : c.run I = some J) :
    Inv J := by
  cases c with
  | set_b u n v => exact setTypedValue_inv I hI u n _ _ J hJ
  | set_int u n v => exact setTypedValue_inv I hI u n _ _ J hJ
  | set_double u n v => exact setTypedValue_inv I hI u n _ _ J hJ
  | set_color u n v => exact setTypedValue_inv I hI u n _ _ J hJ
  | set_string u n v =>
    exact setTypedValue_inv
      { I with string_values := (OVLexicon_GetFromCString I.string_values v).1 }
      (Inv.of_same_slab hI rfl rfl rfl) u n PropertyType.String
      (some (PropValue.int (OVLexicon_GetFromCString I.string_values v).2)) J hJ
  | delete u n => exact setTypedValue_inv I hI u n _ _ J hJ
  | copy s d => exact copyProperties_inv I hI s d J hJ
  | detach u => exact detachChain_inv I hI u J hJ
  | new_unique_id =>
    obtain ⟨h1, h2, h3⟩ := newUniqueIDLoop_frame _ I J hJ
    exact Inv.of_same_slab hI h1 h2 h3

theorem reachable_inv {I : CPropertyUnique} (h : Reachable I) : Inv I := by
  induction h with
  | init => exact propertyInit_inv
  | step c _ hrun ih => exact call_inv c _ _ ih hrun

theorem slabPartition_of_slabInv {I : CPropertyUnique} {free : List Nat} {L : Int → List Nat}
    (h : SlabInv I.entry I.next_free (headOf I) free L) : SlabPartition I := by
  have hL : ∀ u, listOf I u = L u := h.listOf_eq
  have hF : freeList I = free := h.freeList_eq
  unfold SlabPartition
  simp only [hL, hF]
  refine ⟨h.free_chain, h.list_chain,
    ⟨fun h0 => (IsSeg.mem_bound h.free_chain h0).1 rfl,
      fun u h0 => (IsSeg.mem_bound (h.list_chain u) h0).1 rfl⟩,
    ⟨h.free_nodup, h.list_nodup⟩,
    ⟨h.free_disj, fun u g hug x hx hg => hug (h.list_disj u g x hx hg)⟩,
    fun x hx hlen => h.cover x hx hlen, ?_⟩
  intro hnf u hm
  obtain ⟨x, rest, hfr, hx⟩ := IsChain.ne_nil_of_ne_zero h.free_chain hnf
  exact h.free_disj u _ hm (by rw [hfr, hx]; simp)

/-! ## Reachability of the states used as concrete inputs -/

theorem reachable_runCalls (cs : List Call) :
    ∀ I J : CPropertyUnique, Reachable I → runCalls cs I = some J → Reachable J := by
  induction cs with
  | nil =>
    intro I J hI hJ
    simp only [runCalls, Option.some.injEq] at hJ
    exact hJ ▸ hI
  | cons c cs ih =>
    intro I J hI hJ
    rw [runCalls] at hJ
    cases hc : c.run I with
    | none => rw [hc] at hJ; cases hJ
    | some K =>
      rw [hc] at hJ
      exact ih K J (Reachable.step c hI hc) hJ

theorem stateAfter_reachable (cs : List Call)
    (h : (runCalls cs PropertyInit).isSome = true) : Reachable (stateAfter cs) := by
  unfold stateAfter
  cases hr : runCalls cs PropertyInit with
  | none => rw [hr] at h; cases h
  | some J => exact reachable_runCalls cs PropertyInit J Reachable.init hr

/-! ## The handles of consecutive PropertyGetNewUniqueID calls -/

theorem newUniqueIDLoop_sound (fuel : Nat) :
    ∀ (I J : CPropertyUnique) (id : Int), newUniqueIDLoop fuel I = Outcome.done J id →
      id ≠ 0 ∧ id ∉ I.ActiveIDs ∧ J.ActiveIDs = id :: I.ActiveIDs := by
  induction fuel with
  | zero => intro I J id h; simp [newUniqueIDLoop] at h
  | succ f ih =>
    intro I J id h
    rw [newUniqueIDLoop] at h
    dsimp only at h
    split_ifs at h with hc
    · simp only [Outcome.done.injEq] at h
      obtain ⟨h1, h2⟩ := h
      subst h1 h2
      exact ⟨hc.1, hc.2, rfl⟩
    · exact ih { I with NextUniqueID := wrap32 (I.NextUniqueID + 1) } J id h

theorem newUniqueIDs_sound (N : Nat) :
    ∀ (I J : CPropertyUnique) (ids : List Int), newUniqueIDs N I = some (J, ids) →
      ids.length = N ∧ ids.Nodup ∧ ∀ id ∈ ids, id ≠ 0 ∧ id ∉ I.ActiveIDs := by
  induction N with
  | zero =>
    intro I J ids h
    simp only [newUniqueIDs, Option.some.injEq, Prod.mk.injEq] at h
    obtain ⟨_, h2⟩ := h
    subst h2
    simp
  | succ n ih =>
    intro I J ids h
    rw [newUniqueIDs] at h
    cases h1 : PropertyGetNewUniqueID I with
    | thrown K => rw [h1] at h; cases h
    | diverged => rw [h1] at h; cases h
    | done I1 id =>
      rw [h1] at h
      dsimp only at h
      cases h2 : newUniqueIDs n I1 with
      | none => rw [h2] at h; cases h
      | some p =>
        obtain ⟨I2, ids2⟩ := p
        rw [h2] at h
        simp only [Option.some.injEq, Prod.mk.injEq] at h
        obtain ⟨hJ, hids⟩ := h
        subst hJ hids
        obtain ⟨s1, s2, s3⟩ := newUniqueIDLoop_sound _ I I1 id h1
        obtain ⟨t1, t2, t3⟩ := ih I1 I2 ids2 h2
        rw [s3] at t3
        refine ⟨by simp [t1], List.nodup_cons.2 ⟨fun hm => (t3 id hm).2 (by simp), t2⟩, ?_⟩
        intro x hx
        rcases List.mem_cons.1 hx with rfl | hx
        · exact ⟨s1, s2⟩
        · exact ⟨(t3 x hx).1, fun hm => (t3 x hx).2 (List.mem_cons_of_mem _ hm)⟩

theorem newUniqueIDs_returns (N : Nat) :
    ∀ (I : CPropertyUnique), -2147483648 ≤ I.NextUniqueID → I.NextUniqueID < 2147483648 →
      I.ActiveIDs.length + N < 2 ^ 32 → ∃ J ids, newUniqueIDs N I = some (J, ids) := by
  induction N with
  | zero => intro I _ _ _; exact ⟨I, [], rfl⟩
  | succ n ih =>
    intro I hr1 hr2 hcap
    obtain ⟨I1, id, g1, _, _, g4, g5, g6, _⟩ :=
      getNewUniqueID_spec I hr1 hr2 (by omega)
    obtain ⟨J, ids, hJ⟩ := ih I1 g5 g6 (by rw [g4]; simp only [List.length_cons]; omega)
    refine ⟨J, id :: ids, ?_⟩
    rw [newUniqueIDs, g1]
    dsimp only
    rw [hJ]

/-! ## The claims -/

/-- C2: in every state reachable from `PropertyInit` by any sequence of set, delete,
`PropertyCopyProperties`, `PropertyUniqueDetachChain` (and `PropertyGetNewUniqueID`) calls,
the free list and every unique id's list are chains that end at offset 0 and never contain
offset 0, no offset occurs twice on a list or on two lists, every slab index from 1 to
size-1 is on one of them, and the head of the free list is on no unique id's list. -/
theorem slab_partition_reachable (I : CPropertyUnique) (h : Reachable I) :
    SlabPartition I := by
  obtain ⟨⟨free, L, hs⟩, _⟩ := reachable_inv h
  exact slabPartition_of_slabInv hs

/-- C3: the handles returned by `N` consecutive `PropertyGetNewUniqueID` calls, from any
state, are `N` pairwise distinct non-zero handles none of which was live before the first
call; and the calls do return when the counter is a 32-bit value and fewer than
`2^32 - N` ids are live. -/
theorem new_unique_ids_distinct (I : CPropertyUnique) (N : Nat) :
    (∀ J ids, newUniqueIDs N I = some (J, ids) →
      ids.length = N ∧ ids.Nodup ∧ ∀ id ∈ ids, id ≠ 0 ∧ id ∉ I.ActiveIDs) ∧
    (-2147483648 ≤ I.NextUniqueID → I.NextUniqueID < 2147483648 →
      I.ActiveIDs.length + N < 2 ^ 32 → ∃ J ids, newUniqueIDs N I = some (J, ids)) :=
  ⟨fun J ids h => newUniqueIDs_sound N I J ids h, newUniqueIDs_returns N I⟩

/-- C7: in every reachable state `PropertyUniqueDetachChain` returns, and afterwards the
unique id is absent from `id2offset` and from `ActiveIDs`, the reference count of every
name id has dropped by the number of the id's entries with that name, the reference count
of every string handle has dropped by the number of the id's String entries holding it
(so no other count changed), and every slot of the former list is on the free list. -/
theorem detach_releases_everything (I : CPropertyUnique) (h : Reachable I) (uid : Int) :
    ∃ J, PropertyUniqueDetachChain I uid = Outcome.done J () ∧
      J.id2offset uid = none ∧ uid ∉ J.ActiveIDs ∧
      (∀ id, J.propnames.ref_cnt id =
        I.propnames.ref_cnt id - nameCount (entriesOf I uid) id) ∧
      (∀ id, J.string_values.ref_cnt id =
        I.string_values.ref_cnt id - stringCount (entriesOf I uid) id) ∧
      (∀ x ∈ listOf I uid, x ∈ freeList J) := by
  obtain ⟨⟨free, L, hs⟩, _⟩ := reachable_inv h
  obtain ⟨J, j1, j2, j3, j4, _, _, j7, _, _, j10, _⟩ := detachChain_spec I free L hs uid
  have hL : listOf I uid = L uid := hs.listOf_eq uid
  refine ⟨J, j1, by rw [j3]; simp, by rw [j4]; simp, ?_, ?_, ?_⟩
  · intro id; rw [j7 id]; simp only [entriesOf, hL]
  · intro id; rw [j10 id]; simp only [entriesOf, hL]
  · intro x hx
    rw [SlabInv.freeList_eq j2, hL.symm]
    exact List.mem_append_left _ (List.mem_reverse.2 hx)

/-- C10: in every reachable state, copying into a unique id that is absent from
`id2offset` returns, the destination list then holds the same sequence of (name id, type,
value) as the source list in the same order, the source list is unchanged, the reference
count of every name id has risen by the number of source entries with that name and the
reference count of every string handle by the number of source String entries holding it;
slab growth during the copy is included. -/
theorem copy_into_new_handle (I : CPropertyUnique) (h : Reachable I) (src dst : Int)
    (hdst : I.id2offset dst = none) :
    ∃ J, PropertyCopyProperties I src dst = Outcome.done J true ∧
      (entriesOf J dst).map PropertyUniqueEntry.content =
        (entriesOf I src).map PropertyUniqueEntry.content ∧
      listOf J src = listOf I src ∧ entriesOf J src = entriesOf I src ∧
      (∀ id, J.propnames.ref_cnt id =
        I.propnames.ref_cnt id + nameCount (entriesOf I src) id) ∧
      (∀ id, J.string_values.ref_cnt id =
        I.string_values.ref_cnt id + stringCount (entriesOf I src) id) := by
  obtain ⟨⟨free, L, hs⟩, hz⟩ := reachable_inv h
  obtain ⟨J, xs, free2, j1, j2, _, _, j5, j6, j7, _, _, j10, _⟩ :=
    copyNew_spec I free L hs hz src dst hdst
  have hL : ∀ u, listOf I u = L u := hs.listOf_eq
  have hLJ : ∀ u, listOf J u = Function.update L dst xs u := j2.listOf_eq
  have hLd : L dst = [] := hs.list_nil_of_head_zero dst (by simp [headOf, hdst])
  have hdstJ : (entriesOf J dst).map PropertyUniqueEntry.content =
      (entriesOf I src).map PropertyUniqueEntry.content := by
    simp only [entriesOf, hLJ, hL, Function.update_same, List.map_map]
    exact j5
  refine ⟨J, j1, hdstJ, ?_, ?_, ?_, ?_⟩
  · by_cases hsd : src = dst
    · subst hsd
      have hxs : xs = [] := by
        have := congrArg List.length j5
        simpa [hLd] using this
      rw [hLJ, hL, hLd, hxs]; simp
    · rw [hLJ, hL, Function.update_noteq hsd]
  · by_cases hsd : src = dst
    · subst hsd
      have hxs : xs = [] := by
        have := congrArg List.length j5
        simpa [hLd] using this
      simp only [entriesOf, hLJ, hL, hLd, hxs, Function.update_same, List.map_nil]
    · simp only [entriesOf, hLJ, hL, Function.update_noteq hsd]
      exact List.map_congr_left (fun y hy => j6 src hsd y hy)
  · intro id; rw [j7 id]; simp only [entriesOf, hL]
  · intro id; rw [j10 id]; simp only [entriesOf, hL]

/-! ## The claims at concrete inputs -/

/-- C2 at a concrete input: the state reached by `sampleRunMixed` is reachable and satisfies
the slab partition. -/
theorem slab_partition_reachable_witness :
    Reachable (stateAfter sampleRunMixed) ∧ SlabPartition (stateAfter sampleRunMixed) :=
  ⟨stateAfter_reachable _ (by decide),
    slab_partition_reachable _ (stateAfter_reachable _ (by decide))⟩

/-- C3 at a concrete input: three consecutive calls from `PropertyInit` return three
pairwise distinct non-zero handles. -/
theorem new_unique_ids_distinct_witness :
    ∃ J ids, newUniqueIDs 3 PropertyInit = some (J, ids) ∧
      ids.length = 3 ∧ ids.Nodup ∧ ∀ id ∈ ids, id ≠ 0 ∧ id ∉ PropertyInit.ActiveIDs :=
  let ⟨J, ids, h⟩ :=
    (new_unique_ids_distinct PropertyInit 3).2 (by decide) (by decide) (by decide)
  ⟨J, ids, h, (new_unique_ids_distinct PropertyInit 3).1 J ids h⟩

/-- C7 at a concrete input: detaching unique id 1 in the state reached by
`sampleRunDetach`. -/
theorem detach_releases_everything_witness :
    Reachable (stateAfter sampleRunDetach) ∧
      ∃ J, PropertyUniqueDetachChain (stateAfter sampleRunDetach) 1 = Outcome.done J () ∧
        J.id2offset 1 = none ∧ (1 : Int) ∉ J.ActiveIDs ∧
        (∀ id, J.propnames.ref_cnt id =
          (stateAfter sampleRunDetach).propnames.ref_cnt id -
            nameCount (entriesOf (stateAfter sampleRunDetach) 1) id) ∧
        (∀ id, J.string_values.ref_cnt id =
          (stateAfter sampleRunDetach).string_values.ref_cnt id -
            stringCount (entriesOf (stateAfter sampleRunDetach) 1) id) ∧
        (∀ x ∈ listOf (stateAfter sampleRunDetach) 1, x ∈ freeList J) :=
  ⟨stateAfter_reachable _ (by decide),
    detach_releases_everything _ (stateAfter_reachable _ (by decide)) 1⟩

/-- C10 at a concrete input: copying unique id 1 into the absent unique id 2 in the state
reached by `sampleRunCopy`. -/
theorem copy_into_new_handle_witness :
    Reachable (stateAfter sampleRunCopy) ∧ (stateAfter sampleRunCopy).id2offset 2 = none ∧
      ∃ J, PropertyCopyProperties (stateAfter sampleRunCopy) 1 2 = Outcome.done J true ∧
        (entriesOf J 2).map PropertyUniqueEntry.content =
          (entriesOf (stateAfter sampleRunCopy) 1).map PropertyUniqueEntry.content ∧
        listOf J 1 = listOf (stateAfter sampleRunCopy) 1 ∧
        entriesOf J 1 = entriesOf (stateAfter sampleRunCopy) 1 ∧
        (∀ id, J.propnames.ref_cnt id =
          (stateAfter sampleRunCopy).propnames.ref_cnt id +
            nameCount (entriesOf (stateAfter sampleRunCopy) 1) id) ∧
        (∀ id, J.string_values.ref_cnt id =
          (stateAfter sampleRunCopy).string_values.ref_cnt id +
            stringCount (entriesOf (stateAfter sampleRunCopy) 1) id) :=
  ⟨stateAfter_reachable _ (by decide), by decide,
    copy_into_new_handle _ (stateAfter_reachable _ (by decide)) 1 2 (by decide)⟩

/-- Copying unique id 1 into unique id 2 after `sampleRunCopy` runs out of free slots and
grows the slab from 10 to 15 slots, and the destination holds the five copied entries. -/
theorem sampleRunCopy_grows_slab :
    (stateAfter sampleRunCopy).entry.length = 10 ∧
      (stateAfter (sampleRunCopy ++ [Call.copy 1 2])).entry.length = 15 ∧
      (entriesOf (stateAfter (sampleRunCopy ++ [Call.copy 1 2])) 2).map
          PropertyUniqueEntry.content =
        [(1, PropertyType.Int, PropValue.int 1), (2, PropertyType.String, PropValue.int 1),
          (3, PropertyType.Float, PropValue.double (mkRat 5 2)),
          (4, PropertyType.Boolean, PropValue.int 1),
          (5, PropertyType.Color, PropValue.int 7)] := by
  decide

/-! ## Runs on which the code departs from the specification -/

/-- C1 (failing input): after `PropertySet(1, "a", 1)` has stored Int 1, the call
`PropertySet(1, "a", 2.5)` reads the stored `int` payload with `std::get<double>` and ends
with an escaping `std::bad_variant_access`; the lookup afterwards still finds Int 1, not
Float 2.5.  Setting an `int` over a stored Float throws in the same way. -/
theorem set_double_over_int_throws :
    (runCalls [Call.set_int 1 "a" 1] PropertyInit).isSome = true ∧
      lookupContent (stateAfter [Call.set_int 1 "a" 1]) 1 "a" =
        some (1, PropertyType.Int, PropValue.int 1) ∧
      (PropertySet_double (stateAfter [Call.set_int 1 "a" 1]) 1 "a" (mkRat 5 2)).isThrown
        = true ∧
      lookupContent (stateAfter [Call.set_int 1 "a" 1, Call.set_double 1 "a" (mkRat 5 2)])
        1 "a" = some (1, PropertyType.Int, PropValue.int 1) ∧
      (PropertySet_int (stateAfter [Call.set_double 1 "a" (mkRat 5 2)]) 1 "a" 1).isThrown
        = true := by
  decide

/-- C4 (failing input): deleting the String property "a" = "x" of unique id 1 removes the
entry but leaves the reference count of the name "a" at 1 and the reference count of the
string "x" at 1, the values they had while the entry existed. -/
theorem delete_keeps_reference_counts :
    lookupContent (stateAfter [Call.set_string 1 "a" "x"]) 1 "a" =
        some (1, PropertyType.String, PropValue.int 1) ∧
      (stateAfter [Call.set_string 1 "a" "x"]).propnames.ref_cnt 1 = 1 ∧
      (stateAfter [Call.set_string 1 "a" "x"]).string_values.ref_cnt 1 = 1 ∧
      (runCalls [Call.set_string 1 "a" "x", Call.delete 1 "a"] PropertyInit).isSome = true ∧
      lookupContent (stateAfter [Call.set_string 1 "a" "x", Call.delete 1 "a"]) 1 "a" = none ∧
      (stateAfter [Call.set_string 1 "a" "x", Call.delete 1 "a"]).propnames.ref_cnt 1 = 1 ∧
      (stateAfter [Call.set_string 1 "a" "x", Call.delete 1 "a"]).string_values.ref_cnt 1
        = 1 := by
  decide

/-- C5 (failing input): setting the String property "a" = "x" of unique id 1 twice leaves
the reference count of the string "x" at 2, while it was 1 after the first set; the count
of the name "a" stays 1. -/
theorem set_string_twice_leaks_value_reference :
    (runCalls [Call.set_string 1 "a" "x", Call.set_string 1 "a" "x"] PropertyInit).isSome
        = true ∧
      (stateAfter [Call.set_string 1 "a" "x"]).string_values.ref_cnt 1 = 1 ∧
      (stateAfter [Call.set_string 1 "a" "x", Call.set_string 1 "a" "x"]).string_values.ref_cnt 1
        = 2 ∧
      (stateAfter [Call.set_string 1 "a" "x"]).propnames.ref_cnt 1 = 1 ∧
      (stateAfter [Call.set_string 1 "a" "x", Call.set_string 1 "a" "x"]).propnames.ref_cnt 1
        = 1 := by
  decide

/-- C6 (failing input): deleting the property "a" of unique id 1 in the initial state,
where neither the unique id nor the name exists, creates the name "a" in the name interner
with reference count 1; deleting a name that is interned but has no entry on the unique id
raises its count by one. -/
theorem delete_missing_interns_name :
    PropertyInit.id2offset 1 = none ∧
      OVLexicon_BorrowFromCString PropertyInit.propnames "a" = none ∧
      PropertyInit.propnames.ref_cnt 1 = 0 ∧ PropertyInit.propnames.n_entry = 0 ∧
      (runCalls [Call.delete 1 "a"] PropertyInit).isSome = true ∧
      OVLexicon_BorrowFromCString (stateAfter [Call.delete 1 "a"]).propnames "a" = some 1 ∧
      (stateAfter [Call.delete 1 "a"]).propnames.ref_cnt 1 = 1 ∧
      (stateAfter [Call.delete 1 "a"]).propnames.n_entry = 1 ∧
      lookupContent (stateAfter [Call.set_int 1 "b" 5, Call.set_int 2 "a" 1]) 1 "a" = none ∧
      (stateAfter [Call.set_int 1 "b" 5, Call.set_int 2 "a" 1]).propnames.ref_cnt 2 = 1 ∧
      (stateAfter [Call.set_int 1 "b" 5, Call.set_int 2 "a" 1,
        Call.delete 1 "a"]).propnames.ref_cnt 2 = 2 := by
  decide

/-- C8 (failing input): unique ids 1 and 2 both have a String property "a", with texts "x"
and "y".  `PropertyCopyProperties(1, 2)` overwrites the entry of 2 with the handle of "x"
without taking a reference, so after `PropertyUniqueDetachChain(1)` the entry of 2 still
holds that handle while its reference count is 0 and the text can no longer be resolved. -/
theorem copy_over_string_aliases_value :
    (runCalls [Call.set_string 1 "a" "x", Call.set_string 2 "a" "y", Call.copy 1 2,
        Call.detach 1] PropertyInit).isSome = true ∧
      (entriesOf (stateAfter [Call.set_string 1 "a" "x", Call.set_string 2 "a" "y",
        Call.copy 1 2]) 2).map PropertyUniqueEntry.content =
        [(1, PropertyType.String, PropValue.int 1)] ∧
      (stateAfter [Call.set_string 1 "a" "x", Call.set_string 2 "a" "y",
        Call.copy 1 2]).string_values.ref_cnt 1 = 1 ∧
      (entriesOf (stateAfter [Call.set_string 1 "a" "x", Call.set_string 2 "a" "y",
        Call.copy 1 2, Call.detach 1]) 2).map PropertyUniqueEntry.content =
        [(1, PropertyType.String, PropValue.int 1)] ∧
      (stateAfter [Call.set_string 1 "a" "x", Call.set_string 2 "a" "y", Call.copy 1 2,
        Call.detach 1]).string_values.ref_cnt 1 = 0 ∧
      OVLexicon_FetchCString (stateAfter [Call.set_string 1 "a" "x", Call.set_string 2 "a" "y",
        Call.copy 1 2, Call.detach 1]).string_values 1 = none := by
  decide

/-- C9 (failing input): unique id 1 has a = 1, b = 2 and unique id 2 has b = 20, a = 10, in
these orders.  `PropertyCopyProperties(1, 2)` finds "a", then looks for "b" from the entry
of "a" on, misses it and appends a second "b"; the lookup of (2, "b") still returns 20
while (1, "b") is 2. -/
theorem copy_existing_appends_duplicate :
    (runCalls [Call.set_int 1 "a" 1, Call.set_int 1 "b" 2, Call.set_int 2 "b" 20,
        Call.set_int 2 "a" 10, Call.copy 1 2] PropertyInit).isSome = true ∧
      lookupContent (stateAfter [Call.set_int 1 "a" 1, Call.set_int 1 "b" 2,
        Call.set_int 2 "b" 20, Call.set_int 2 "a" 10, Call.copy 1 2]) 1 "b" =
        some (2, PropertyType.Int, PropValue.int 2) ∧
      lookupContent (stateAfter [Call.set_int 1 "a" 1, Call.set_int 1 "b" 2,
        Call.set_int 2 "b" 20, Call.set_int 2 "a" 10, Call.copy 1 2]) 2 "b" =
        some (2, PropertyType.Int, PropValue.int 20) ∧
      (entriesOf (stateAfter [Call.set_int 1 "a" 1, Call.set_int 1 "b" 2,
        Call.set_int 2 "b" 20, Call.set_int 2 "a" 10, Call.copy 1 2]) 2).map
        PropertyUniqueEntry.content =
        [(2, PropertyType.Int, PropValue.int 20), (1, PropertyType.Int, PropValue.int 1),
          (2, PropertyType.Int, PropValue.int 2)] := by
  decide

/-! ## The interner: what `OVLexicon_GetFromCString` returns and keeps -/

theorem find?_eq_of_agree {α : Type} (p q : α → Bool) (l : List α)
    (h : ∀ x ∈ l, p x = q x) : l.find? p = l.find? q := by
  induction l with
  | nil => rfl
  | cons a l ih =>
    have ha : p a = q a := h a (by simp)
    have hl : ∀ x ∈ l, p x = q x := fun x hx => h x (by simp [hx])
    simp only [List.find?_cons, ha, ih hl]

theorem borrow_some {uk : OVLexicon} {s : String} {id : Int}
    (h : OVLexicon_BorrowFromCString uk s = some id) :
    1 ≤ id ∧ id ≤ uk.n_entry ∧ uk.str id = s ∧ 0 < uk.ref_cnt id := by
  unfold OVLexicon_BorrowFromCString at h
  have hp := List.find?_some h
  have hm := List.mem_of_find?_eq_some h
  simp only [decide_eq_true_eq] at hp
  simp only [List.mem_map, List.mem_range'_1] at hm
  obtain ⟨a, ⟨ha1, ha2⟩, rfl⟩ := hm
  refine ⟨?_, ?_, hp.1, hp.2⟩
  · simp only [Int.ofNat_eq_coe]; omega
  · simp only [Int.ofNat_eq_coe]; omega

theorem borrow_none {uk : OVLexicon} {s : String}
    (h : OVLexicon_BorrowFromCString uk s = none) (id : Int) (h1 : 1 ≤ id)
    (h2 : id ≤ uk.n_entry) : ¬ (uk.str id = s ∧ 0 < uk.ref_cnt id) := by
  unfold OVLexicon_BorrowFromCString at h
  rw [List.find?_eq_none] at h
  have := h id (by
    simp only [List.mem_map, List.mem_range'_1]
    refine ⟨id.toNat, ⟨by omega, by omega⟩, ?_⟩
    simp only [Int.ofNat_eq_coe]
    omega)
  simpa using this

theorem getFromCString_id (uk : OVLexicon) (s : String) :
    (OVLexicon_GetFromCString uk s).1.str (OVLexicon_GetFromCString uk s).2 = s ∧
      0 < (OVLexicon_GetFromCString uk s).1.ref_cnt (OVLexicon_GetFromCString uk s).2 ∧
      1 ≤ (OVLexicon_GetFromCString uk s).2 ∧
      (OVLexicon_GetFromCString uk s).2 ≤ (OVLexicon_GetFromCString uk s).1.n_entry := by
  unfold OVLexicon_GetFromCString
  cases hb : OVLexicon_BorrowFromCString uk s with
  | some id =>
    obtain ⟨h1, h2, h3, h4⟩ := borrow_some hb
    simp only [Function.update_same]
    exact ⟨h3, by omega, h1, h2⟩
  | none =>
    simp only [Function.update_same]
    refine ⟨trivial, by omega, by omega, ?_⟩
    push_cast
    omega

theorem getFromCString_ref_cnt (uk : OVLexicon) (s : String) (j : Int)
    (hj : j ≠ (OVLexicon_GetFromCString uk s).2) :
    (OVLexicon_GetFromCString uk s).1.ref_cnt j = uk.ref_cnt j := by
  unfold OVLexicon_GetFromCString at hj ⊢
  cases hb : OVLexicon_BorrowFromCString uk s with
  | some id =>
    rw [hb] at hj
    simp only at hj ⊢
    rw [Function.update_noteq hj]
  | none =>
    rw [hb] at hj
    simp only at hj ⊢
    rw [Function.update_noteq hj]

theorem getFromCString_ref_cnt_pos (uk : OVLexicon) (s : String) (j : Int)
    (hj : 0 < uk.ref_cnt j) :
    0 < (OVLexicon_GetFromCString uk s).1.ref_cnt j := by
  by_cases h : j = (OVLexicon_GetFromCString uk s).2
  · rw [h]; exact (getFromCString_id uk s).2.1
  · rw [getFromCString_ref_cnt uk s j h]; exact hj

theorem getFromCString_str (uk : OVLexicon) (s : String) (j : Int) (hj : j ≤ uk.n_entry) :
    (OVLexicon_GetFromCString uk s).1.str j = uk.str j := by
  unfold OVLexicon_GetFromCString
  cases hb : OVLexicon_BorrowFromCString uk s with
  | some id => rfl
  | none =>
    simp only
    rw [Function.update_noteq (by omega)]

theorem getFromCString_n_entry (uk : OVLexicon) (s : String) :
    uk.n_entry ≤ (OVLexicon_GetFromCString uk s).1.n_entry := by
  unfold OVLexicon_GetFromCString
  cases hb : OVLexicon_BorrowFromCString uk s with
  | some id => exact Nat.le_refl _
  | none => exact Nat.le_succ _

theorem range'_map_succ (n : Nat) :
    (List.range' 1 (n + 1)).map Int.ofNat =
      (List.range' 1 n).map Int.ofNat ++ [(n : Int) + 1] := by
  rw [List.range'_concat]
  simp only [List.map_append, List.map_cons, List.map_nil, Int.ofNat_eq_coe, Nat.cast_add,
    Nat.cast_one, one_mul]
  congr 2
  omega

theorem mem_range'_map {n : Nat} {x : Int} (hx : x ∈ (List.range' 1 n).map Int.ofNat) :
    1 ≤ x ∧ x ≤ n := by
  simp only [List.mem_map, List.mem_range'_1] at hx
  obtain ⟨a, ⟨ha1, ha2⟩, rfl⟩ := hx
  simp only [Int.ofNat_eq_coe]
  omega

/-- Interning a text leaves every text that had a live handle with the same handle. -/
theorem borrow_getFromCString_of_some (uk : OVLexicon) (s t : String) (id : Int)
    (h : OVLexicon_BorrowFromCString uk t = some id) :
    OVLexicon_BorrowFromCString (OVLexicon_GetFromCString uk s).1 t = some id := by
  rw [← h]
  unfold OVLexicon_GetFromCString
  cases hb : OVLexicon_BorrowFromCString uk s with
  | some ids =>
    obtain ⟨_, _, _, hpos⟩ := borrow_some hb
    unfold OVLexicon_BorrowFromCString
    simp only
    apply find?_eq_of_agree
    intro x _
    by_cases hx : x = ids
    · subst hx
      simp only [Function.update_same]
      have : 0 < uk.ref_cnt x + 1 := by omega
      simp [this, hpos]
    · simp only [Function.update_noteq hx]
  | none =>
    unfold OVLexicon_BorrowFromCString
    simp only
    rw [range'_map_succ, List.find?_append]
    have hagree : ((List.range' 1 uk.n_entry).map Int.ofNat).find?
        (fun id => decide (Function.update uk.str ((uk.n_entry : Int) + 1) s id = t ∧
          0 < Function.update uk.ref_cnt ((uk.n_entry : Int) + 1) 1 id)) =
        ((List.range' 1 uk.n_entry).map Int.ofNat).find?
          (fun id => decide (uk.str id = t ∧ 0 < uk.ref_cnt id)) := by
      apply find?_eq_of_agree
      intro x hx
      have hx2 := (mem_range'_map hx).2
      rw [Function.update_noteq (by omega), Function.update_noteq (by omega)]
    rw [hagree]
    unfold OVLexicon_BorrowFromCString at h
    rw [h]
    rfl

/-- After interning a text, the borrowing lookup of that text yields the handle that the
interning returned. -/
theorem borrow_getFromCString_self (uk : OVLexicon) (s : String) :
    OVLexicon_BorrowFromCString (OVLexicon_GetFromCString uk s).1 s =
      some (OVLexicon_GetFromCString uk s).2 := by
  cases hb : OVLexicon_BorrowFromCString uk s with
  | some ids =>
    have := borrow_getFromCString_of_some uk s s ids hb
    rw [this]
    unfold OVLexicon_GetFromCString
    rw [hb]
  | none =>
    unfold OVLexicon_GetFromCString
    rw [hb]
    unfold OVLexicon_BorrowFromCString
    simp only
    rw [range'_map_succ, List.find?_append]
    have hnone : ((List.range' 1 uk.n_entry).map Int.ofNat).find?
        (fun id => decide (Function.update uk.str ((uk.n_entry : Int) + 1) s id = s ∧
          0 < Function.update uk.ref_cnt ((uk.n_entry : Int) + 1) 1 id)) = none := by
      rw [List.find?_eq_none]
      intro x hx
      obtain ⟨hx1, hx2⟩ := mem_range'_map hx
      rw [Function.update_noteq (by omega), Function.update_noteq (by omega)]
      have := borrow_none hb x hx1 hx2
      simpa using this
    rw [hnone]
    simp [Function.update_same]

theorem fetch_some {uk : OVLexicon} {id : Int} (h : 0 < uk.ref_cnt id) :
    OVLexicon_FetchCString uk id = some (uk.str id) := by
  unfold OVLexicon_FetchCString
  rw [if_pos h]

/-! ## Lookups along a list of the slab -/

theorem findEntryLoop_spec (e : List PropertyUniqueEntry) (pid : Int) (l : List Nat) :
    ∀ (o fuel : Nat), IsChain e o l → l.length < fuel →
      findEntryLoop e pid fuel o =
        some ((l.map (getEntry e)).find? (fun x => decide (x.prop_id = pid))) := by
  induction l with
  | nil =>
    intro o fuel hc hf
    have ho : o = 0 := (isSeg_nil e o 0).1 hc
    subst ho
    cases fuel with
    | zero => omega
    | succ fuel => simp [findEntryLoop]
  | cons x xs ih =>
    intro o fuel hc hf
    obtain ⟨hox, hx0, _, hrest⟩ := (isSeg_cons e o x 0 xs).1 hc
    subst hox
    cases fuel with
    | zero => simp at hf
    | succ fuel =>
      unfold findEntryLoop
      rw [if_neg hx0]
      by_cases hp : (getEntry e o).prop_id = pid
      · rw [if_pos hp]
        simp [List.find?_cons, hp]
      · rw [if_neg hp]
        rw [ih _ fuel hrest (by simpa using hf)]
        simp [List.find?_cons, hp]

/-- In a state with the slab partition, the lookup by name id ends and returns the first
entry of the list with that name id. -/
theorem lookup_id_spec {I : CPropertyUnique} {free : List Nat} {L : Int → List Nat}
    (h : SlabInv I.entry I.next_free (headOf I) free L) (u pid : Int) :
    PropertyFindPropertyUniqueEntry_id I u pid =
      some (((L u).map (getEntry I.entry)).find? (fun x => decide (x.prop_id = pid))) := by
  unfold PropertyFindPropertyUniqueEntry_id
  cases hm : I.id2offset u with
  | none =>
    have : headOf I u = 0 := by simp [headOf, hm]
    rw [h.list_nil_of_head_zero u this]
    rfl
  | some o =>
    exact findEntryLoop_spec I.entry pid (L u) o _ (h.list_eq_of_head hm)
      (h.chain_length_lt u)

theorem entriesOf_eq {I : CPropertyUnique} {free : List Nat} {L : Int → List Nat}
    (h : SlabInv I.entry I.next_free (headOf I) free L) (u : Int) :
    entriesOf I u = (L u).map (getEntry I.entry) := by
  unfold entriesOf
  rw [h.listOf_eq u]

/-- The lookup by name, in a state with the slab partition. -/
theorem lookupContent_spec {I : CPropertyUnique} {free : List Nat} {L : Int → List Nat}
    (h : SlabInv I.entry I.next_free (headOf I) free L) (u : Int) (name : String) :
    lookupContent I u name =
      match OVLexicon_BorrowFromCString I.propnames name with
      | some pid =>
        (((L u).map (getEntry I.entry)).find? (fun x => decide (x.prop_id = pid))).map
          PropertyUniqueEntry.content
      | none => none := by
  unfold lookupContent PropertyFindPropertyUniqueEntry
  cases hb : OVLexicon_BorrowFromCString I.propnames name with
  | none => rfl
  | some pid =>
    simp only
    rw [lookup_id_spec h u pid]
    cases ((L u).map (getEntry I.entry)).find? (fun x => decide (x.prop_id = pid)) <;> rfl

theorem find?_map_content (l1 l2 : List PropertyUniqueEntry) (pid : Int)
    (h : l1.map PropertyUniqueEntry.content = l2.map PropertyUniqueEntry.content) :
    (l1.find? (fun x => decide (x.prop_id = pid))).map PropertyUniqueEntry.content =
      (l2.find? (fun x => decide (x.prop_id = pid))).map PropertyUniqueEntry.content := by
  induction l1 generalizing l2 with
  | nil =>
    cases l2 with
    | nil => rfl
    | cons b l2 => simp at h
  | cons a l1 ih =>
    cases l2 with
    | nil => simp at h
    | cons b l2 =>
      simp only [List.map_cons, List.cons.injEq] at h
      obtain ⟨hab, hrest⟩ := h
      have hid : a.prop_id = b.prop_id := congrArg Prod.fst hab
      simp only [List.find?_cons]
      by_cases hp : a.prop_id = pid
      · have hq : b.prop_id = pid := hid ▸ hp
        simp [hp, hq, hab]
      · have hq : ¬ b.prop_id = pid := fun hq => hp (hid.trans hq)
        simp only [hp, hq, decide_False]
        exact ih l2 hrest

theorem find?_append_content (l : List PropertyUniqueEntry) (a : PropertyUniqueEntry)
    (pid : Int) (c : Int × PropertyType × PropValue)
    (h : (l.find? (fun x => decide (x.prop_id = pid))).map PropertyUniqueEntry.content =
      some c) :
    ((l ++ [a]).find? (fun x => decide (x.prop_id = pid))).map PropertyUniqueEntry.content =
      some c := by
  rw [List.find?_append]
  cases hf : l.find? (fun x => decide (x.prop_id = pid)) with
  | none => rw [hf] at h; simp at h
  | some e => rw [hf] at h; simpa using h

/-! ## The names of a list -/

theorem getNamesLoop_spec (I : CPropertyUnique) (l : List Nat) :
    ∀ (o fuel : Nat) (names : List String), IsChain I.entry o l → l.length < fuel →
      l.map (fun x => OVLexicon_FetchCString I.propnames (getEntry I.entry x).prop_id) =
        names.map some →
      getNamesLoop I fuel o = Outcome.done I (names.map PyObject.str) := by
  induction l with
  | nil =>
    intro o fuel names hc hf hn
    have ho : o = 0 := (isSeg_nil I.entry o 0).1 hc
    subst ho
    cases names with
    | cons n ns => simp at hn
    | nil =>
      cases fuel with
      | zero => omega
      | succ fuel => simp [getNamesLoop]
  | cons x xs ih =>
    intro o fuel names hc hf hn
    obtain ⟨hox, hx0, _, hrest⟩ := (isSeg_cons I.entry o x 0 xs).1 hc
    subst hox
    cases names with
    | nil => simp at hn
    | cons n ns =>
      simp only [List.map_cons, List.cons.injEq] at hn
      cases fuel with
      | zero => simp at hf
      | succ fuel =>
        unfold getNamesLoop
        rw [if_neg hx0, hn.1]
        simp only
        rw [ih _ fuel ns hrest (by simpa using hf) hn.2]
        rfl

/-! ## Slab sizes -/

theorem appendEntry_length (I : CPropertyUnique) (uid : Int) (p : Nat) (pid : Int)
    (ty : PropertyType) (v : PropValue) :
    (appendEntry I uid p pid ty v).1.entry.length =
      (if I.next_free = 0 then PropertyUniqueExpand I else I).entry.length := by
  unfold appendEntry
  dsimp only
  generalize (if I.next_free = 0 then PropertyUniqueExpand I else I) = I1
  by_cases h1 : I1.next_free ≠ 0
  · rw [if_pos h1]
    by_cases hp : p ≠ 0
    · simp only [if_pos hp, length_setNext, length_setTypeValue, length_setPropId]
    · simp only [if_neg hp, length_setNext, length_setTypeValue, length_setPropId]
  · rw [if_neg h1]

theorem newListEntry_length (I : CPropertyUnique) (uid : Int) (pid : Int)
    (ty : PropertyType) (v : PropValue) :
    (newListEntry I uid pid ty v).1.entry.length =
      (if I.next_free = 0 then PropertyUniqueExpand I else I).entry.length := by
  unfold newListEntry
  dsimp only
  generalize (if I.next_free = 0 then PropertyUniqueExpand I else I) = I1
  by_cases h1 : I1.next_free ≠ 0
  · simp only [if_pos h1, length_setNext, length_setTypeValue, length_setPropId]
  · rw [if_neg h1]

theorem alloc_length {I : CPropertyUnique} {hd : Int → Nat} {free : List Nat}
    {L : Int → List Nat} (h : SlabInv I.entry I.next_free hd free L) :
    (I.next_free = 0 →
      (if I.next_free = 0 then PropertyUniqueExpand I else I).entry.length =
        I.entry.length * 3 / 2) ∧
    (I.next_free ≠ 0 →
      (if I.next_free = 0 then PropertyUniqueExpand I else I).entry.length =
        I.entry.length) := by
  constructor
  · intro h0
    rw [if_pos h0]
    have hfree : free = [] := (isChain_zero I.entry free).1 (h0 ▸ h.free_chain)
    subst hfree
    exact (expand_spec I hd L h).choose_spec.2.2.1
  · intro h0
    rw [if_neg h0]

/-! ## A set that creates a new entry -/

/-- `PropertyUniqueSetTypedValue` with a value, for a name whose id is not on the list of
the unique id: the call returns true, a slot `x` that was on no list is appended to the
list of the unique id with the given name id, type and value, every other entry keeps its
content, and the slab grows by half exactly when the free list was empty. -/
theorem setTypedValue_new_spec (I : CPropertyUnique) (free : List Nat) (L : Int → List Nat)
    (h : SlabInv I.entry I.next_free (headOf I) free L) (hz : ∀ u, I.id2offset u ≠ some 0)
    (uid : Int) (name : String) (ty : PropertyType) (v : PropValue)
    (hk : kindMatches ty v = true)
    (hnew : ∀ y ∈ L uid,
      (getEntry I.entry y).prop_id ≠ (OVLexicon_GetFromCString I.propnames name).2) :
    ∃ J x rest, PropertyUniqueSetTypedValue I uid name ty (some v) = Outcome.done J true ∧
      SlabInv J.entry J.next_free (headOf J) rest (Function.update L uid (L uid ++ [x])) ∧
      (∀ u, J.id2offset u ≠ some 0) ∧
      (∀ u, x ∉ L u) ∧
      (getEntry J.entry x).content = ((OVLexicon_GetFromCString I.propnames name).2, ty, v) ∧
      (∀ u y, y ∈ L u → (getEntry J.entry y).content = (getEntry I.entry y).content) ∧
      J.propnames = (OVLexicon_GetFromCString I.propnames name).1 ∧
      J.string_values = I.string_values ∧ J.NextUniqueID = I.NextUniqueID ∧
      J.ActiveIDs = I.ActiveIDs ∧
      (I.next_free = 0 → J.entry.length = I.entry.length * 3 / 2) ∧
      (I.next_free ≠ 0 → J.entry.length = I.entry.length) := by
  unfold PropertyUniqueSetTypedValue
  dsimp only
  set pid := (OVLexicon_GetFromCString I.propnames name).2 with hpid
  set I0 : CPropertyUnique :=
    { I with propnames := (OVLexicon_GetFromCString I.propnames name).1 } with hI0
  have h0 : SlabInv I0.entry I0.next_free (headOf I0) free L := h
  have hz0 : ∀ u, I0.id2offset u ≠ some 0 := hz
  have hlen := alloc_length h0
  cases hm : I.id2offset uid with
  | none =>
    dsimp only
    rw [if_pos hk]
    obtain ⟨x, rest, s1, s2, s3, s4, s5, s6, _, s8, s9, s10, s11, s12⟩ :=
      newListEntry_spec I0 free L h0 uid hm pid ty v hk
    have hnil : L uid = [] := h.list_nil_of_head_zero uid (by simp [headOf, hm])
    refine ⟨(newListEntry I0 uid pid ty v).1, x, rest, ?_, ?_, ?_, s4, ?_, ?_, s8, s9, s10,
      s11, ?_, ?_⟩
    · rw [s12]
    · rw [hnil]; exact s1
    · intro u
      rw [s2]
      by_cases hu : u = uid
      · subst hu; simpa using s3
      · rw [Function.update_noteq hu]; exact hz0 u
    · rw [s5]; rfl
    · intro u y hy
      rw [s6 u y hy]
    · intro hf
      rw [newListEntry_length]
      exact hlen.1 hf
    · intro hf
      rw [newListEntry_length]
      exact hlen.2 hf
  | some head =>
    dsimp only
    have hc : IsChain I.entry head (L uid) := h.list_eq_of_head hm
    have hhead : head ≠ 0 := fun h0 => hz uid (h0 ▸ hm)
    have hfuel := h.chain_length_lt uid
    rcases findInList_spec I.entry pid (L uid) head hc I.entry.length 0 hfuel with
      ⟨l1, x, l2, hl, _, hxp, _, _⟩ | ⟨_, hres⟩
    · exact absurd hxp (hnew x (by rw [hl]; simp))
    · rw [hres]
      dsimp only
      rw [if_neg (by simp), if_pos hk]
      obtain ⟨y, rest, hLy, _⟩ := IsChain.ne_nil_of_ne_zero hc hhead
      rcases List.eq_nil_or_concat (L uid) with hnil | ⟨l0, p, hl0⟩
      · rw [hnil] at hLy; cases hLy
      · rw [List.concat_eq_append] at hl0
        rw [hl0, getLast?_getD_concat]
        obtain ⟨x, rest, s1, s2, _, s4, s5, s6, s7, _, s9, s10, s11, s12, s13⟩ :=
          appendEntry_spec I0 free L h0 uid l0 p hl0 pid ty v hk
        refine ⟨(appendEntry I0 uid p pid ty v).1, x, rest, ?_, ?_, ?_, s4, ?_, ?_, s9, s10,
          s11, s12, ?_, ?_⟩
        · rw [s13]
        · have : l0 ++ [p] ++ [x] = l0 ++ [p, x] := by simp
          rw [this]; exact s1
        · intro u
          rw [s2]; exact hz0 u
        · rw [s5]; rfl
        · intro u y hy
          by_cases hyp : y = p
          · subst hyp
            rw [s7]; rfl
          · rw [s6 u y hy hyp]
        · intro hf
          rw [appendEntry_length]
          exact hlen.1 hf
        · intro hf
          rw [appendEntry_length]
          exact hlen.2 hf

/-- The same in terms of the entries of each unique id. -/
theorem setTypedValue_new_entries (I : CPropertyUnique) (hI : Inv I) (uid : Int)
    (name : String) (ty : PropertyType) (v : PropValue) (hk : kindMatches ty v = true)
    (hnew : (OVLexicon_GetFromCString I.propnames name).2 ∉
      (entriesOf I uid).map (fun e => e.prop_id)) :
    ∃ J, PropertyUniqueSetTypedValue I uid name ty (some v) = Outcome.done J true ∧
      Inv J ∧
      (entriesOf J uid).map PropertyUniqueEntry.content =
        (entriesOf I uid).map PropertyUniqueEntry.content ++
          [((OVLexicon_GetFromCString I.propnames name).2, ty, v)] ∧
      (∀ g, g ≠ uid → (entriesOf J g).map PropertyUniqueEntry.content =
        (entriesOf I g).map PropertyUniqueEntry.content) ∧
      J.propnames = (OVLexicon_GetFromCString I.propnames name).1 ∧
      J.string_values = I.string_values ∧ J.NextUniqueID = I.NextUniqueID ∧
      J.ActiveIDs = I.ActiveIDs ∧
      (I.next_free = 0 → J.entry.length = I.entry.length * 3 / 2) ∧
      (I.next_free ≠ 0 → J.entry.length = I.entry.length) := by
  obtain ⟨⟨free, L, h⟩, hz⟩ := hI
  have hnew2 : ∀ y ∈ L uid,
      (getEntry I.entry y).prop_id ≠ (OVLexicon_GetFromCString I.propnames name).2 := by
    intro y hy hcontra
    apply hnew
    rw [entriesOf_eq h uid]
    simp only [List.map_map, List.mem_map, Function.comp]
    exact ⟨y, hy, hcontra⟩
  obtain ⟨J, x, rest, r1, r2, r3, r4, r5, r6, r7, r8, r9, r10, r11, r12⟩ :=
    setTypedValue_new_spec I free L h hz uid name ty v hk hnew2
  refine ⟨J, r1, Inv.of_slab r2 r3, ?_, ?_, r7, r8, r9, r10, r11, r12⟩
  · rw [entriesOf_eq r2 uid, entriesOf_eq h uid, Function.update_same]
    simp only [List.map_append, List.map_map, List.map_cons, List.map_nil, Function.comp]
    congr 1
    · apply List.map_congr_left
      intro y hy
      exact r6 uid y hy
    · rw [r5]
  · intro g hg
    rw [entriesOf_eq r2 g, entriesOf_eq h g, Function.update_noteq hg]
    simp only [List.map_map]
    apply List.map_congr_left
    intro y hy
    exact r6 g y hy

/-! ## Setting a list of names on a unique id -/

theorem entriesOf_congr {I J : CPropertyUnique} (he : J.entry = I.entry)
    (hm : J.id2offset = I.id2offset) (u : Int) : entriesOf J u = entriesOf I u := by
  unfold entriesOf listOf headOf
  rw [he, hm]

theorem entriesOf_of_none {I : CPropertyUnique} {u : Int} (hm : I.id2offset u = none) :
    entriesOf I u = [] := by
  unfold entriesOf listOf headOf
  rw [hm]
  cases I.entry.length <;> simp [chainFrom]

/-- Every typed setter is `PropertyUniqueSetTypedValue` with a value of the kind its type
selects, on a state that differs from the given one at most in `string_values`. -/
theorem setTyped_eq (I : CPropertyUnique) (uid : Int) (name : String) (value : TypedValue) :
    ∃ I1 ty pv, setTyped I uid name value =
        PropertyUniqueSetTypedValue I1 uid name ty (some pv) ∧
      kindMatches ty pv = true ∧ I1.entry = I.entry ∧ I1.next_free = I.next_free ∧
      I1.id2offset = I.id2offset ∧ I1.propnames = I.propnames ∧
      I1.NextUniqueID = I.NextUniqueID ∧ I1.ActiveIDs = I.ActiveIDs := by
  cases value with
  | Boolean b =>
    exact ⟨I, PropertyType.Boolean, PropValue.int b, rfl, rfl, rfl, rfl, rfl, rfl, rfl, rfl⟩
  | Int i =>
    exact ⟨I, PropertyType.Int, PropValue.int i, rfl, rfl, rfl, rfl, rfl, rfl, rfl, rfl⟩
  | Float d =>
    exact ⟨I, PropertyType.Float, PropValue.double d, rfl, rfl, rfl, rfl, rfl, rfl, rfl, rfl⟩
  | Color c =>
    exact ⟨I, PropertyType.Color, PropValue.int c, rfl, rfl, rfl, rfl, rfl, rfl, rfl, rfl⟩
  | String s =>
    exact ⟨{ I with string_values := (OVLexicon_GetFromCString I.string_values s).1 },
      PropertyType.String, PropValue.int (OVLexicon_GetFromCString I.string_values s).2,
      rfl, rfl, rfl, rfl, rfl, rfl, rfl, rfl⟩

theorem map_prop_id_of_content (l : List PropertyUniqueEntry) :
    l.map (fun e => e.prop_id) = (l.map PropertyUniqueEntry.content).map Prod.fst := by
  rw [List.map_map]
  rfl

/-- The names of a list whose name ids all resolve. -/
theorem getNames_spec (I : CPropertyUnique) (hI : Inv I) (u : Int) (names : List String)
    (hn : (entriesOf I u).map (fun e => OVLexicon_FetchCString I.propnames e.prop_id) =
      names.map some) :
    PropertyGetNamesAsPyList I u =
      Outcome.done I (PyObject.list (names.map PyObject.str)) := by
  obtain ⟨⟨free, L, h⟩, hz⟩ := hI
  rw [entriesOf_eq h u, List.map_map] at hn
  unfold PropertyGetNamesAsPyList
  cases hm : I.id2offset u with
  | none =>
    have hnil : L u = [] := h.list_nil_of_head_zero u (by simp [headOf, hm])
    rw [hnil] at hn
    cases names with
    | nil => rfl
    | cons n ns => simp at hn
  | some o =>
    dsimp only
    rw [getNamesLoop_spec I (L u) o _ names (h.list_eq_of_head hm) (h.chain_length_lt u) hn]

theorem setAll_names (uid : Int) (props : List (String × TypedValue)) :
    ∀ (I : CPropertyUnique) (done : List String), Inv I →
      ((entriesOf I uid).map (fun e => e.prop_id)).map I.propnames.str = done →
      (∀ id ∈ (entriesOf I uid).map (fun e => e.prop_id),
        0 < I.propnames.ref_cnt id ∧ id ≤ I.propnames.n_entry) →
      (done ++ props.map Prod.fst).Nodup →
      ∃ J, setAll uid props I = some J ∧ Inv J ∧
        ((entriesOf J uid).map (fun e => e.prop_id)).map J.propnames.str =
          done ++ props.map Prod.fst ∧
        (∀ id ∈ (entriesOf J uid).map (fun e => e.prop_id),
          0 < J.propnames.ref_cnt id ∧ id ≤ J.propnames.n_entry) := by
  induction props with
  | nil =>
    intro I done hI hd hr _
    exact ⟨I, rfl, hI, by simpa using hd, hr⟩
  | cons p props ih =>
    intro I done hI hd hr hnd
    obtain ⟨name, value⟩ := p
    obtain ⟨I1, ty, pv, e1, hk, e2, e3, e4, e5, _, _⟩ := setTyped_eq I uid name value
    have hI1 : Inv I1 := Inv.of_same_slab hI e2 e3 e4
    have hent : entriesOf I1 uid = entriesOf I uid := entriesOf_congr e2 e4 uid
    have hname : name ∉ done := by
      intro hmem
      have := (List.nodup_append.1 hnd).2.2
      exact this hmem (by simp)
    have hnew : (OVLexicon_GetFromCString I1.propnames name).2 ∉
        (entriesOf I1 uid).map (fun e => e.prop_id) := by
      intro hmem
      rw [hent, e5] at hmem
      apply hname
      rw [← hd]
      refine List.mem_map.2 ⟨_, hmem, ?_⟩
      rw [← getFromCString_str I.propnames name _ (hr _ hmem).2]
      exact (getFromCString_id I.propnames name).1
    obtain ⟨J, r1, r2, r3, _, r5, _⟩ :=
      setTypedValue_new_entries I1 hI1 uid name ty pv hk hnew
    have hids : (entriesOf J uid).map (fun e => e.prop_id) =
        (entriesOf I uid).map (fun e => e.prop_id) ++
          [(OVLexicon_GetFromCString I.propnames name).2] := by
      rw [map_prop_id_of_content, r3, hent, e5, map_prop_id_of_content]
      simp
    rw [e5] at r5
    have hstep := ih J (done ++ [name]) r2
      (by
        rw [hids, r5, List.map_append, ← hd]
        congr 1
        · apply List.map_congr_left
          intro id hid
          exact getFromCString_str I.propnames name id (hr id hid).2
        · simp only [List.map_cons, List.map_nil]
          rw [(getFromCString_id I.propnames name).1])
      (by
        intro id hid
        rw [hids, List.mem_append] at hid
        rw [r5]
        rcases hid with hid | hid
        · exact ⟨getFromCString_ref_cnt_pos I.propnames name id (hr id hid).1,
            le_trans (hr id hid).2 (by exact_mod_cast getFromCString_n_entry I.propnames name)⟩
        · simp only [List.mem_singleton] at hid
          subst hid
          exact ⟨(getFromCString_id I.propnames name).2.1,
            (getFromCString_id I.propnames name).2.2.2⟩)
      (by simpa using hnd)
    obtain ⟨K, k1, k2, k3, k4⟩ := hstep
    refine ⟨K, ?_, k2, by simpa using k3, k4⟩
    simp only [setAll]
    rw [e1, r1]
    exact k1

/-! ## Lookups after a set that creates a new entry -/

theorem lookupContent_congr {I J : CPropertyUnique} (he : J.entry = I.entry)
    (hm : J.id2offset = I.id2offset) (hp : J.propnames = I.propnames) (u : Int)
    (name : String) : lookupContent J u name = lookupContent I u name := by
  unfold lookupContent PropertyFindPropertyUniqueEntry PropertyFindPropertyUniqueEntry_id
  rw [he, hm, hp]

/-- The lookup by name in a state with the invariant: the first entry of the list whose
name id is the live handle of the name. -/
theorem lookupContent_entries {I : CPropertyUnique} (hI : Inv I) (u : Int) (name : String) :
    lookupContent I u name =
      match OVLexicon_BorrowFromCString I.propnames name with
      | some pid =>
        ((entriesOf I u).find? (fun x => decide (x.prop_id = pid))).map
          PropertyUniqueEntry.content
      | none => none := by
  obtain ⟨⟨free, L, h⟩, _⟩ := hI
  have e := lookupContent_spec h u name
  rw [← entriesOf_eq h u] at e
  cases hb : OVLexicon_BorrowFromCString I.propnames name with
  | none => rw [hb] at e; exact e
  | some pid => rw [hb] at e; exact e

theorem find?_new_content (l : List PropertyUniqueEntry) (a : PropertyUniqueEntry) (pid : Int)
    (hl : pid ∉ l.map (fun e => e.prop_id)) (ha : a.prop_id = pid) :
    ((l ++ [a]).find? (fun x => decide (x.prop_id = pid))).map PropertyUniqueEntry.content =
      some a.content := by
  rw [List.find?_append]
  have : l.find? (fun x => decide (x.prop_id = pid)) = none := by
    rw [List.find?_eq_none]
    intro x hx
    simp only [decide_eq_true_eq]
    intro hxp
    exact hl (List.mem_map.2 ⟨x, hx, hxp⟩)
  rw [this]
  simp [List.find?_cons, ha]

theorem setTypedValue_new_lookup (I : CPropertyUnique) (hI : Inv I) (uid : Int)
    (name : String) (ty : PropertyType) (v : PropValue) (hk : kindMatches ty v = true)
    (hnew : (OVLexicon_GetFromCString I.propnames name).2 ∉
      (entriesOf I uid).map (fun e => e.prop_id)) :
    ∃ J, PropertyUniqueSetTypedValue I uid name ty (some v) = Outcome.done J true ∧
      Inv J ∧
      lookupContent J uid name = some ((OVLexicon_GetFromCString I.propnames name).2, ty, v) ∧
      (∀ g n c, lookupContent I g n = some c → lookupContent J g n = some c) ∧
      J.string_values = I.string_values ∧
      (I.next_free = 0 → J.entry.length = I.entry.length * 3 / 2) ∧
      (I.next_free ≠ 0 → J.entry.length = I.entry.length) := by
  obtain ⟨J, r1, r2, r3, r4, r5, r6, _, _, r9, r10⟩ :=
    setTypedValue_new_entries I hI uid name ty v hk hnew
  set pid := (OVLexicon_GetFromCString I.propnames name).2 with hpid
  have hcont : (entriesOf J uid).map PropertyUniqueEntry.content =
      (entriesOf I uid ++
        [({ prop_id := pid, type := ty, value := v, next := 0 } : PropertyUniqueEntry)]).map
        PropertyUniqueEntry.content := by
    rw [r3]; simp [PropertyUniqueEntry.content]
  refine ⟨J, r1, r2, ?_, ?_, r6, r9, r10⟩
  · rw [lookupContent_entries r2, r5, borrow_getFromCString_self]
    dsimp only
    rw [find?_map_content _ _ pid hcont, find?_new_content _ _ pid hnew rfl]
    rfl
  · intro g n c hc
    rw [lookupContent_entries hI] at hc
    rw [lookupContent_entries r2, r5]
    cases hb : OVLexicon_BorrowFromCString I.propnames n with
    | none => rw [hb] at hc; simp at hc
    | some q =>
      rw [hb] at hc
      rw [borrow_getFromCString_of_some I.propnames name n q hb]
      dsimp only at hc ⊢
      by_cases hg : g = uid
      · subst hg
        rw [find?_map_content _ _ q hcont]
        exact find?_append_content _ _ q c hc
      · rw [find?_map_content _ _ q (r4 g hg)]
        exact hc

/-- A typed setter on a name that is not yet on the list of the unique id: the call
returns true, the name is then found with the given typed value, every entry that was
found before is still found with the same content, and the slab grows by half exactly
when the free list was empty. -/
theorem setTyped_new_lookup (I : CPropertyUnique) (hI : Inv I) (uid : Int) (name : String)
    (value : TypedValue)
    (hnew : (OVLexicon_GetFromCString I.propnames name).2 ∉
      (entriesOf I uid).map (fun e => e.prop_id)) :
    ∃ J c, setTyped I uid name value = Outcome.done J true ∧ Inv J ∧
      lookupContent J uid name = some c ∧ holdsTypedValue J c value ∧
      (∀ g n c, lookupContent I g n = some c → lookupContent J g n = some c) ∧
      (I.next_free = 0 → J.entry.length = I.entry.length * 3 / 2) ∧
      (I.next_free ≠ 0 → J.entry.length = I.entry.length) := by
  have key : ∀ (I1 : CPropertyUnique) (ty : PropertyType) (pv : PropValue),
      kindMatches ty pv = true → I1.entry = I.entry → I1.next_free = I.next_free →
      I1.id2offset = I.id2offset → I1.propnames = I.propnames →
      ∃ J, PropertyUniqueSetTypedValue I1 uid name ty (some pv) = Outcome.done J true ∧
        Inv J ∧
        lookupContent J uid name =
          some ((OVLexicon_GetFromCString I.propnames name).2, ty, pv) ∧
        (∀ g n c, lookupContent I g n = some c → lookupContent J g n = some c) ∧
        J.string_values = I1.string_values ∧
        (I.next_free = 0 → J.entry.length = I.entry.length * 3 / 2) ∧
        (I.next_free ≠ 0 → J.entry.length = I.entry.length) := by
    intro I1 ty pv hk e2 e3 e4 e5
    have hI1 : Inv I1 := Inv.of_same_slab hI e2 e3 e4
    have hnew1 : (OVLexicon_GetFromCString I1.propnames name).2 ∉
        (entriesOf I1 uid).map (fun e => e.prop_id) := by
      rw [entriesOf_congr e2 e4 uid, e5]; exact hnew
    obtain ⟨J, r1, r2, r3, r4, r5, r6, r7⟩ :=
      setTypedValue_new_lookup I1 hI1 uid name ty pv hk hnew1
    refine ⟨J, r1, r2, by rw [r3, e5], ?_, r5, ?_, ?_⟩
    · intro g n c hc
      apply r4
      rw [lookupContent_congr e2 e4 e5]
      exact hc
    · intro hf; rw [r6 (e3 ▸ hf), e2]
    · intro hf; rw [r7 (e3 ▸ hf), e2]
  cases value with
  | Boolean b =>
    obtain ⟨J, r1, r2, r3, r4, _, r6, r7⟩ :=
      key I PropertyType.Boolean (PropValue.int b) rfl rfl rfl rfl rfl
    exact ⟨J, _, r1, r2, r3, rfl, r4, r6, r7⟩
  | Int i =>
    obtain ⟨J, r1, r2, r3, r4, _, r6, r7⟩ :=
      key I PropertyType.Int (PropValue.int i) rfl rfl rfl rfl rfl
    exact ⟨J, _, r1, r2, r3, rfl, r4, r6, r7⟩
  | Float d =>
    obtain ⟨J, r1, r2, r3, r4, _, r6, r7⟩ :=
      key I PropertyType.Float (PropValue.double d) rfl rfl rfl rfl rfl
    exact ⟨J, _, r1, r2, r3, rfl, r4, r6, r7⟩
  | Color i =>
    obtain ⟨J, r1, r2, r3, r4, _, r6, r7⟩ :=
      key I PropertyType.Color (PropValue.int i) rfl rfl rfl rfl rfl
    exact ⟨J, _, r1, r2, r3, rfl, r4, r6, r7⟩
  | String s =>
    obtain ⟨J, r1, r2, r3, r4, r5, r6, r7⟩ :=
      key { I with string_values := (OVLexicon_GetFromCString I.string_values s).1 }
        PropertyType.String (PropValue.int (OVLexicon_GetFromCString I.string_values s).2)
        rfl rfl rfl rfl rfl
    refine ⟨J, _, r1, r2, r3, ⟨rfl, ?_⟩, r4, r6, r7⟩
    simp only [PropValue.get_int, Option.some_bind]
    rw [r5]
    dsimp only
    rw [fetch_some (getFromCString_id I.string_values s).2.1,
      (getFromCString_id I.string_values s).1]

/-! ## Comparison ignoring case -/

theorem char_toNat_inj {c d : Char} (h : c.toNat = d.toNat) : c = d := by
  rw [← Char.ofNat_toNat c, ← Char.ofNat_toNat d, h]

theorem toLower_toNat_ne_zero {c : Char} (hc : c ≠ Char.ofNat 0) : c.toLower.toNat ≠ 0 := by
  intro h0
  have hl : c.toLower = Char.ofNat 0 := by
    rw [← Char.ofNat_toNat c.toLower, h0]
  unfold Char.toLower at hl
  dsimp only at hl
  split at hl
  · rename_i hrange
    obtain ⟨h1, h2⟩ := hrange
    generalize c.toNat = n at hl h1 h2
    have h1 : 65 ≤ n := h1
    have h2 : n ≤ 90 := h2
    interval_cases n <;> revert hl <;> decide
  · exact hc hl

theorem strcasecmp_go_eq_zero (a : List Char) :
    ∀ b : List Char, Char.ofNat 0 ∉ a → Char.ofNat 0 ∉ b →
      (strcasecmp.go a b = 0 ↔ a.map Char.toLower = b.map Char.toLower) := by
  induction a with
  | nil =>
    intro b _ hb
    cases b with
    | nil => simp [strcasecmp.go]
    | cons d ds =>
      have hd : d ≠ Char.ofNat 0 := fun h => hb (by simp [h])
      have := toLower_toNat_ne_zero hd
      simp only [strcasecmp.go, List.map_nil, List.map_cons]
      constructor
      · intro h; omega
      · intro h; cases h
  | cons c cs ih =>
    intro b ha hb
    have hc : c ≠ Char.ofNat 0 := fun h => ha (by simp [h])
    have hcs : Char.ofNat 0 ∉ cs := fun h => ha (by simp [h])
    cases b with
    | nil =>
      have := toLower_toNat_ne_zero hc
      simp only [strcasecmp.go, List.map_nil, List.map_cons]
      constructor
      · intro h; omega
      · intro h; cases h
    | cons d ds =>
      have hds : Char.ofNat 0 ∉ ds := fun h => hb (by simp [h])
      simp only [strcasecmp.go, List.map_cons, List.cons.injEq]
      by_cases hcd : c.toLower = d.toLower
      · rw [if_pos hcd, ih ds hcs hds]
        simp [hcd]
      · rw [if_neg hcd]
        constructor
        · intro h
          exfalso
          apply hcd
          apply char_toNat_inj
          omega
        · intro h; exact absurd h.1 hcd

theorem strcasecmp_eq_zero_iff (a b : String) (ha : Char.ofNat 0 ∉ a.data)
    (hb : Char.ofNat 0 ∉ b.data) : strcasecmp a b = 0 ↔ equalsIgnoreCase a b = true := by
  unfold strcasecmp equalsIgnoreCase
  rw [strcasecmp_go_eq_zero a.data b.data ha hb]
  simp

/-- `PropertySetromString` calls the typed setter for the typed value that the inference
order of the specification selects. -/
theorem setFromString_eq_setTyped (scan_i : String → Option Int)
    (scan_lf : String → Option Rat) (I : CPropertyUnique) (uid : Int) (name value : String)
    (hv : Char.ofNat 0 ∉ value.data) :
    PropertySetromString scan_i scan_lf I uid name value =
      setTyped I uid name (inferTypedValue scan_i scan_lf value) := by
  unfold PropertySetromString inferTypedValue
  cases scan_i value with
  | some v => rfl
  | none =>
    dsimp only
    cases scan_lf value with
    | some x => rfl
    | none =>
      dsimp only
      have e1 := strcasecmp_eq_zero_iff value "true" hv (by decide)
      have e2 := strcasecmp_eq_zero_iff value "yes" hv (by decide)
      have e3 := strcasecmp_eq_zero_iff value "false" hv (by decide)
      have e4 := strcasecmp_eq_zero_iff value "no" hv (by decide)
      by_cases h1 : strcasecmp value "true" = 0 ∨ strcasecmp value "yes" = 0
      · rw [if_pos h1]
        rw [e1, e2] at h1
        have : (equalsIgnoreCase value "true" || equalsIgnoreCase value "yes") = true := by
          simpa using h1
        rw [if_pos this]
        rfl
      · rw [if_neg h1]
        rw [e1, e2] at h1
        have : ¬ (equalsIgnoreCase value "true" || equalsIgnoreCase value "yes") = true := by
          simpa using h1
        rw [if_neg this]
        by_cases h2 : strcasecmp value "false" = 0 ∨ strcasecmp value "no" = 0
        · rw [if_pos h2]
          rw [e3, e4] at h2
          have : (equalsIgnoreCase value "false" || equalsIgnoreCase value "no") = true := by
            simpa using h2
          rw [if_pos this]
          rfl
        · rw [if_neg h2]
          rw [e3, e4] at h2
          have : ¬ (equalsIgnoreCase value "false" || equalsIgnoreCase value "no") = true := by
            simpa using h2
          rw [if_neg this]
          rfl

/-! ## The getters -/

/-- In a state with the invariant the lookup by name ends; it finds nothing for a name
without a live handle, and an entry it finds has a payload of the kind its type says. -/
theorem findByName_total (I : CPropertyUnique) (hI : Inv I) (u : Int) (name : String) :
    ∃ r, PropertyFindPropertyUniqueEntry I u name = some r ∧
      (OVLexicon_BorrowFromCString I.propnames name = none → r = none) ∧
      (∀ e, r = some e → KindOK e) := by
  obtain ⟨⟨free, L, h⟩, _⟩ := hI
  unfold PropertyFindPropertyUniqueEntry
  cases hb : OVLexicon_BorrowFromCString I.propnames name with
  | none => exact ⟨none, rfl, fun _ => rfl, fun e he => by cases he⟩
  | some pid =>
    dsimp only
    rw [lookup_id_spec h u pid]
    refine ⟨_, rfl, fun hc => (by cases hc), ?_⟩
    intro e he
    have hmem := List.mem_of_find?_eq_some he
    obtain ⟨x, hx, rfl⟩ := List.mem_map.1 hmem
    exact h.kind u x hx

theorem KindOK.payload_double {e : PropertyUniqueEntry} (hk : KindOK e)
    (ht : e.type = PropertyType.Float) : ∃ d, e.value = PropValue.double d := by
  have := hk.1 ht
  cases hv : e.value with
  | int i => rw [hv] at this; simp [PropValue.holds_int] at this
  | double d => exact ⟨d, rfl⟩

theorem KindOK.payload_int {e : PropertyUniqueEntry} (hk : KindOK e)
    (ht : e.type ≠ PropertyType.Float) : ∃ i, e.value = PropValue.int i := by
  cases hv : e.value with
  | int i => exact ⟨i, rfl⟩
  | double d =>
    exfalso
    apply ht
    apply hk.2
    rw [hv]
    rfl

theorem getAsFloat_total (conv : List Char → Option Rat) (I : CPropertyUnique) (hI : Inv I)
    (u : Int) (name : String) :
    ∃ r, PropertyGetAsFloat conv I u name = Outcome.done I r ∧
      (OVLexicon_BorrowFromCString I.propnames name = none → r = some 0) := by
  obtain ⟨r, h1, h2, h3⟩ := findByName_total I hI u name
  unfold PropertyGetAsFloat
  rw [h1]
  cases r with
  | none => exact ⟨_, rfl, fun _ => rfl⟩
  | some e =>
    have hk := h3 e rfl
    have hb : OVLexicon_BorrowFromCString I.propnames name ≠ none := by
      intro hb; cases h2 hb
    dsimp only
    cases ht : e.type with
    | Float =>
      obtain ⟨d, hd⟩ := hk.payload_double ht
      simp only [hd, PropValue.get_double]
      exact ⟨_, rfl, fun hc => absurd hc hb⟩
    | Auto => exact ⟨_, rfl, fun hc => absurd hc hb⟩
    | Blank => exact ⟨_, rfl, fun hc => absurd hc hb⟩
    | Boolean =>
      obtain ⟨i, hi⟩ := hk.payload_int (by rw [ht]; decide)
      simp only [hi, PropValue.get_int]
      exact ⟨_, rfl, fun hc => absurd hc hb⟩
    | Int =>
      obtain ⟨i, hi⟩ := hk.payload_int (by rw [ht]; decide)
      simp only [hi, PropValue.get_int]
      exact ⟨_, rfl, fun hc => absurd hc hb⟩
    | Color =>
      obtain ⟨i, hi⟩ := hk.payload_int (by rw [ht]; decide)
      simp only [hi, PropValue.get_int]
      exact ⟨_, rfl, fun hc => absurd hc hb⟩
    | String =>
      obtain ⟨i, hi⟩ := hk.payload_int (by rw [ht]; decide)
      simp only [hi, PropValue.get_int]
      cases OVLexicon_FetchCString I.string_values i with
      | none => exact ⟨_, rfl, fun hc => absurd hc hb⟩
      | some sval =>
        dsimp only
        by_cases hs : (sscanf_f conv sval).1 ≠ 0
        · rw [if_pos hs]; exact ⟨_, rfl, fun hc => absurd hc hb⟩
        · rw [if_neg hs]; exact ⟨_, rfl, fun hc => absurd hc hb⟩

theorem getAsString_total (fmt : PropertyFmtOptions) (I : CPropertyUnique) (hI : Inv I)
    (u : Int) (name : String) :
    ∃ r, PropertyGetAsString I u name fmt = Outcome.done I r ∧
      (OVLexicon_BorrowFromCString I.propnames name = none → r = none) := by
  obtain ⟨r, h1, h2, h3⟩ := findByName_total I hI u name
  unfold PropertyGetAsString
  rw [h1]
  cases r with
  | none => exact ⟨_, rfl, fun _ => rfl⟩
  | some e =>
    have hk := h3 e rfl
    have hb : OVLexicon_BorrowFromCString I.propnames name ≠ none := by
      intro hb; cases h2 hb
    dsimp only
    cases ht : e.type with
    | Float =>
      obtain ⟨d, hd⟩ := hk.payload_double ht
      simp only [hd, PropValue.get_double]
      exact ⟨_, rfl, fun hc => absurd hc hb⟩
    | Auto => exact ⟨_, rfl, fun hc => absurd hc hb⟩
    | Blank => exact ⟨_, rfl, fun hc => absurd hc hb⟩
    | Boolean =>
      obtain ⟨i, hi⟩ := hk.payload_int (by rw [ht]; decide)
      simp only [hi, PropValue.get_int]
      exact ⟨_, rfl, fun hc => absurd hc hb⟩
    | Int =>
      obtain ⟨i, hi⟩ := hk.payload_int (by rw [ht]; decide)
      simp only [hi, PropValue.get_int]
      exact ⟨_, rfl, fun hc => absurd hc hb⟩
    | Color =>
      obtain ⟨i, hi⟩ := hk.payload_int (by rw [ht]; decide)
      simp only [hi, PropValue.get_int]
      exact ⟨_, rfl, fun hc => absurd hc hb⟩
    | String =>
      obtain ⟨i, hi⟩ := hk.payload_int (by rw [ht]; decide)
      simp only [hi, PropValue.get_int]
      exact ⟨_, rfl, fun hc => absurd hc hb⟩

theorem getAsString_result_total (fmt : PropertyFmtOptions) (I : CPropertyUnique)
    (hI : Inv I) (u : Int) (name : String) :
    ∃ r, PropertyGetAsString_result I u name fmt = Outcome.done I r ∧
      (OVLexicon_BorrowFromCString I.propnames name = none →
        r = Except.error "Invalid property") := by
  obtain ⟨r, h1, h2⟩ := getAsString_total fmt I hI u name
  unfold PropertyGetAsString_result
  rw [h1]
  cases r with
  | none => exact ⟨_, rfl, fun _ => rfl⟩
  | some s => exact ⟨_, rfl, fun hc => by cases h2 hc⟩

/-! ## Deleting the only property of a unique id -/

theorem delete_only_entry (I : CPropertyUnique) (hI : Inv I) (uid : Int) (name : String)
    (honly : (entriesOf I uid).map (fun e => e.prop_id) =
      [(OVLexicon_GetFromCString I.propnames name).2]) :
    ∃ J, PropertyDelete I uid name = Outcome.done J true ∧ J.id2offset uid = none := by
  obtain ⟨⟨free, L, h⟩, hz⟩ := hI
  rw [entriesOf_eq h uid, List.map_map] at honly
  obtain ⟨x, hLx, hxp⟩ : ∃ x, L uid = [x] ∧
      (getEntry I.entry x).prop_id = (OVLexicon_GetFromCString I.propnames name).2 := by
    cases hL : L uid with
    | nil => rw [hL] at honly; simp at honly
    | cons a l =>
      rw [hL] at honly
      cases l with
      | nil => exact ⟨a, rfl, by simpa using honly⟩
      | cons b l => simp at honly
  unfold PropertyDelete PropertyUniqueSetTypedValue
  dsimp only
  set pid := (OVLexicon_GetFromCString I.propnames name).2 with hpid
  cases hm : I.id2offset uid with
  | none =>
    have hnil : L uid = [] := h.list_nil_of_head_zero uid (by simp [headOf, hm])
    rw [hnil] at hLx
    cases hLx
  | some head =>
    dsimp only
    have hc : IsChain I.entry head (L uid) := h.list_eq_of_head hm
    have hfuel := h.chain_length_lt uid
    rw [hLx] at hc
    obtain ⟨hhx, hx0, _, hrest⟩ := (isSeg_cons I.entry head x 0 []).1 hc
    have hnext : (getEntry I.entry x).next = 0 := (isSeg_nil I.entry _ 0).1 hrest
    rcases findInList_spec I.entry pid (L uid) head (hLx ▸ hc) I.entry.length 0 hfuel with
      ⟨l1, y, l2, hl, hl1, _, hy0, hres⟩ | ⟨hall, _⟩
    · rw [hLx] at hl
      cases l1 with
      | cons a l1 =>
        have := congrArg List.length hl
        simp at this
      | nil =>
        simp only [List.nil_append, List.cons.injEq] at hl
        obtain ⟨hxy, _⟩ := hl
        subst hxy
        rw [hres]
        simp only [List.getLast?_nil, Option.getD_none]
        rw [if_pos hy0]
        refine ⟨_, rfl, ?_⟩
        rw [deleteEntry_head]
        dsimp only
        rw [if_neg (by rw [hnext]; simp)]
        simp
    · exact absurd hxp (hall x (by rw [hLx]; simp))

/-! ## Enumeration, growth, type inference, getters, the property table -/

/-- C13: in every reachable state, for a unique id without properties and a list of
pairwise distinct names with values of any types, setting them one after another returns
every time, and `PropertyGetNamesAsPyList` then yields exactly these names in the order in
which they were set. -/
theorem names_enumerate_in_set_order (I : CPropertyUnique) (h : Reachable I)
    (unique_id : Int) (hnone : I.id2offset unique_id = none)
    (props : List (String × TypedValue)) (hnames : (props.map Prod.fst).Nodup) :
    ∃ J, setAll unique_id props I = some J ∧
      PropertyGetNamesAsPyList J unique_id =
        Outcome.done J (PyObject.list ((props.map Prod.fst).map PyObject.str)) := by
  have hent := entriesOf_of_none hnone
  obtain ⟨J, k1, k2, k3, k4⟩ := setAll_names unique_id props I [] (reachable_inv h)
    (by rw [hent]; rfl) (by rw [hent]; intro id hid; cases hid) (by simpa using hnames)
  refine ⟨J, k1, getNames_spec J k2 unique_id _ ?_⟩
  rw [List.nil_append] at k3
  rw [← k3, List.map_map, List.map_map]
  apply List.map_congr_left
  intro e he
  exact fetch_some (k4 e.prop_id (List.mem_map.2 ⟨e, he, rfl⟩)).1

/-- C14: in every reachable state whose free list is empty, a typed setter on a name that
is not yet on the list of the unique id returns true, the slab has grown from n to
floor(3n/2) slots, the new entry is found with the value set, and every (unique id, name)
that was found before is still found with the same name id, type and payload.  From
`PropertyInit` the nine slots 9..1 of the free list take the first nine insertions (the
free list is non-empty before each of them and empty after the ninth, the slab still has
10 slots), and the tenth insertion grows the slab to 15 slots. -/
theorem growth_keeps_stored_data (I : CPropertyUnique) (h : Reachable I)
    (hfree : I.next_free = 0) (unique_id : Int) (prop_name : String) (value : TypedValue)
    (hnew : (OVLexicon_GetFromCString I.propnames prop_name).2 ∉
      (entriesOf I unique_id).map (fun e => e.prop_id)) :
    (∃ J c, setTyped I unique_id prop_name value = Outcome.done J true ∧
      J.entry.length = I.entry.length * 3 / 2 ∧
      lookupContent J unique_id prop_name = some c ∧ holdsTypedValue J c value ∧
      ∀ g n d, lookupContent I g n = some d → lookupContent J g n = some d) ∧
    ((runCalls sampleRunNine PropertyInit).isSome = true ∧
      (∀ k, k < 9 → (stateAfter (sampleRunNine.take k)).next_free ≠ 0) ∧
      (stateAfter sampleRunNine).next_free = 0 ∧
      (stateAfter sampleRunNine).entry.length = 10 ∧
      (stateAfter (sampleRunNine ++ [Call.set_int 1 "j" 10])).entry.length = 15) := by
  refine ⟨?_, by decide⟩
  obtain ⟨J, c, r1, _, r3, r4, r5, r6, _⟩ :=
    setTyped_new_lookup I (reachable_inv h) unique_id prop_name value hnew
  exact ⟨J, c, r1, r6 hfree, r3, r4, r5⟩

/-- Type inference of `PropertySetromString` on a new name: for every text (a C string,
so without a NUL character) `PropertySetromString` behaves as the typed setter for the value that the inference order selects: Int if the
text scans as an integer, otherwise Float if it scans as a floating-point number,
otherwise Boolean 1 for "true" or "yes" and Boolean 0 for "false" or "no" in any case,
otherwise the text as a String; and on a name that is not yet on the list of the unique
id the call returns true and the stored entry is that typed value. -/
theorem set_from_string_infers_type (scan_i : String → Option Int)
    (scan_lf : String → Option Rat) (I : CPropertyUnique) (h : Reachable I)
    (unique_id : Int) (prop_name value : String) (hv : Char.ofNat 0 ∉ value.data) :
    PropertySetromString scan_i scan_lf I unique_id prop_name value =
        setTyped I unique_id prop_name (inferTypedValue scan_i scan_lf value) ∧
      ((OVLexicon_GetFromCString I.propnames prop_name).2 ∉
          (entriesOf I unique_id).map (fun e => e.prop_id) →
        ∃ J c, PropertySetromString scan_i scan_lf I unique_id prop_name value =
            Outcome.done J true ∧
          lookupContent J unique_id prop_name = some c ∧
          holdsTypedValue J c (inferTypedValue scan_i scan_lf value)) := by
  have hd := setFromString_eq_setTyped scan_i scan_lf I unique_id prop_name value hv
  refine ⟨hd, fun hnew => ?_⟩
  obtain ⟨J, c, r1, _, r3, r4, _⟩ :=
    setTyped_new_lookup I (reachable_inv h) unique_id prop_name
      (inferTypedValue scan_i scan_lf value) hnew
  exact ⟨J, c, hd.trans r1, r3, r4⟩

/-- C17: in every reachable state, for every unique id and name, the lookup by name ends,
and `PropertyGetAsFloat` and both overloads of `PropertyGetAsString` return with the
state they were given (table, slab, free list, live ids and both interners unchanged,
no name created); when the name has no live handle in the name interner the lookup finds
nothing, `PropertyGetAsFloat` returns 0.0 and `PropertyGetAsString` returns the null
pointer, respectively the error. -/
theorem lookups_are_read_only (conv : List Char → Option Rat) (fmt : PropertyFmtOptions)
    (I : CPropertyUnique) (h : Reachable I) (prop_id : Int) (prop_name : String) :
    (∃ r, PropertyFindPropertyUniqueEntry I prop_id prop_name = some r ∧
      (OVLexicon_BorrowFromCString I.propnames prop_name = none → r = none)) ∧
    (∃ r, PropertyGetAsFloat conv I prop_id prop_name = Outcome.done I r ∧
      (OVLexicon_BorrowFromCString I.propnames prop_name = none → r = some 0)) ∧
    (∃ r, PropertyGetAsString I prop_id prop_name fmt = Outcome.done I r ∧
      (OVLexicon_BorrowFromCString I.propnames prop_name = none → r = none)) ∧
    (∃ r, PropertyGetAsString_result I prop_id prop_name fmt = Outcome.done I r ∧
      (OVLexicon_BorrowFromCString I.propnames prop_name = none →
        r = Except.error "Invalid property")) := by
  have hI := reachable_inv h
  obtain ⟨r, h1, h2, _⟩ := findByName_total I hI prop_id prop_name
  exact ⟨⟨r, h1, h2⟩, getAsFloat_total conv I hI prop_id prop_name,
    getAsString_total fmt I hI prop_id prop_name,
    getAsString_result_total fmt I hI prop_id prop_name⟩

/-- C18: in every reachable state every value stored in `id2offset` is a non-zero index
inside the slab, and deleting the only property of a unique id removes its key from
`id2offset`. -/
theorem id2offset_values_nonzero (I : CPropertyUnique) (h : Reachable I) (unique_id : Int) :
    (∀ offset, I.id2offset unique_id = some offset →
      offset ≠ 0 ∧ offset < I.entry.length) ∧
    (∀ prop_name,
      (entriesOf I unique_id).map (fun e => e.prop_id) =
        [(OVLexicon_GetFromCString I.propnames prop_name).2] →
      ∃ J, PropertyDelete I unique_id prop_name = Outcome.done J true ∧
        J.id2offset unique_id = none) := by
  have hI := reachable_inv h
  refine ⟨?_, fun prop_name honly => delete_only_entry I hI unique_id prop_name honly⟩
  intro offset hm
  obtain ⟨⟨free, L, hs⟩, hz⟩ := hI
  have h0 : offset ≠ 0 := fun h0 => hz unique_id (h0 ▸ hm)
  have hc : IsChain I.entry offset (L unique_id) := hs.list_eq_of_head hm
  obtain ⟨x, rest, hl, hx⟩ := IsChain.ne_nil_of_ne_zero hc h0
  have := IsSeg.mem_bound hc (x := x) (by rw [hl]; simp)
  rw [hx] at this
  exact this

/-- C19 (counterexample): slab index 1 is allocated.  After the nine insertions of
`sampleRunNine` from `PropertyInit` the list of unique id 1 contains offset 1. -/
theorem slab_index_one_is_allocated :
    ¬ ∀ I, Reachable I → ∀ unique_id : Int, 1 ∉ listOf I unique_id := by
  intro hall
  exact hall (stateAfter sampleRunNine) (stateAfter_reachable _ (by decide)) 1 (by decide)

/-! ## Enumeration, growth, type inference, getters, the property table: concrete inputs -/

/-- C13 at a concrete input: the ordering scenario a = 1, b = 2.5, c = "x" on unique id 1
from `PropertyInit` yields the names a, b, c. -/
theorem names_enumerate_in_set_order_witness :
    PropertyInit.id2offset 1 = none ∧ (sampleProps.map Prod.fst).Nodup ∧
      ∃ J, setAll 1 sampleProps PropertyInit = some J ∧
        PropertyGetNamesAsPyList J 1 =
          Outcome.done J
            (PyObject.list [PyObject.str "a", PyObject.str "b", PyObject.str "c"]) :=
  ⟨rfl, by decide,
    names_enumerate_in_set_order PropertyInit Reachable.init 1 rfl sampleProps (by decide)⟩

/-- C14 at a concrete input: the tenth insertion after `sampleRunNine`. -/
theorem growth_keeps_stored_data_witness :
    Reachable (stateAfter sampleRunNine) ∧ (stateAfter sampleRunNine).next_free = 0 ∧
      (OVLexicon_GetFromCString (stateAfter sampleRunNine).propnames "j").2 ∉
        (entriesOf (stateAfter sampleRunNine) 1).map (fun e => e.prop_id) ∧
      ∃ J c, setTyped (stateAfter sampleRunNine) 1 "j" (TypedValue.Int 10) =
          Outcome.done J true ∧
        J.entry.length = (stateAfter sampleRunNine).entry.length * 3 / 2 ∧
        lookupContent J 1 "j" = some c ∧ holdsTypedValue J c (TypedValue.Int 10) ∧
        ∀ g n d, lookupContent (stateAfter sampleRunNine) g n = some d →
          lookupContent J g n = some d :=
  ⟨stateAfter_reachable _ (by decide), by decide, by decide,
    (growth_keeps_stored_data (stateAfter sampleRunNine) (stateAfter_reachable _ (by decide))
      (by decide) 1 "j" (TypedValue.Int 10) (by decide)).1⟩

/-- C17 at a concrete input: the getters on unique id 1 and the name "b" in the state
reached by `sampleRunMixed`. -/
theorem lookups_are_read_only_witness :
    Reachable (stateAfter sampleRunMixed) ∧
      ∃ r, PropertyGetAsFloat (fun _ => none) (stateAfter sampleRunMixed) 1 "b" =
          Outcome.done (stateAfter sampleRunMixed) r ∧
        (OVLexicon_BorrowFromCString (stateAfter sampleRunMixed).propnames "b" = none →
          r = some 0) :=
  ⟨stateAfter_reachable _ (by decide),
    (lookups_are_read_only (fun _ => none) ⟨fun _ => "", fun _ => "", fun _ => ""⟩
      (stateAfter sampleRunMixed) (stateAfter_reachable _ (by decide)) 1 "b").2.1⟩

/-- C18 at a concrete input: unique id 1 with the single property a = 1; its `id2offset`
value is a non-zero index inside the slab, and deleting "a" removes the key. -/
theorem id2offset_values_nonzero_witness :
    Reachable (stateAfter [Call.set_int 1 "a" 1]) ∧
      (∀ offset, (stateAfter [Call.set_int 1 "a" 1]).id2offset 1 = some offset →
        offset ≠ 0 ∧ offset < (stateAfter [Call.set_int 1 "a" 1]).entry.length) ∧
      ∃ J, PropertyDelete (stateAfter [Call.set_int 1 "a" 1]) 1 "a" = Outcome.done J true ∧
        J.id2offset 1 = none :=
  ⟨stateAfter_reachable _ (by decide),
    (id2offset_values_nonzero _ (stateAfter_reachable _ (by decide)) 1).1,
    (id2offset_values_nonzero _ (stateAfter_reachable _ (by decide)) 1).2 "a" (by decide)⟩

/-! ## Further runs on which the code departs from the specification -/

/-- C11 (failing input): unique id 1 has a = 1, b = 2 and unique id 2 has b = 20, a = 10.
After `PropertyCopyProperties(1, 2)` the list of unique id 2 holds the name ids 2, 1, 2:
the name "b" occurs twice. -/
theorem copy_makes_duplicate_name :
    (runCalls sampleRunDuplicate PropertyInit).isSome = true ∧
      (entriesOf (stateAfter sampleRunDuplicate) 2).map (fun e => e.prop_id) = [2, 1, 2] ∧
      OVLexicon_FetchCString (stateAfter sampleRunDuplicate).propnames 2 = some "b" ∧
      ¬ ((entriesOf (stateAfter sampleRunDuplicate) 2).map (fun e => e.prop_id)).Nodup := by
  decide

/-- C12 (failing input): unique id 1 has the String property a = "x".  The call
`PropertySet(1, "a", 2.5)` reads the stored handle with `std::get<double>` and ends with an
escaping `std::bad_variant_access`: the entry is still the String "x" and the reference
count of "x" is still 1.  Overwriting with an Int does release the string. -/
theorem set_double_over_string_throws :
    lookupContent (stateAfter [Call.set_string 1 "a" "x"]) 1 "a" =
        some (1, PropertyType.String, PropValue.int 1) ∧
      (stateAfter [Call.set_string 1 "a" "x"]).string_values.ref_cnt 1 = 1 ∧
      (PropertySet_double (stateAfter [Call.set_string 1 "a" "x"]) 1 "a" (mkRat 5 2)).isThrown
        = true ∧
      lookupContent (stateAfter [Call.set_string 1 "a" "x", Call.set_double 1 "a" (mkRat 5 2)])
        1 "a" = some (1, PropertyType.String, PropValue.int 1) ∧
      (stateAfter [Call.set_string 1 "a" "x",
        Call.set_double 1 "a" (mkRat 5 2)]).string_values.ref_cnt 1 = 1 ∧
      lookupContent (stateAfter [Call.set_string 1 "a" "x", Call.set_int 1 "a" 7]) 1 "a" =
        some (1, PropertyType.Int, PropValue.int 7) ∧
      (stateAfter [Call.set_string 1 "a" "x", Call.set_int 1 "a" 7]).string_values.ref_cnt 1
        = 0 := by
  decide

/-- C16 (failing input): unique id 1 has the String property a = "" (or a text of white
space only).  Whatever the conversion of the C library is, `sscanf` returns `EOF`, which is
not zero, and `PropertyGetAsFloat` returns `fval` with nothing stored in it instead of
0.0.  For the text "abc", which `sscanf` rejects with 0, it does return 0.0. -/
theorem get_as_float_of_empty_string :
    ∀ conv : List Char → Option Rat,
      (sscanf_f conv "").1 = -1 ∧
      (PropertyGetAsFloat conv (stateAfter [Call.set_string 1 "a" ""]) 1 "a").ret =
        some none ∧
      (PropertyGetAsFloat conv (stateAfter [Call.set_string 1 "a" "  "]) 1 "a").ret =
        some none ∧
      (conv "abc".data = none →
        (PropertyGetAsFloat conv (stateAfter [Call.set_string 1 "a" "abc"]) 1 "a").ret =
          some (some 0)) := by
  intro conv
  refine ⟨rfl, rfl, rfl, fun h => ?_⟩
  have hs : sscanf_f conv "abc" = (0, none) := by
    unfold sscanf_f
    have : "abc".data.dropWhile isspace = "abc".data := by decide
    rw [this]
    show (match conv "abc".data with
      | some x => ((1 : Int), some x)
      | none => (0, none)) = (0, none)
    rw [h]
  have hl : PropertyFindPropertyUniqueEntry (stateAfter [Call.set_string 1 "a" "abc"]) 1 "a" =
      some (some ⟨1, PropertyType.String, PropValue.int 1, 0⟩) := by decide
  have hf : OVLexicon_FetchCString (stateAfter [Call.set_string 1 "a" "abc"]).string_values 1
      = some "abc" := by decide
  unfold PropertyGetAsFloat
  rw [hl]
  simp only [PropValue.get_int, hf, hs]
  rfl

/-- C20 (failing input): unique id 1 has the Boolean property a = false (stored integer
0), or the Color property a = 7.  `PropertyAsPyList` exports the Boolean as `True`, and
`PropertyFromPyList` stores the exported list under unique id 2 as Boolean 1; it stores the
exported Color 7 as Int 7. -/
theorem export_then_load_changes_entries :
    (entriesOf (stateAfter [Call.new_unique_id, Call.set_b 1 "a" 0]) 1).map
        PropertyUniqueEntry.content = [(1, PropertyType.Boolean, PropValue.int 0)] ∧
      (exportThenLoad (stateAfter [Call.new_unique_id, Call.set_b 1 "a" 0]) 1).ret = some 2 ∧
      (exportThenLoad (stateAfter [Call.new_unique_id, Call.set_b 1 "a" 0]) 1).state.map
        (fun J => (entriesOf J 2).map PropertyUniqueEntry.content) =
        some [(1, PropertyType.Boolean, PropValue.int 1)] ∧
      (entriesOf (stateAfter [Call.new_unique_id, Call.set_color 1 "a" 7]) 1).map
        PropertyUniqueEntry.content = [(1, PropertyType.Color, PropValue.int 7)] ∧
      (exportThenLoad (stateAfter [Call.new_unique_id, Call.set_color 1 "a" 7]) 1).ret
        = some 2 ∧
      (exportThenLoad (stateAfter [Call.new_unique_id, Call.set_color 1 "a" 7]) 1).state.map
        (fun J => (entriesOf J 2).map PropertyUniqueEntry.content) =
        some [(1, PropertyType.Int, PropValue.int 7)] := by
  decide

/-! ## PropertyGetNewUniqueID from any counter value -/

/-- When some non-zero 32-bit value is not live, `PropertyGetNewUniqueID` returns from any
32-bit value of the counter. -/
theorem getNewUniqueID_of_free (I : CPropertyUnique) (hr1 : -2147483648 ≤ I.NextUniqueID)
    (hr2 : I.NextUniqueID < 2147483648) (x : Int) (hx0 : x ≠ 0) (hx1 : -2147483648 ≤ x)
    (hx2 : x < 2147483648) (hx : x ∉ I.ActiveIDs) :
    ∃ J id, PropertyGetNewUniqueID I = Outcome.done J id ∧ id ≠ 0 ∧ id ∉ I.ActiveIDs ∧
      J.ActiveIDs = id :: I.ActiveIDs ∧
      -2147483648 ≤ J.NextUniqueID ∧ J.NextUniqueID < 2147483648 ∧
      J.entry = I.entry ∧ J.next_free = I.next_free ∧ J.id2offset = I.id2offset ∧
      J.propnames = I.propnames ∧ J.string_values = I.string_values := by
  obtain ⟨k, hk⟩ : ∃ k : Nat, (k : Int) = (x - I.NextUniqueID) % 4294967296 :=
    ⟨((x - I.NextUniqueID) % 4294967296).toNat,
      Int.toNat_of_nonneg (Int.emod_nonneg _ (by norm_num))⟩
  have hklt : k < 2 ^ 32 := by
    have := Int.emod_lt_of_pos (x - I.NextUniqueID) (show (0 : Int) < 4294967296 by norm_num)
    norm_num
    omega
  have hw : wrap32 (I.NextUniqueID + k) = x := by
    unfold wrap32
    norm_num
    omega
  exact newUniqueIDLoop_done (2 ^ 32) I k hklt (by rw [hw]; exact hx0) (by rw [hw]; exact hx)
    hr1 hr2

/-! ## What a set changes -/

theorem content_setNext (e : List PropertyUniqueEntry) (i n y : Nat) :
    (getEntry (setNext e i n) y).content = (getEntry e y).content := by
  rw [getEntry_setNext]
  split
  · rename_i hc
    rw [hc.1]
    rfl
  · rfl

theorem deleteEntry_content (I : CPropertyUnique) (uid : Int) (p x y : Nat) :
    (getEntry (deleteEntry I uid p x).entry y).content = (getEntry I.entry y).content := by
  by_cases hp : p = 0
  · subst hp
    rw [deleteEntry_head]
    exact content_setNext _ _ _ _
  · rw [deleteEntry_mid I uid p x hp]
    show (getEntry (setNext (setNext I.entry p _) x _) y).content = _
    rw [content_setNext, content_setNext]

theorem releaseOldString_entry (I : CPropertyUnique) (e : PropertyUniqueEntry) :
    (releaseOldString I e).entry = I.entry := by
  unfold releaseOldString
  split <;> rfl

/-- Redefining the entry at `x` with a value of the kind the type selects does not
diverge, writes no other slot and keeps the name id of `x`. -/
theorem redefineEntry_frame (I : CPropertyUnique) (x : Nat) (ty : PropertyType)
    (v : PropValue) (hk : kindMatches ty v = true) :
    match redefineEntry I x ty v with
    | Outcome.done J _ =>
      (∀ y, y ≠ x → getEntry J.entry y = getEntry I.entry y) ∧
        (getEntry J.entry x).prop_id = (getEntry I.entry x).prop_id
    | Outcome.thrown _ => True
    | Outcome.diverged => False := by
  have key : ∀ (ty2 : PropertyType) (v2 : PropValue),
      (∀ y, y ≠ x → getEntry (setTypeValue (releaseOldString I (getEntry I.entry x)).entry
        x ty2 v2) y = getEntry I.entry y) ∧
      (getEntry (setTypeValue (releaseOldString I (getEntry I.entry x)).entry x ty2 v2)
        x).prop_id = (getEntry I.entry x).prop_id := by
    intro ty2 v2
    rw [releaseOldString_entry]
    constructor
    · intro y hy
      simp [hy]
    · rw [getEntry_setTypeValue]
      split <;> rfl
  unfold redefineEntry
  dsimp only
  cases hv : (getEntry I.entry x).value with
  | int old =>
    cases ty <;> cases v <;> simp only [PropValue.get_int, PropValue.get_double]
    all_goals
      first
      | trivial
      | (exact absurd hk (by decide))
      | (split_ifs with hc
         · exact key _ _
         · exact ⟨fun _ _ => rfl, rfl⟩)
  | double old =>
    cases ty <;> cases v <;> simp only [PropValue.get_int, PropValue.get_double]
    all_goals
      first
      | trivial
      | (exact absurd hk (by decide))
      | (split_ifs with hc
         · exact key _ _
         · exact ⟨fun _ _ => rfl, rfl⟩)

/-- The effect of `PropertyUniqueSetTypedValue` in a state with the slab partition: the
call leaves a state with the slab partition in which only the list of the unique id may
have changed, by one appended slot, by one removed slot or not at all; the slots of all
lists keep their name ids and the slots of the other lists their content; the name
interner has taken the reference of the call and has possibly released it again. -/
theorem setTypedValue_effect (I : CPropertyUnique) (free : List Nat) (L : Int → List Nat)
    (h : SlabInv I.entry I.next_free (headOf I) free L) (hz : ∀ u, I.id2offset u ≠ some 0)
    (uid : Int) (name : String) (ty : PropertyType) (value : Option PropValue)
    (hk : ∀ v, value = some v → kindMatches ty v = true) :
    ∃ J free2 L2, (PropertyUniqueSetTypedValue I uid name ty value).state = some J ∧
      SlabInv J.entry J.next_free (headOf J) free2 L2 ∧ (∀ u, J.id2offset u ≠ some 0) ∧
      (∀ g, g ≠ uid → L2 g = L g) ∧
      (∀ g y, y ∈ L g → (getEntry J.entry y).prop_id = (getEntry I.entry y).prop_id) ∧
      (∀ g, g ≠ uid → ∀ y ∈ L g, (getEntry J.entry y).content = (getEntry I.entry y).content) ∧
      J.ActiveIDs = I.ActiveIDs ∧
      ((∃ x, L2 uid = L uid ++ [x] ∧ (∀ u, x ∉ L u) ∧
          (getEntry J.entry x).prop_id = (OVLexicon_GetFromCString I.propnames name).2 ∧
          J.propnames = (OVLexicon_GetFromCString I.propnames name).1) ∨
        (L2 uid = L uid ∧
          (J.propnames = (OVLexicon_GetFromCString I.propnames name).1 ∨
            J.propnames = OVLexicon_DecRef (OVLexicon_GetFromCString I.propnames name).1
              (OVLexicon_GetFromCString I.propnames name).2)) ∨
        (∃ l1 x l2, L uid = l1 ++ x :: l2 ∧ L2 uid = l1 ++ l2 ∧
          J.propnames = OVLexicon_DecRef (OVLexicon_GetFromCString I.propnames name).1
            (OVLexicon_GetFromCString I.propnames name).2)) := by
  unfold PropertyUniqueSetTypedValue
  dsimp only
  set pid := (OVLexicon_GetFromCString I.propnames name).2 with hpid
  set I0 : CPropertyUnique :=
    { I with propnames := (OVLexicon_GetFromCString I.propnames name).1 } with hI0
  have h0 : SlabInv I0.entry I0.next_free (headOf I0) free L := h
  have hz0 : ∀ u, I0.id2offset u ≠ some 0 := hz
  have hsame : ∃ J free2 L2, some I0 = some J ∧
      SlabInv J.entry J.next_free (headOf J) free2 L2 ∧ (∀ u, J.id2offset u ≠ some 0) ∧
      (∀ g, g ≠ uid → L2 g = L g) ∧
      (∀ g y, y ∈ L g → (getEntry J.entry y).prop_id = (getEntry I.entry y).prop_id) ∧
      (∀ g, g ≠ uid → ∀ y ∈ L g,
        (getEntry J.entry y).content = (getEntry I.entry y).content) ∧
      J.ActiveIDs = I.ActiveIDs ∧
      ((∃ x, L2 uid = L uid ++ [x] ∧ (∀ u, x ∉ L u) ∧
          (getEntry J.entry x).prop_id = pid ∧
          J.propnames = (OVLexicon_GetFromCString I.propnames name).1) ∨
        (L2 uid = L uid ∧
          (J.propnames = (OVLexicon_GetFromCString I.propnames name).1 ∨
            J.propnames = OVLexicon_DecRef (OVLexicon_GetFromCString I.propnames name).1
              pid)) ∨
        (∃ l1 x l2, L uid = l1 ++ x :: l2 ∧ L2 uid = l1 ++ l2 ∧
          J.propnames = OVLexicon_DecRef (OVLexicon_GetFromCString I.propnames name).1
            pid)) :=
    ⟨I0, free, L, rfl, h0, hz0, fun _ _ => rfl, fun _ _ _ => rfl, fun _ _ _ _ => rfl, rfl,
      Or.inr (Or.inl ⟨rfl, Or.inl rfl⟩)⟩
  cases hm : I.id2offset uid with
  | none =>
    dsimp only
    cases value with
    | none => exact hsame
    | some v =>
      dsimp only
      rw [if_pos (hk v rfl)]
      obtain ⟨x, rest, s1, s2, s3, s4, s5, s6, _, s8, _, _, s11, _⟩ :=
        newListEntry_spec I0 free L h0 uid hm pid ty v (hk v rfl)
      have hnil : L uid = [] := h.list_nil_of_head_zero uid (by simp [headOf, hm])
      refine ⟨_, rest, Function.update L uid [x], rfl, s1, ?_, ?_, ?_, ?_, s11, ?_⟩
      · intro u
        rw [s2]
        by_cases hu : u = uid
        · subst hu; simpa using s3
        · rw [Function.update_noteq hu]; exact hz0 u
      · intro g hg
        rw [Function.update_noteq hg]
      · intro g y hy
        rw [s6 g y hy]
      · intro g _ y hy
        rw [s6 g y hy]
      · refine Or.inl ⟨x, ?_, s4, ?_, s8⟩
        · rw [Function.update_same, hnil]; rfl
        · rw [s5]
  | some head =>
    dsimp only
    have hc : IsChain I.entry head (L uid) := h.list_eq_of_head hm
    have hhead : head ≠ 0 := fun h0 => hz uid (h0 ▸ hm)
    have hfuel := h.chain_length_lt uid
    rcases findInList_spec I.entry pid (L uid) head hc I.entry.length 0 hfuel with
      ⟨l1, x, l2, hl, _, _, hx0, hres⟩ | ⟨_, hres⟩
    · rw [hres]
      dsimp only
      rw [if_pos hx0]
      have hxL : x ∈ L uid := by rw [hl]; simp
      cases value with
      | none =>
        dsimp only
        obtain ⟨d1, d2, _, d4, _, _, d7⟩ := deleteEntry_spec I0 free L h0 hz0 uid l1 l2 x hl
        refine ⟨_, x :: free, Function.update L uid (l1 ++ l2), rfl, d1, d2, ?_, ?_, ?_, d7,
          ?_⟩
        · intro g hg
          rw [Function.update_noteq hg]
        · intro g y _
          exact congrArg Prod.fst (deleteEntry_content I0 uid _ x y)
        · intro g _ y _
          exact deleteEntry_content I0 uid _ x y
        · refine Or.inr (Or.inr ⟨l1, x, l2, hl, by rw [Function.update_same], ?_⟩)
          show OVLexicon_DecRef (deleteEntry I0 uid _ x).propnames pid = _
          rw [d4]
      | some v =>
        dsimp only
        have hspec := redefineEntry_spec I0 free L h0 uid x hxL ty v
        have hframe := redefineEntry_frame I0 x ty v (hk v rfl)
        cases hr : redefineEntry I0 x ty v with
        | done I1 b =>
          rw [hr] at hspec hframe
          dsimp only at hspec hframe ⊢
          obtain ⟨t1, t2, t3, _, t5⟩ := hspec
          refine ⟨_, free, L, rfl, t1, ?_, fun _ _ => rfl, ?_, ?_, t5, ?_⟩
          · intro u
            show I1.id2offset u ≠ some 0
            rw [t2]; exact hz0 u
          · intro g y _
            show (getEntry I1.entry y).prop_id = _
            by_cases hyx : y = x
            · rw [hyx]; exact hframe.2
            · rw [hframe.1 y hyx]
          · intro g hg y hy
            show (getEntry I1.entry y).content = _
            have hyx : y ≠ x := by
              intro hyx
              exact hg (h.list_disj g uid y hy (hyx ▸ hxL))
            rw [hframe.1 y hyx]
          · refine Or.inr (Or.inl ⟨rfl, Or.inr ?_⟩)
            show OVLexicon_DecRef I1.propnames pid = _
            rw [t3]
        | thrown I1 =>
          rw [hr] at hspec
          dsimp only at hspec ⊢
          rw [hspec]
          exact hsame
        | diverged =>
          rw [hr] at hframe
          exact hframe.elim
    · rw [hres]
      dsimp only
      rw [if_neg (by simp)]
      cases value with
      | none => exact hsame
      | some v =>
        dsimp only
        rw [if_pos (hk v rfl)]
        obtain ⟨y, rest, hLy, _⟩ := IsChain.ne_nil_of_ne_zero hc hhead
        rcases List.eq_nil_or_concat (L uid) with hnil | ⟨l0, p, hl0⟩
        · rw [hnil] at hLy; cases hLy
        · rw [List.concat_eq_append] at hl0
          rw [hl0, getLast?_getD_concat]
          obtain ⟨x, rest, s1, s2, _, s4, s5, s6, s7, _, s9, _, _, s12, _⟩ :=
            appendEntry_spec I0 free L h0 uid l0 p hl0 pid ty v (hk v rfl)
          have hcont : ∀ u z, z ∈ L u →
              (getEntry (appendEntry I0 uid p pid ty v).1.entry z).content =
                (getEntry I.entry z).content := by
            intro u z hz1
            by_cases hzp : z = p
            · subst hzp
              rw [s7]; rfl
            · rw [s6 u z hz1 hzp]
          refine ⟨_, rest, Function.update L uid (l0 ++ [p, x]), rfl, s1, ?_, ?_, ?_, ?_, s12,
            ?_⟩
          · intro u
            rw [s2]; exact hz0 u
          · intro g hg
            rw [Function.update_noteq hg]
          · intro g z hz1
            exact congrArg Prod.fst (hcont g z hz1)
          · intro g _ z hz1
            exact hcont g z hz1
          · refine Or.inl ⟨x, ?_, s4, ?_, s9⟩
            · rw [Function.update_same]; simp
            · rw [s5]

/-! ## Sums of per-list counts and the references of the name interner -/

theorem sum_counts_le_add (cI cJ : Int → Nat) (u : Int) (k : Nat)
    (hother : ∀ h, h ≠ u → cJ h = cI h) (hu : cJ u ≤ cI u + k) :
    ∀ hs : List Int, hs.Nodup → (hs.map cJ).sum ≤ (hs.map cI).sum + k := by
  intro hs
  induction hs with
  | nil => intro _; simp
  | cons a t ih =>
    intro hnd
    obtain ⟨hat, ht⟩ := List.nodup_cons.1 hnd
    simp only [List.map_cons, List.sum_cons]
    by_cases ha : a = u
    · subst ha
      have hsame : (t.map cJ).sum = (t.map cI).sum := by
        congr 1
        apply List.map_congr_left
        intro b hb
        exact hother b (fun hba => hat (hba ▸ hb))
      omega
    · have := ih ht
      rw [hother a ha]
      omega

theorem sum_counts_detach (cI cJ : Int → Nat) (u : Int)
    (hother : ∀ h, h ≠ u → cJ h = cI h) (hu : cJ u = 0) :
    ∀ hs : List Int, hs.Nodup →
      ∃ hs2 : List Int, hs2.Nodup ∧ (hs.map cJ).sum + cI u ≤ (hs2.map cI).sum := by
  intro hs hnd
  have hle : ∀ t : List Int, u ∉ t → (t.map cJ).sum = (t.map cI).sum := by
    intro t ht
    congr 1
    apply List.map_congr_left
    intro b hb
    exact hother b (fun hba => ht (hba ▸ hb))
  by_cases hmem : u ∈ hs
  · refine ⟨hs, hnd, ?_⟩
    clear hle
    induction hs with
    | nil => cases hmem
    | cons a t ih =>
      obtain ⟨hat, ht⟩ := List.nodup_cons.1 hnd
      simp only [List.map_cons, List.sum_cons]
      by_cases ha : a = u
      · subst ha
        have hsame : (t.map cJ).sum = (t.map cI).sum := by
          congr 1
          apply List.map_congr_left
          intro b hb
          exact hother b (fun hba => hat (hba ▸ hb))
        omega
      · have hut : u ∈ t := by
          rcases List.mem_cons.1 hmem with h1 | h1
          · exact absurd h1.symm ha
          · exact h1
        have := ih ht hut
        rw [hother a ha]
        omega
  · refine ⟨u :: hs, List.nodup_cons.2 ⟨hmem, hnd⟩, ?_⟩
    simp only [List.map_cons, List.sum_cons]
    rw [hle hs hmem]
    omega

theorem nameCount_map_congr (l : List Nat) (f g : Nat → PropertyUniqueEntry) (id : Int)
    (h : ∀ y ∈ l, (f y).prop_id = (g y).prop_id) :
    nameCount (l.map f) id = nameCount (l.map g) id := by
  induction l with
  | nil => rfl
  | cons a l ih =>
    have ha := h a (by simp)
    have hl := ih (fun y hy => h y (by simp [hy]))
    simp only [nameCount, List.map_cons, List.countP_cons] at hl ⊢
    rw [hl, ha]

theorem nameCount_append (l1 l2 : List PropertyUniqueEntry) (id : Int) :
    nameCount (l1 ++ l2) id = nameCount l1 id + nameCount l2 id := by
  simp [nameCount, List.countP_append]

theorem nameCount_singleton (e : PropertyUniqueEntry) (id : Int) :
    nameCount [e] id = if e.prop_id = id then 1 else 0 := by
  simp [nameCount, List.countP_cons]

/-- The reference counts keep covering the entries when one list changes so that its
count of every name id grows by at most `k id` and the reference count grows by at least
`k id`. -/
theorem RefAbs.transfer {I J : CPropertyUnique} {L L2 : Int → List Nat} (hI : RefAbs I L)
    (u : Int) (k : Int → Nat)
    (hother : ∀ g, g ≠ u → ∀ id, nameCount ((L2 g).map (getEntry J.entry)) id =
      nameCount ((L g).map (getEntry I.entry)) id)
    (hu : ∀ id, nameCount ((L2 u).map (getEntry J.entry)) id ≤
      nameCount ((L u).map (getEntry I.entry)) id + k id)
    (href : ∀ id, I.propnames.ref_cnt id + k id ≤ J.propnames.ref_cnt id)
    (h2 : ∀ id : Int, (J.propnames.n_entry : Int) < id → J.propnames.ref_cnt id ≤ 0) :
    RefAbs J L2 := by
  refine ⟨fun hs hnd id => ?_, h2⟩
  have h1 := sum_counts_le_add (fun h => nameCount ((L h).map (getEntry I.entry)) id)
    (fun h => nameCount ((L2 h).map (getEntry J.entry)) id) u (k id)
    (fun g hg => hother g hg id) (hu id) hs hnd
  have h3 := hI.1 hs hnd id
  have h4 := href id
  omega

theorem refInv_iff_refAbs {I : CPropertyUnique} {free : List Nat} {L : Int → List Nat}
    (h : SlabInv I.entry I.next_free (headOf I) free L) : RefInv I ↔ RefAbs I L := by
  unfold RefInv RefAbs totalNameCount
  have : ∀ (hs : List Int) (id : Int),
      hs.map (fun h => nameCount (entriesOf I h) id) =
        hs.map (fun h => nameCount ((L h).map (getEntry I.entry)) id) := by
    intro hs id
    apply List.map_congr_left
    intro g _
    rw [entriesOf_eq h g]
  simp only [this]

/-- A slot on a list has a name id with a positive reference count, hence one of the
handles handed out so far. -/
theorem RefAbs.listed_pos {I : CPropertyUnique} {L : Int → List Nat} (hI : RefAbs I L)
    {u : Int} {y : Nat} (hy : y ∈ L u) :
    0 < I.propnames.ref_cnt (getEntry I.entry y).prop_id ∧
      (getEntry I.entry y).prop_id ≤ I.propnames.n_entry := by
  have h1 := hI.1 [u] (by simp) (getEntry I.entry y).prop_id
  have hpos : 0 < nameCount ((L u).map (getEntry I.entry)) (getEntry I.entry y).prop_id := by
    unfold nameCount
    rw [List.countP_pos_iff]
    exact ⟨getEntry I.entry y, List.mem_map.2 ⟨y, hy, rfl⟩, by simp⟩
  simp only [List.map_cons, List.map_nil, List.sum_cons, List.sum_nil, add_zero] at h1
  have hp : 0 < I.propnames.ref_cnt (getEntry I.entry y).prop_id := by omega
  refine ⟨hp, ?_⟩
  by_contra hgt
  have := hI.2 _ (not_le.1 hgt)
  omega

/-! ## The reference taken by interning a name -/

theorem getFromCString_ref_ge (uk : OVLexicon)
    (h2 : ∀ id : Int, (uk.n_entry : Int) < id → uk.ref_cnt id ≤ 0) (s : String) :
    uk.ref_cnt (OVLexicon_GetFromCString uk s).2 + 1 ≤
      (OVLexicon_GetFromCString uk s).1.ref_cnt (OVLexicon_GetFromCString uk s).2 := by
  unfold OVLexicon_GetFromCString
  cases hb : OVLexicon_BorrowFromCString uk s with
  | some id => simp only [Function.update_same]; omega
  | none =>
    simp only [Function.update_same]
    have := h2 ((uk.n_entry : Int) + 1) (by omega)
    omega

theorem getFromCString_beyond (uk : OVLexicon)
    (h2 : ∀ id : Int, (uk.n_entry : Int) < id → uk.ref_cnt id ≤ 0) (s : String) (id : Int)
    (hid : ((OVLexicon_GetFromCString uk s).1.n_entry : Int) < id) :
    (OVLexicon_GetFromCString uk s).1.ref_cnt id ≤ 0 := by
  have hle := (getFromCString_id uk s).2.2.2
  have hn := getFromCString_n_entry uk s
  rw [getFromCString_ref_cnt uk s id (by omega)]
  exact h2 id (by omega)

/-! ## The calls keep the reference counts above the entry counts -/

theorem getFromCString_ref_ge_all (uk : OVLexicon)
    (h2 : ∀ id : Int, (uk.n_entry : Int) < id → uk.ref_cnt id ≤ 0) (s : String) (id : Int) :
    uk.ref_cnt id + (if (OVLexicon_GetFromCString uk s).2 = id then 1 else 0) ≤
      (OVLexicon_GetFromCString uk s).1.ref_cnt id := by
  by_cases hid : (OVLexicon_GetFromCString uk s).2 = id
  · rw [if_pos hid, ← hid]
    exact getFromCString_ref_ge uk h2 s
  · rw [if_neg hid, getFromCString_ref_cnt uk s id (fun h => hid h.symm)]
    omega

theorem decRef_getFromCString_ref_ge (uk : OVLexicon)
    (h2 : ∀ id : Int, (uk.n_entry : Int) < id → uk.ref_cnt id ≤ 0) (s : String) (id : Int) :
    uk.ref_cnt id ≤
      (OVLexicon_DecRef (OVLexicon_GetFromCString uk s).1
        (OVLexicon_GetFromCString uk s).2).ref_cnt id := by
  unfold OVLexicon_DecRef
  dsimp only
  by_cases hid : id = (OVLexicon_GetFromCString uk s).2
  · rw [hid, Function.update_same]
    have := getFromCString_ref_ge uk h2 s
    omega
  · rw [Function.update_noteq hid, getFromCString_ref_cnt uk s id hid]

theorem decRef_getFromCString_beyond (uk : OVLexicon)
    (h2 : ∀ id : Int, (uk.n_entry : Int) < id → uk.ref_cnt id ≤ 0) (s : String) (id : Int)
    (hid : ((OVLexicon_DecRef (OVLexicon_GetFromCString uk s).1
      (OVLexicon_GetFromCString uk s).2).n_entry : Int) < id) :
    (OVLexicon_DecRef (OVLexicon_GetFromCString uk s).1
      (OVLexicon_GetFromCString uk s).2).ref_cnt id ≤ 0 := by
  have hle := (getFromCString_id uk s).2.2.2
  have hid2 : ((OVLexicon_GetFromCString uk s).1.n_entry : Int) < id := hid
  unfold OVLexicon_DecRef
  dsimp only
  rw [Function.update_noteq (by omega)]
  exact getFromCString_beyond uk h2 s id hid2

theorem nameCount_remove_le (l1 l2 : List PropertyUniqueEntry) (e : PropertyUniqueEntry)
    (id : Int) : nameCount (l1 ++ l2) id ≤ nameCount (l1 ++ e :: l2) id := by
  have h1 := nameCount_append l1 l2 id
  have h2 := nameCount_append l1 (e :: l2) id
  have h3 := nameCount_append [e] l2 id
  rw [List.singleton_append] at h3
  omega

/-- `PropertyUniqueSetTypedValue` keeps the reference counts of the name interner above
the entry counts. -/
theorem setTypedValue_refInv (I : CPropertyUnique) (hI : Inv I) (hR : RefInv I) (uid : Int)
    (name : String) (ty : PropertyType) (value : Option PropValue)
    (hk : ∀ v, value = some v → kindMatches ty v = true) (J : CPropertyUnique)
    (hJ : (PropertyUniqueSetTypedValue I uid name ty value).state = some J) : RefInv J := by
  obtain ⟨⟨free, L, h⟩, hz⟩ := hI
  have hRA := (refInv_iff_refAbs h).1 hR
  obtain ⟨J2, free2, L2, e1, e2, _, e4, e5, _, _, e8⟩ :=
    setTypedValue_effect I free L h hz uid name ty value hk
  rw [e1] at hJ
  simp only [Option.some.injEq] at hJ
  subst hJ
  rw [refInv_iff_refAbs e2]
  have hother : ∀ g, g ≠ uid → ∀ id, nameCount ((L2 g).map (getEntry J2.entry)) id =
      nameCount ((L g).map (getEntry I.entry)) id := by
    intro g hg id
    rw [e4 g hg]
    exact nameCount_map_congr _ _ _ id (fun y hy => e5 g y hy)
  have hkeep : ∀ id, nameCount ((L uid).map (getEntry J2.entry)) id =
      nameCount ((L uid).map (getEntry I.entry)) id :=
    fun id => nameCount_map_congr _ _ _ id (fun y hy => e5 uid y hy)
  rcases e8 with ⟨x, a1, _, a3, a4⟩ | ⟨b1, b2⟩ | ⟨l1, x, l2, c1, c2, c3⟩
  · refine hRA.transfer uid
      (fun id => if (OVLexicon_GetFromCString I.propnames name).2 = id then 1 else 0)
      hother ?_ ?_ ?_
    · intro id
      rw [a1, List.map_append, nameCount_append, hkeep id, List.map_cons, List.map_nil,
        nameCount_singleton, a3]
    · intro id
      rw [a4]
      have := getFromCString_ref_ge_all I.propnames hRA.2 name id
      split at this <;> simp_all
    · intro id hid
      rw [a4] at hid ⊢
      exact getFromCString_beyond I.propnames hRA.2 name id hid
  · refine hRA.transfer uid (fun _ => 0) hother ?_ ?_ ?_
    · intro id
      rw [b1, hkeep id]
      exact Nat.le_refl _
    · intro id
      rcases b2 with b2 | b2
      · rw [b2]
        have := getFromCString_ref_ge_all I.propnames hRA.2 name id
        simp only [Nat.cast_zero, add_zero]
        split at this <;> omega
      · rw [b2]
        have := decRef_getFromCString_ref_ge I.propnames hRA.2 name id
        simpa using this
    · intro id hid
      rcases b2 with b2 | b2
      · rw [b2] at hid ⊢
        exact getFromCString_beyond I.propnames hRA.2 name id hid
      · rw [b2] at hid ⊢
        exact decRef_getFromCString_beyond I.propnames hRA.2 name id hid
  · refine hRA.transfer uid (fun _ => 0) hother ?_ ?_ ?_
    · intro id
      have hsub : nameCount ((l1 ++ l2).map (getEntry J2.entry)) id =
          nameCount ((l1 ++ l2).map (getEntry I.entry)) id :=
        nameCount_map_congr _ _ _ id (fun y hy => e5 uid y (by
          rw [c1]
          rcases List.mem_append.1 hy with hy | hy
          · exact List.mem_append_left _ hy
          · exact List.mem_append_right _ (List.mem_cons_of_mem _ hy)))
      rw [c2, hsub, c1]
      simp only [List.map_append, List.map_cons, add_zero]
      exact nameCount_remove_le _ _ _ _
    · intro id
      rw [c3]
      have := decRef_getFromCString_ref_ge I.propnames hRA.2 name id
      simpa using this
    · intro id hid
      rw [c3] at hid ⊢
      exact decRef_getFromCString_beyond I.propnames hRA.2 name id hid

/-- `PropertyUniqueDetachChain` keeps the reference counts of the name interner above the
entry counts. -/
theorem detachChain_refInv (I : CPropertyUnique) (hI : Inv I) (hR : RefInv I) (uid : Int)
    (J : CPropertyUnique) (hJ : (PropertyUniqueDetachChain I uid).state = some J) :
    RefInv J := by
  obtain ⟨⟨free, L, h⟩, hz⟩ := hI
  have hRA := (refInv_iff_refAbs h).1 hR
  obtain ⟨J2, j1, j2, _, _, _, j6, j7, _, j9, _⟩ := detachChain_spec I free L h uid
  rw [j1] at hJ
  simp only [Outcome.state, Option.some.injEq] at hJ
  subst hJ
  rw [refInv_iff_refAbs j2]
  refine ⟨fun hs hnd id => ?_, fun id hid => ?_⟩
  · obtain ⟨hs2, hnd2, hle⟩ := sum_counts_detach
      (fun g => nameCount ((L g).map (getEntry I.entry)) id)
      (fun g => nameCount ((Function.update L uid [] g).map (getEntry J2.entry)) id) uid
      (fun g hg => by
        dsimp only
        rw [Function.update_noteq hg]
        refine nameCount_map_congr _ _ _ id (fun y hy => ?_)
        rw [j6 y (fun hyu => hg (h.list_disj g uid y hy hyu))])
      (by simp [nameCount]) hs hnd
    have := hRA.1 hs2 hnd2 id
    rw [j7 id]
    omega
  · rw [j7 id]
    rw [j9] at hid
    have := hRA.2 id hid
    omega

/-- `PropertyCopyProperties` into a unique id without a list keeps the reference counts of
the name interner above the entry counts. -/
theorem copyNew_refInv (I : CPropertyUnique) (hI : Inv I) (hR : RefInv I) (src dst : Int)
    (hdst : I.id2offset dst = none) (J : CPropertyUnique)
    (hJ : (PropertyCopyProperties I src dst).state = some J) : RefInv J := by
  obtain ⟨⟨free, L, h⟩, hz⟩ := hI
  have hRA := (refInv_iff_refAbs h).1 hR
  obtain ⟨J2, xs, free2, j1, j2, _, _, j5, j6, j7, _, j9, _⟩ :=
    copyNew_spec I free L h hz src dst hdst
  rw [j1] at hJ
  simp only [Outcome.state, Option.some.injEq] at hJ
  subst hJ
  rw [refInv_iff_refAbs j2]
  have hnil : L dst = [] := h.list_nil_of_head_zero dst (by simp [headOf, hdst])
  have hxs : ∀ id, nameCount (xs.map (getEntry J2.entry)) id =
      nameCount ((L src).map (getEntry I.entry)) id := by
    intro id
    have hids : (xs.map (getEntry J2.entry)).map (fun e => e.prop_id) =
        ((L src).map (getEntry I.entry)).map (fun e => e.prop_id) := by
      have := congrArg (List.map Prod.fst) j5
      simpa [List.map_map, Function.comp, PropertyUniqueEntry.content] using this
    unfold nameCount
    have hc : ∀ l : List PropertyUniqueEntry,
        l.countP (fun e => decide (e.prop_id = id)) =
          (l.map (fun e => e.prop_id)).count id := by
      intro l
      induction l with
      | nil => rfl
      | cons a l ih =>
        simp only [List.countP_cons, List.map_cons, List.count_cons, ih]
        by_cases ha : a.prop_id = id <;> simp [ha]
    rw [hc, hc, hids]
  refine hRA.transfer dst (fun id => nameCount ((L src).map (getEntry I.entry)) id) ?_ ?_ ?_ ?_
  · intro g hg id
    rw [Function.update_noteq hg]
    exact nameCount_map_congr _ _ _ id (fun y hy => by rw [j6 g hg y hy])
  · intro id
    rw [Function.update_same, hxs id]
    beta_reduce
    omega
  · intro id
    rw [j7 id]
  · intro id hid
    rw [j9] at hid
    rw [j7 id]
    have h0 := hRA.2 id hid
    have hzero : nameCount ((L src).map (getEntry I.entry)) id = 0 := by
      by_contra hne
      have h1 := hRA.1 [src] (by simp) id
      simp only [List.map_cons, List.map_nil, List.sum_cons, List.sum_nil, add_zero] at h1
      omega
    omega

/-! ## PropertyCopyProperties into a unique id that has a list: reference counts -/

/-- The loop of `PropertyCopyProperties` for a destination with a list keeps the reference
counts of the name interner above the entry counts: a round either overwrites the type and
value of a destination entry or appends a copy of the source entry and adds a reference to
its name. -/
theorem copyExistingLoop_refInv (dst : Int) :
    ∀ (fuel : Nat) (I : CPropertyUnique) (src_offset dst_offset : Nat) (free : List Nat)
      (L : Int → List Nat),
      SlabInv I.entry I.next_free (headOf I) free L →
      (∀ u, I.id2offset u ≠ some 0) →
      RefAbs I L →
      dst_offset ∈ L dst →
      (src_offset = 0 ∨ ∃ u, src_offset ∈ L u) →
      ∀ J, (copyExistingLoop dst fuel I src_offset dst_offset).state = some J →
        RefInv J := by
  intro fuel
  induction fuel with
  | zero =>
    intro I src_offset dst_offset free L _ _ _ _ _ J hJ
    simp [copyExistingLoop, Outcome.state] at hJ
  | succ f ih =>
    intro I src_offset dst_offset free L h hz hR hd hs J hJ
    rw [copyExistingLoop] at hJ
    by_cases hs0 : src_offset = 0
    · simp only [if_pos hs0, Outcome.state, Option.some.injEq] at hJ
      subst hJ
      exact (refInv_iff_refAbs h).2 hR
    · simp only [if_neg hs0] at hJ
      obtain ⟨u, ha⟩ : ∃ u, src_offset ∈ L u := by
        rcases hs with hs | hs
        · exact absurd hs hs0
        · exact hs
      have hab := IsSeg.mem_bound (h.list_chain u) ha
      obtain ⟨la, lb, hLd, _, hsuf⟩ := IsChain.split_at (h.list_chain dst) hd
      have hfuel : (dst_offset :: lb).length < I.entry.length := by
        have := h.chain_length_lt dst
        rw [hLd] at this
        simp only [List.length_append, List.length_cons] at this ⊢
        omega
      rcases findInList_spec I.entry (getEntry I.entry src_offset).prop_id (dst_offset :: lb)
          dst_offset hsuf I.entry.length 0 hfuel with
        ⟨l1, x, l2, hl, _, _, hx0, hres⟩ | ⟨_, hres⟩
      · rw [hres] at hJ
        simp only [if_pos hx0] at hJ
        have hxL : x ∈ L dst := by
          rw [hLd]
          refine List.mem_append_right _ ?_
          rw [hl]; simp
        have hxb := IsSeg.mem_bound (h.list_chain dst) hxL
        have hnext : ∀ y, (getEntry (setTypeValue I.entry x (getEntry I.entry src_offset).type
            (getEntry I.entry src_offset).value) y).next = (getEntry I.entry y).next := by
          intro y
          by_cases hyx : y = x
          · subst hyx; simp [hxb.2]
          · simp [hyx]
        have h2 : SlabInv (setTypeValue I.entry x (getEntry I.entry src_offset).type
            (getEntry I.entry src_offset).value) I.next_free (headOf I) free L := by
          refine h.overwrite (by simp) hnext (fun w y hy => ?_)
          by_cases hyx : y = x
          · subst hyx
            simp only [getEntry_setTypeValue, hxb.2, and_self, if_true]
            exact (kindOK_congr rfl rfl).1 (h.kind u src_offset ha)
          · simp only [getEntry_setTypeValue, hyx, false_and, if_false]
            exact h.kind w y hy
        have hR2 : RefAbs { I with entry := (setTypeValue I.entry x
            (getEntry I.entry src_offset).type (getEntry I.entry src_offset).value) } L := by
          have hpid : ∀ y, (getEntry (setTypeValue I.entry x (getEntry I.entry src_offset).type
              (getEntry I.entry src_offset).value) y).prop_id = (getEntry I.entry y).prop_id := by
            intro y
            rw [getEntry_setTypeValue]
            split
            · rename_i hc
              rw [hc.1]
            · rfl
          refine hR.transfer dst (fun _ => 0) ?_ ?_ ?_ hR.2
          · intro g _ id
            exact nameCount_map_congr _ _ _ id (fun y _ => hpid y)
          · intro id
            rw [nameCount_map_congr _ _ (getEntry I.entry) id (fun y _ => hpid y)]
            exact Nat.le_refl _
          · intro id
            simp
        refine ih { I with entry := (setTypeValue I.entry x (getEntry I.entry src_offset).type
            (getEntry I.entry src_offset).value) } _ x free L h2 hz hR2 hxL ?_ J hJ
        show (getEntry (setTypeValue I.entry x (getEntry I.entry src_offset).type
            (getEntry I.entry src_offset).value) src_offset).next = 0 ∨ _
        rw [hnext]
        rcases IsSeg.next_mem (h.list_chain u) ha with hn | hn
        · exact Or.inl hn
        · exact Or.inr ⟨u, hn⟩
      · rw [hres] at hJ
        simp only [ne_eq, not_true_eq_false, if_false] at hJ
        by_cases hstale : I.next_free = 0 ∧ ¬ (PropertyUniqueExpand I).next_free = 0
        · simp only [if_pos hstale, Outcome.state] at hJ
          cases hJ
        simp only [if_neg hstale] at hJ
        obtain ⟨d0, prev, hd0⟩ : ∃ d0 prev, L dst = d0 ++ [prev] := by
          rcases List.eq_nil_or_concat (L dst) with hnil | ⟨d0, p, hd0⟩
          · rw [hnil] at hd; cases hd
          · exact ⟨d0, p, by rw [hd0, List.concat_eq_append]⟩
        have hlast : (dst_offset :: lb).getLast?.getD 0 = prev := by
          have e1 : (L dst).getLast?.getD 0 = prev := by
            rw [hd0]; exact getLast?_getD_concat _ _ _
          rw [hLd, List.getLast?_append] at e1
          obtain ⟨z, hz2⟩ : ∃ z, (dst_offset :: lb).getLast? = some z :=
            ⟨_, List.getLast?_eq_getLast _ (by simp)⟩
          rw [hz2] at e1 ⊢
          simpa using e1
        rw [hlast] at hJ
        obtain ⟨rest, h1, hnz, hlen1, hold, hm, hp, hsv, hni, hai⟩ :=
          prepare_alloc I (headOf I) free L h
        have hpL : prev ∈ L dst := by rw [hd0]; simp
        have hpb := IsSeg.mem_bound (h.list_chain dst) hpL
        have hpb1 : prev < (if I.next_free = 0 then PropertyUniqueExpand I else I).entry.length :=
          lt_of_lt_of_le hpb.2 hlen1
        have hxb := IsSeg.mem_bound h1.free_chain (List.mem_cons_self _ _)
        have hpx : prev ≠ (if I.next_free = 0 then PropertyUniqueExpand I else I).next_free :=
          fun hpx => h1.free_disj dst prev hpL (hpx ▸ List.mem_cons_self _ _)
        simp only [if_pos hnz, if_pos hpb.1] at hJ
        obtain ⟨I6, c1, c2, c3, _, c5, c6, c7, c8, c9, c10, c11, _, c13, _⟩ :=
          copy_alloc_spec I (if I.next_free = 0 then PropertyUniqueExpand I else I)
            { (if I.next_free = 0 then PropertyUniqueExpand I else I) with
              next_free := (getEntry (if I.next_free = 0 then PropertyUniqueExpand I else I).entry
                (if I.next_free = 0 then PropertyUniqueExpand I else I).next_free).next
              entry := setPropId
                (setTypeValue
                  (setNext
                    (setNext (if I.next_free = 0 then PropertyUniqueExpand I else I).entry
                      (if I.next_free = 0 then PropertyUniqueExpand I else I).next_free 0)
                    prev (if I.next_free = 0 then PropertyUniqueExpand I else I).next_free)
                  (if I.next_free = 0 then PropertyUniqueExpand I else I).next_free
                  (getEntry I.entry src_offset).type (getEntry I.entry src_offset).value)
                (if I.next_free = 0 then PropertyUniqueExpand I else I).next_free
                (getEntry I.entry src_offset).prop_id }
            free rest L u dst src_offset prev h hz h1 hlen1 hold ha (by simp) rfl
            (by simp [hxb.2, hpx.symm])
            (Or.inr ⟨d0, hd0, hm, fun y hy1 hy2 => by simp [hy1, hy2],
              by simp [hpx, hpb1]⟩) hp hsv hni hai
        rw [c1] at hJ
        dsimp only at hJ
        have hR6 : RefAbs I6 (Function.update L dst
            (L dst ++ [(if I.next_free = 0 then PropertyUniqueExpand I else I).next_free])) := by
          have hpa := (hR.listed_pos ha).2
          refine hR.transfer dst
            (fun id => if (getEntry I.entry src_offset).prop_id = id then 1 else 0) ?_ ?_ ?_ ?_
          · intro g hg id
            rw [Function.update_noteq hg]
            exact nameCount_map_congr _ _ _ id
              (fun y hy => congrArg Prod.fst (c9 g y hy))
          · intro id
            rw [Function.update_same, List.map_append, nameCount_append, List.map_cons,
              List.map_nil, nameCount_singleton,
              nameCount_map_congr _ _ (getEntry I.entry) id
                (fun y hy => congrArg Prod.fst (c9 dst y hy))]
            have hx : (getEntry I6.entry
                (if I.next_free = 0 then PropertyUniqueExpand I else I).next_free).prop_id =
                (getEntry I.entry src_offset).prop_id := congrArg Prod.fst c7
            rw [hx]
          · intro id
            rw [c11 id]
            by_cases hq : (getEntry I.entry src_offset).prop_id = id <;> simp [hq]
          · intro id hid
            rw [c13] at hid
            rw [c11 id, if_neg (by omega)]
            have := hR.2 id hid
            omega
        refine ih I6 _ _ rest _ c2 c3 hR6 (by simp) ?_ J hJ
        by_cases hap : src_offset = prev
        · right
          refine ⟨dst, ?_⟩
          rw [hap, c10 hpb.1]
          simp
        · rw [c8 u src_offset ha hap]
          rcases IsSeg.next_mem (h.list_chain u) ha with hn | hn
          · exact Or.inl hn
          · right
            refine ⟨u, ?_⟩
            by_cases hu : u = dst
            · subst hu
              simp only [Function.update_same]
              exact List.mem_append_left _ hn
            · rw [Function.update_noteq hu]; exact hn

/-! ## The reference counts cover the entries in every reachable state -/

theorem copyProperties_refInv (I : CPropertyUnique) (hI : Inv I) (hR : RefInv I)
    (src dst : Int) (J : CPropertyUnique)
    (hJ : (PropertyCopyProperties I src dst).state = some J) : RefInv J := by
  cases hdst : I.id2offset dst with
  | none => exact copyNew_refInv I hI hR src dst hdst J hJ
  | some dst_offset =>
    obtain ⟨⟨free, L, h⟩, hz⟩ := hI
    unfold PropertyCopyProperties at hJ
    rw [hdst] at hJ
    dsimp only at hJ
    cases hsrc : I.id2offset src with
    | none =>
      rw [hsrc] at hJ
      simp only [Outcome.state, Option.some.injEq] at hJ
      subst hJ
      exact hR
    | some src_offset =>
      rw [hsrc] at hJ
      dsimp only at hJ
      have hd0 : dst_offset ≠ 0 := fun h0 => hz dst (h0 ▸ hdst)
      have hs0 : src_offset ≠ 0 := fun h0 => hz src (h0 ▸ hsrc)
      obtain ⟨y, r, hy, hyd⟩ := IsChain.ne_nil_of_ne_zero (h.list_eq_of_head hdst) hd0
      obtain ⟨y2, r2, hy2, hys⟩ := IsChain.ne_nil_of_ne_zero (h.list_eq_of_head hsrc) hs0
      have key := copyExistingLoop_refInv dst I.entry.length I src_offset dst_offset free L h
        hz ((refInv_iff_refAbs h).1 hR) (by rw [hy, hyd]; simp)
        (Or.inr ⟨src, by rw [hy2, hys]; simp⟩) J
      cases hr : copyExistingLoop dst I.entry.length I src_offset dst_offset with
      | done I1 b =>
        rw [hr] at hJ key
        exact key hJ
      | thrown I1 =>
        rw [hr] at hJ key
        exact key hJ
      | diverged =>
        rw [hr] at hJ
        simp [Outcome.state] at hJ

theorem newUniqueIDLoop_propnames (fuel : Nat) :
    ∀ (I J : CPropertyUnique), (newUniqueIDLoop fuel I).state = some J →
      J.propnames = I.propnames := by
  induction fuel with
  | zero =>
    intro I J hJ
    simp [newUniqueIDLoop, Outcome.state] at hJ
  | succ f ih =>
    intro I J hJ
    rw [newUniqueIDLoop] at hJ
    dsimp only at hJ
    split at hJ
    · simp only [Outcome.state, Option.some.injEq] at hJ
      subst hJ
      rfl
    · exact ih { I with NextUniqueID := wrap32 (I.NextUniqueID + 1) } J hJ

theorem refInv_congr {I J : CPropertyUnique} (hR : RefInv I) (he : J.entry = I.entry)
    (hm : J.id2offset = I.id2offset) (hp : J.propnames = I.propnames) : RefInv J := by
  unfold RefInv totalNameCount at hR ⊢
  have : ∀ u, entriesOf J u = entriesOf I u := fun u => entriesOf_congr he hm u
  simp only [this, hp]
  exact hR

theorem propertyInit_refInv : RefInv PropertyInit := by
  refine ⟨fun hs _ id => ?_, fun id _ => ?_⟩
  · have hz : ∀ t : List Int, totalNameCount PropertyInit t id = 0 := by
      intro t
      unfold totalNameCount
      induction t with
      | nil => rfl
      | cons a t ih =>
        rw [List.map_cons, List.sum_cons, ih, entriesOf_of_none (rfl : PropertyInit.id2offset a = none)]
        rfl
    rw [hz hs]
    exact le_refl _
  · exact le_refl _

theorem call_refInv (c : Call) (I J : CPropertyUnique) (hI : Inv I) (hR : RefInv I)
    (hJ : c.run I = some J) : RefInv J := by
  cases c with
  | set_b u n v =>
    exact setTypedValue_refInv I hI hR u n _ _ (fun w hw => by cases hw; rfl) J hJ
  | set_int u n v =>
    exact setTypedValue_refInv I hI hR u n _ _ (fun w hw => by cases hw; rfl) J hJ
  | set_double u n v =>
    exact setTypedValue_refInv I hI hR u n _ _ (fun w hw => by cases hw; rfl) J hJ
  | set_color u n v =>
    exact setTypedValue_refInv I hI hR u n _ _ (fun w hw => by cases hw; rfl) J hJ
  | set_string u n v =>
    exact setTypedValue_refInv
      { I with string_values := (OVLexicon_GetFromCString I.string_values v).1 }
      (Inv.of_same_slab hI rfl rfl rfl) (refInv_congr hR rfl rfl rfl) u n PropertyType.String
      (some (PropValue.int (OVLexicon_GetFromCString I.string_values v).2))
      (fun w hw => by cases hw; rfl) J hJ
  | delete u n =>
    exact setTypedValue_refInv I hI hR u n _ _ (fun w hw => by cases hw) J hJ
  | copy s d => exact copyProperties_refInv I hI hR s d J hJ
  | detach u => exact detachChain_refInv I hI hR u J hJ
  | new_unique_id =>
    obtain ⟨h1, _, h3⟩ := newUniqueIDLoop_frame _ I J hJ
    exact refInv_congr hR h1 h3 (newUniqueIDLoop_propnames _ I J hJ)

theorem reachable_refInv {I : CPropertyUnique} (h : Reachable I) : RefInv I := by
  induction h with
  | init => exact propertyInit_refInv
  | step c hprev hrun ih => exact call_refInv c _ _ (reachable_inv hprev) ih hrun

/-! ## The name interner after a found delete -/

/-- Interning a text and releasing the reference again leaves the borrowing lookup of
every text as it was. -/
theorem borrow_decRef_getFromCString (uk : OVLexicon) (s t : String) :
    OVLexicon_BorrowFromCString
        (OVLexicon_DecRef (OVLexicon_GetFromCString uk s).1 (OVLexicon_GetFromCString uk s).2)
        t =
      OVLexicon_BorrowFromCString uk t := by
  unfold OVLexicon_GetFromCString OVLexicon_DecRef
  cases hb : OVLexicon_BorrowFromCString uk s with
  | some ids =>
    unfold OVLexicon_BorrowFromCString
    simp only
    apply find?_eq_of_agree
    intro x _
    by_cases hx : x = ids
    · subst hx
      simp only [Function.update_same]
      have : uk.ref_cnt x + 1 - 1 = uk.ref_cnt x := by omega
      rw [this]
    · simp only [Function.update_noteq hx]
  | none =>
    unfold OVLexicon_BorrowFromCString
    simp only
    rw [range'_map_succ, List.find?_append]
    have hagree : ((List.range' 1 uk.n_entry).map Int.ofNat).find?
        (fun id => decide (Function.update uk.str ((uk.n_entry : Int) + 1) s id = t ∧
          0 < Function.update (Function.update uk.ref_cnt ((uk.n_entry : Int) + 1) 1)
            ((uk.n_entry : Int) + 1)
            (Function.update uk.ref_cnt ((uk.n_entry : Int) + 1) 1 ((uk.n_entry : Int) + 1) - 1)
            id)) =
        ((List.range' 1 uk.n_entry).map Int.ofNat).find?
          (fun id => decide (uk.str id = t ∧ 0 < uk.ref_cnt id)) := by
      apply find?_eq_of_agree
      intro x hx
      have hx2 := (mem_range'_map hx).2
      rw [Function.update_noteq (by omega), Function.update_noteq (by omega),
        Function.update_noteq (by omega)]
    rw [hagree]
    have hlast : [(uk.n_entry : Int) + 1].find?
        (fun id => decide (Function.update uk.str ((uk.n_entry : Int) + 1) s id = t ∧
          0 < Function.update (Function.update uk.ref_cnt ((uk.n_entry : Int) + 1) 1)
            ((uk.n_entry : Int) + 1)
            (Function.update uk.ref_cnt ((uk.n_entry : Int) + 1) 1 ((uk.n_entry : Int) + 1) - 1)
            id)) = none := by
      simp [List.find?_cons, Function.update_same]
    rw [hlast]
    simp

theorem getFromCString_of_borrow {uk : OVLexicon} {s : String} {q : Int}
    (h : OVLexicon_BorrowFromCString uk s = some q) : (OVLexicon_GetFromCString uk s).2 = q := by
  unfold OVLexicon_GetFromCString
  rw [h]

/-! ## Deleting a property that is on the list -/

theorem filter_ne_of_split (l1 l2 : List PropertyUniqueEntry) (e : PropertyUniqueEntry)
    (pid : Int) (h1 : ∀ a ∈ l1, a.prop_id ≠ pid) (h2 : ∀ a ∈ l2, a.prop_id ≠ pid)
    (he : e.prop_id = pid) :
    (l1 ++ e :: l2).filter (fun a => decide (a.prop_id ≠ pid)) = l1 ++ l2 := by
  rw [List.filter_append, List.filter_cons]
  have e1 : l1.filter (fun a => decide (a.prop_id ≠ pid)) = l1 :=
    List.filter_eq_self.2 (fun a ha => by simpa using h1 a ha)
  have e2 : l2.filter (fun a => decide (a.prop_id ≠ pid)) = l2 :=
    List.filter_eq_self.2 (fun a ha => by simpa using h2 a ha)
  rw [e1, e2]
  simp [he]

/-- `PropertyUniqueSetTypedValue` with a null value, for a name that is on the list of the
unique id, whose names are pairwise distinct: the call returns true and unlinks the one
slot `x` that holds the name. -/
theorem delete_effect (I : CPropertyUnique) (hI : Inv I) (uid : Int) (name : String)
    (ty : PropertyType)
    (hnd : ((entriesOf I uid).map (fun e => e.prop_id)).Nodup)
    (hmem : (OVLexicon_GetFromCString I.propnames name).2 ∈
      (entriesOf I uid).map (fun e => e.prop_id)) :
    ∃ J x, PropertyUniqueSetTypedValue I uid name ty none = Outcome.done J true ∧
      lookupContent J uid name = none ∧
      (entriesOf J uid).map PropertyUniqueEntry.content =
        ((entriesOf I uid).filter
          (fun e => decide (e.prop_id ≠ (OVLexicon_GetFromCString I.propnames name).2))).map
          PropertyUniqueEntry.content ∧
      x ∈ listOf I uid ∧
      (getEntry I.entry x).prop_id = (OVLexicon_GetFromCString I.propnames name).2 ∧
      J.next_free = x ∧ freeList J = x :: freeList I ∧
      (J.id2offset uid = none ↔ (entriesOf I uid).length = 1) := by
  obtain ⟨⟨free, L, h⟩, hz⟩ := hI
  rw [entriesOf_eq h uid] at hnd hmem ⊢
  rw [h.listOf_eq uid, h.freeList_eq]
  unfold PropertyUniqueSetTypedValue
  dsimp only
  set pid := (OVLexicon_GetFromCString I.propnames name).2 with hpid
  set I0 : CPropertyUnique :=
    { I with propnames := (OVLexicon_GetFromCString I.propnames name).1 } with hI0
  have h0 : SlabInv I0.entry I0.next_free (headOf I0) free L := h
  have hz0 : ∀ u, I0.id2offset u ≠ some 0 := hz
  cases hm : I.id2offset uid with
  | none =>
    have hnil : L uid = [] := h.list_nil_of_head_zero uid (by simp [headOf, hm])
    rw [hnil] at hmem
    simp at hmem
  | some head =>
    dsimp only
    have hc : IsChain I.entry head (L uid) := h.list_eq_of_head hm
    have hfuel := h.chain_length_lt uid
    rcases findInList_spec I.entry pid (L uid) head hc I.entry.length 0 hfuel with
      ⟨l1, x, l2, hl, hl1, hxp, hx0, hres⟩ | ⟨hall, _⟩
    · rw [hres]
      dsimp only
      rw [if_pos hx0]
      obtain ⟨d1, d2, _, d4, _, _, _⟩ := deleteEntry_spec I0 free L h0 hz0 uid l1 l2 x hl
      have hl2 : ∀ y ∈ l2, (getEntry I.entry y).prop_id ≠ pid := by
        intro y hy hyp
        rw [hl] at hnd
        simp only [List.map_append, List.map_cons, List.map_map] at hnd
        have hnd2 := (List.nodup_append.1 hnd).2.1
        have hnotin := (List.nodup_cons.1 hnd2).1
        apply hnotin
        rw [List.mem_map]
        refine ⟨y, hy, ?_⟩
        show (getEntry I.entry y).prop_id = (getEntry I.entry x).prop_id
        rw [hyp, hxp]
      set J : CPropertyUnique :=
        { deleteEntry I0 uid (l1.getLast?.getD 0) x with
          propnames := OVLexicon_DecRef (deleteEntry I0 uid (l1.getLast?.getD 0) x).propnames
            pid } with hJdef
      have hsJ : SlabInv J.entry J.next_free (headOf J) (x :: free)
          (Function.update L uid (l1 ++ l2)) := d1
      have hzJ : ∀ u, J.id2offset u ≠ some 0 := d2
      have hIJ : Inv J := Inv.of_slab hsJ hzJ
      have hentJ : (entriesOf J uid).map PropertyUniqueEntry.content =
          ((l1 ++ l2).map (getEntry I.entry)).map PropertyUniqueEntry.content := by
        rw [entriesOf_eq hsJ uid, Function.update_same, List.map_map, List.map_map]
        apply List.map_congr_left
        intro y _
        exact deleteEntry_content I0 uid _ x y
      have hnoneJ : ∀ q, q = pid →
          ((entriesOf J uid).find? (fun e => decide (e.prop_id = q))).map
            PropertyUniqueEntry.content = none := by
        intro q hq
        rw [find?_map_content _ _ q hentJ]
        have : ((l1 ++ l2).map (getEntry I.entry)).find? (fun e => decide (e.prop_id = q))
            = none := by
          rw [List.find?_eq_none]
          intro e he
          obtain ⟨y, hy, rfl⟩ := List.mem_map.1 he
          simp only [decide_eq_true_eq]
          rw [hq]
          rcases List.mem_append.1 hy with hy | hy
          · exact hl1 y hy
          · exact hl2 y hy
        rw [this]
        rfl
      refine ⟨J, x, rfl, ?_, ?_, by rw [hl]; simp, hxp, rfl, hsJ.freeList_eq, ?_⟩
      · rw [lookupContent_entries hIJ uid name]
        have hbor : OVLexicon_BorrowFromCString J.propnames name =
            OVLexicon_BorrowFromCString I.propnames name := by
          show OVLexicon_BorrowFromCString
            (OVLexicon_DecRef (deleteEntry I0 uid (l1.getLast?.getD 0) x).propnames pid) name = _
          rw [d4]
          exact borrow_decRef_getFromCString I.propnames name name
        rw [hbor]
        cases hb : OVLexicon_BorrowFromCString I.propnames name with
        | none => rfl
        | some q => exact hnoneJ q (getFromCString_of_borrow hb).symm
      · have hsplit : (l1 ++ x :: l2).map (getEntry I.entry) =
            l1.map (getEntry I.entry) ++ getEntry I.entry x :: l2.map (getEntry I.entry) := by
          simp
        have hf := filter_ne_of_split (l1.map (getEntry I.entry)) (l2.map (getEntry I.entry))
          (getEntry I.entry x) pid
          (fun a ha => by
            obtain ⟨y, hy, rfl⟩ := List.mem_map.1 ha
            exact hl1 y hy)
          (fun a ha => by
            obtain ⟨y, hy, rfl⟩ := List.mem_map.1 ha
            exact hl2 y hy) hxp
        rw [hentJ, hl, hsplit, hf, List.map_append]
      · rw [hl]
        constructor
        · intro hnone
          have hnil : (Function.update L uid (l1 ++ l2)) uid = [] :=
            hsJ.list_nil_of_head_zero uid (by
              show (J.id2offset uid).getD 0 = 0
              rw [hnone]
              rfl)
          rw [Function.update_same] at hnil
          have := congrArg List.length hnil
          simp only [List.length_append, List.length_nil] at this
          simp only [List.length_map, List.length_append, List.length_cons]
          omega
        · intro hlen
          simp only [List.length_map, List.length_append, List.length_cons] at hlen
          have h1 : l1 = [] := List.length_eq_zero.1 (by omega)
          have h2 : l2 = [] := List.length_eq_zero.1 (by omega)
          cases ho : J.id2offset uid with
          | none => rfl
          | some o =>
            exfalso
            have hchain := hsJ.list_eq_of_head ho
            rw [Function.update_same, h1, h2] at hchain
            have : o = 0 := (isSeg_nil J.entry o 0).1 hchain
            exact hzJ uid (this ▸ ho)
    · exfalso
      obtain ⟨y, hy, hyp⟩ := List.mem_map.1 hmem
      obtain ⟨z, hz1, rfl⟩ := List.mem_map.1 hy
      exact hall z hz1 hyp

/-! ## Over-long names, delete, new unique ids, payload kinds, locality, name references -/

/-- A name whose narrowed length is more than 1024 is rejected by `PropertySetPropertyImpl`. -/
theorem setPropertyImpl_long (scan_i : String → Option Int) (scan_lf : String → Option Rat)
    (I : CPropertyUnique) (prop_id : Int) (propname : String) (value : Option PyObject)
    (proptype : PropertyType) (h : wrap32 (strlen propname) > 1024) :
    PropertySetPropertyImpl scan_i scan_lf I prop_id propname value proptype =
      Outcome.done I 0 := by
  unfold PropertySetPropertyImpl
  generalize wrap32 (strlen propname) = k at h
  exact if_pos h

/-- A Color from a Python int on a name that is not too long is set by
`PropertyUniqueSet_color`. -/
theorem setPropertyImpl_short (scan_i : String → Option Int) (scan_lf : String → Option Rat)
    (I : CPropertyUnique) (prop_id : Int) (propname : String) (v : Int)
    (h : ¬ wrap32 (strlen propname) > 1024) :
    PropertySetPropertyImpl scan_i scan_lf I prop_id propname (some (PyObject.int v))
        PropertyType.Color =
      thenReturn (PropertyUniqueSet_color I prop_id propname v) 1 := by
  unfold PropertySetPropertyImpl
  generalize wrap32 (strlen propname) = k at h
  show (if k > 1024 then _ else _) = _
  rw [if_neg h]
  rfl

/-- C23 (counterexample): for an owner whose `prop_id` is still 0 and a name of 1025
characters, `PropertySet(G, x, propname, value, proptype)` returns 0, but the owner has
been given the unique id 1 and 1 is now in `ActiveIDs`, which was empty. -/
theorem long_name_allocates_unique_id :
    1024 < strlen sampleLongName ∧ PropertyInit.ActiveIDs = [] ∧
      (PropertySet_owner (fun _ => none) (fun _ => none) PropertyInit 0 sampleLongName none
        PropertyType.Auto).ret = some (1, 0) ∧
      (PropertySet_owner (fun _ => none) (fun _ => none) PropertyInit 0 sampleLongName none
        PropertyType.Auto).state.map (fun J => J.ActiveIDs) = some [1] := by
  set_option maxRecDepth 100000 in decide

/-- C23 (amended): a name of more than 1024 and less than 2^31 `char`s is rejected by
`PropertySet(G, x, propname, value, proptype)` with the result 0.  For an owner with a
non-zero `prop_id` the state and the `prop_id` are unchanged.  For an owner whose
`prop_id` is 0, `PropertyCheckUniqueID` has run first: when a unique id can be allocated
(32-bit counter, some non-zero 32-bit value not live) the owner holds a new unique id
that is now live, while the slab, the free list, the property table and both interners are
unchanged.  A name of exactly 1024 `char`s is not rejected: setting a Color from a Python
int on a name not yet on the owner's list returns 1 and stores the Color. -/
theorem long_name_rejected (scan_i : String → Option Int) (scan_lf : String → Option Rat)
    (I : CPropertyUnique) (x_prop_id : Int) (propname : String) (value : Option PyObject)
    (proptype : PropertyType) :
    (1024 < strlen propname → strlen propname < 2147483648 → x_prop_id ≠ 0 →
      PropertySet_owner scan_i scan_lf I x_prop_id propname value proptype =
        Outcome.done I (x_prop_id, 0)) ∧
    (1024 < strlen propname → strlen propname < 2147483648 → x_prop_id = 0 →
      -2147483648 ≤ I.NextUniqueID → I.NextUniqueID < 2147483648 →
      (∃ y : Int, y ≠ 0 ∧ -2147483648 ≤ y ∧ y < 2147483648 ∧ y ∉ I.ActiveIDs) →
      ∃ J id, PropertySet_owner scan_i scan_lf I x_prop_id propname value proptype =
          Outcome.done J (id, 0) ∧
        id ≠ 0 ∧ id ∉ I.ActiveIDs ∧ J.ActiveIDs = id :: I.ActiveIDs ∧
        J.entry = I.entry ∧ J.next_free = I.next_free ∧ J.id2offset = I.id2offset ∧
        J.propnames = I.propnames ∧ J.string_values = I.string_values) ∧
    (strlen propname = 1024 → Reachable I → x_prop_id ≠ 0 →
      ∀ v : Int,
        (OVLexicon_GetFromCString I.propnames propname).2 ∉
          (entriesOf I x_prop_id).map (fun e => e.prop_id) →
        ∃ J c, PropertySet_owner scan_i scan_lf I x_prop_id propname (some (PyObject.int v))
            PropertyType.Color = Outcome.done J (x_prop_id, 1) ∧
          lookupContent J x_prop_id propname = some c ∧
          holdsTypedValue J c (TypedValue.Color v)) := by
  have hkey : ∀ n : Nat, n < 2147483648 → wrap32 (n : Int) = n := by
    intro n hn
    unfold wrap32
    omega
  refine ⟨fun hlen hlt hx => ?_, fun hlen hlt hx hr1 hr2 hy => ?_,
    fun hlen hreach hx v hnew => ?_⟩
  · unfold PropertySet_owner PropertyCheckUniqueID
    rw [if_neg hx]
    dsimp only
    rw [setPropertyImpl_long _ _ _ _ _ _ _ (by rw [hkey _ hlt]; omega)]
    rfl
  · obtain ⟨y, hy0, hy1, hy2, hy3⟩ := hy
    obtain ⟨J, id, g1, g2, g3, g4, _, _, g7, g8, g9, g10, g11⟩ :=
      getNewUniqueID_of_free I hr1 hr2 y hy0 hy1 hy2 hy3
    refine ⟨J, id, ?_, g2, g3, g4, g7, g8, g9, g10, g11⟩
    unfold PropertySet_owner PropertyCheckUniqueID
    rw [if_pos hx, g1]
    dsimp only
    rw [setPropertyImpl_long _ _ _ _ _ _ _ (by rw [hkey _ hlt]; omega)]
    rfl
  · obtain ⟨J, c, r1, _, r3, r4, _⟩ :=
      setTyped_new_lookup I (reachable_inv hreach) x_prop_id propname (TypedValue.Color v) hnew
    refine ⟨J, c, ?_, r3, r4⟩
    have hset : PropertyUniqueSet_color I x_prop_id propname v = Outcome.done J true := r1
    unfold PropertySet_owner PropertyCheckUniqueID
    rw [if_neg hx]
    dsimp only
    rw [setPropertyImpl_short _ _ _ _ _ _ (by rw [hkey _ (by omega)]; omega), hset]
    rfl

/-- C24: in every reachable state, if the names of the list of a unique id are pairwise
distinct and the name is on the list, `PropertyUniqueSetTypedValue` with a null value
returns true; afterwards the lookup of the name finds nothing, the list holds the other
entries in their order with their types and values, the slot `x` that held the name is the
head of the free list, and the unique id is absent from `id2offset` exactly when the
entry was its only one. -/
theorem delete_unlinks_one_entry (I : CPropertyUnique) (h : Reachable I) (unique_id : Int)
    (prop_name : String) (prop_type : PropertyType)
    (hdistinct : ((entriesOf I unique_id).map (fun e => e.prop_id)).Nodup)
    (hmem : (OVLexicon_GetFromCString I.propnames prop_name).2 ∈
      (entriesOf I unique_id).map (fun e => e.prop_id)) :
    ∃ J x, PropertyUniqueSetTypedValue I unique_id prop_name prop_type none =
        Outcome.done J true ∧
      lookupContent J unique_id prop_name = none ∧
      (entriesOf J unique_id).map PropertyUniqueEntry.content =
        ((entriesOf I unique_id).filter
          (fun e => decide (e.prop_id ≠ (OVLexicon_GetFromCString I.propnames prop_name).2))).map
          PropertyUniqueEntry.content ∧
      x ∈ listOf I unique_id ∧
      (getEntry I.entry x).prop_id = (OVLexicon_GetFromCString I.propnames prop_name).2 ∧
      J.next_free = x ∧ freeList J = x :: freeList I ∧
      (J.id2offset unique_id = none ↔ (entriesOf I unique_id).length = 1) :=
  delete_effect I (reachable_inv h) unique_id prop_name prop_type hdistinct hmem

/-- C25: for every state whose counter `NextUniqueID` is a 32-bit value (0 and the largest
one included, the increment wrapping modulo 2^32) and in which some non-zero 32-bit value
`x` is not live, `PropertyGetNewUniqueID` returns a non-zero value that was not in
`ActiveIDs`, and `ActiveIDs` afterwards is the old set plus exactly that value. -/
theorem new_unique_id_after_wraparound (I : CPropertyUnique)
    (hr1 : -2147483648 ≤ I.NextUniqueID) (hr2 : I.NextUniqueID < 2147483648) (x : Int)
    (hx0 : x ≠ 0) (hx1 : -2147483648 ≤ x) (hx2 : x < 2147483648) (hx : x ∉ I.ActiveIDs) :
    ∃ J id, PropertyGetNewUniqueID I = Outcome.done J id ∧ id ≠ 0 ∧ id ∉ I.ActiveIDs ∧
      J.ActiveIDs = id :: I.ActiveIDs := by
  obtain ⟨J, id, g1, g2, g3, g4, _⟩ := getNewUniqueID_of_free I hr1 hr2 x hx0 hx1 hx2 hx
  exact ⟨J, id, g1, g2, g3, g4⟩

/-- Type tag and payload kind on the runs with a defined result: in every reachable state
every entry on the list of a unique id holds a `double` payload when its type is Float and
an `int` payload otherwise, and `PropertyGetAsFloat` and `PropertyGetAsString` return for
every name without a failing payload access. -/
theorem type_tag_and_payload_agree (conv : List Char → Option Rat) (fmt : PropertyFmtOptions)
    (I : CPropertyUnique) (h : Reachable I) (unique_id : Int) :
    (∀ e ∈ entriesOf I unique_id,
      (e.type = PropertyType.Float → ∃ d, e.value = PropValue.double d) ∧
      (e.type ≠ PropertyType.Float → ∃ i, e.value = PropValue.int i)) ∧
    (∀ prop_name, ∃ r, PropertyGetAsFloat conv I unique_id prop_name = Outcome.done I r) ∧
    (∀ prop_name, ∃ r, PropertyGetAsString I unique_id prop_name fmt = Outcome.done I r) := by
  have hI := reachable_inv h
  refine ⟨fun e he => ?_, fun n => ?_, fun n => ?_⟩
  · obtain ⟨⟨free, L, hs⟩, _⟩ := hI
    rw [entriesOf_eq hs unique_id] at he
    obtain ⟨y, hy, rfl⟩ := List.mem_map.1 he
    have hk := hs.kind unique_id y hy
    exact ⟨fun ht => hk.payload_double ht, fun ht => hk.payload_int ht⟩
  · obtain ⟨r, hr, _⟩ := getAsFloat_total conv I hI unique_id n
    exact ⟨r, hr⟩
  · obtain ⟨r, hr, _⟩ := getAsString_total fmt I hI unique_id n
    exact ⟨r, hr⟩

/-- C27: in every reachable state a call of `PropertyUniqueSetTypedValue` on a unique id,
with a null value or a value of the kind the type selects, leaves a state in which the
sequence of (name id, type, value) of every other unique id is unchanged and `ActiveIDs`
is unchanged. -/
theorem set_is_local_to_its_handle (I : CPropertyUnique) (h : Reachable I)
    (unique_id g : Int) (hg : g ≠ unique_id) (prop_name : String) (prop_type : PropertyType)
    (value : Option PropValue) (hk : ∀ v, value = some v → kindMatches prop_type v = true) :
    ∃ J, (PropertyUniqueSetTypedValue I unique_id prop_name prop_type value).state = some J ∧
      (entriesOf J g).map PropertyUniqueEntry.content =
        (entriesOf I g).map PropertyUniqueEntry.content ∧
      J.ActiveIDs = I.ActiveIDs := by
  obtain ⟨⟨free, L, hs⟩, hz⟩ := reachable_inv h
  obtain ⟨J, free2, L2, e1, e2, _, e4, _, e6, e7, _⟩ :=
    setTypedValue_effect I free L hs hz unique_id prop_name prop_type value hk
  refine ⟨J, e1, ?_, e7⟩
  rw [entriesOf_eq e2 g, entriesOf_eq hs g, e4 g hg, List.map_map, List.map_map]
  apply List.map_congr_left
  intro y hy
  exact e6 g hg y hy

/-- C28: in every reachable state, for every name id the reference count in the name
interner is at least the number of entries with that name id on the lists of any distinct
unique ids; so the name id of every listed entry has a positive reference count, and
`PropertyGetNamesAsPyList` resolves every name and returns. -/
theorem listed_names_are_referenced (I : CPropertyUnique) (h : Reachable I) :
    (∀ hs : List Int, hs.Nodup → ∀ id,
      (totalNameCount I hs id : Int) ≤ I.propnames.ref_cnt id) ∧
    (∀ unique_id, ∀ e ∈ entriesOf I unique_id, 0 < I.propnames.ref_cnt e.prop_id) ∧
    (∀ unique_id, ∃ names, PropertyGetNamesAsPyList I unique_id =
      Outcome.done I (PyObject.list names)) := by
  have hI := reachable_inv h
  have hR := reachable_refInv h
  have hpos : ∀ unique_id, ∀ e ∈ entriesOf I unique_id, 0 < I.propnames.ref_cnt e.prop_id := by
    intro u e he
    obtain ⟨⟨free, L, hs⟩, _⟩ := hI
    have hRA := (refInv_iff_refAbs hs).1 hR
    rw [entriesOf_eq hs u] at he
    obtain ⟨y, hy, rfl⟩ := List.mem_map.1 he
    exact (hRA.listed_pos hy).1
  refine ⟨hR.1, hpos, fun u => ?_⟩
  refine ⟨_, getNames_spec I hI u ((entriesOf I u).map (fun e => I.propnames.str e.prop_id)) ?_⟩
  rw [List.map_map]
  apply List.map_congr_left
  intro e he
  exact fetch_some (hpos u e he)

/-! ## Over-long names, delete, new unique ids, payload kinds, locality, name references:
concrete inputs -/

set_option maxRecDepth 100000 in
/-- C23 (amended) at concrete inputs: the 1025-character name on an owner with `prop_id` 5
from `PropertyInit`, the same name on an owner with `prop_id` 0 in a state whose counter
is the largest 32-bit value, and the 1024-character name with the Color 7 on the owner
with `prop_id` 5. -/
theorem long_name_rejected_witness :
    1024 < strlen sampleLongName ∧ strlen sampleName1024 = 1024 ∧
      PropertySet_owner (fun _ => none) (fun _ => none) PropertyInit 5 sampleLongName none
        PropertyType.Auto = Outcome.done PropertyInit (5, 0) ∧
      (∃ J id, PropertySet_owner (fun _ => none) (fun _ => none) sampleStateAtMax 0
          sampleLongName none PropertyType.Auto = Outcome.done J (id, 0) ∧
        id ≠ 0 ∧ id ∉ sampleStateAtMax.ActiveIDs ∧
        J.ActiveIDs = id :: sampleStateAtMax.ActiveIDs ∧
        J.entry = sampleStateAtMax.entry ∧ J.next_free = sampleStateAtMax.next_free ∧
        J.id2offset = sampleStateAtMax.id2offset ∧
        J.propnames = sampleStateAtMax.propnames ∧
        J.string_values = sampleStateAtMax.string_values) ∧
      ∃ J c, PropertySet_owner (fun _ => none) (fun _ => none) PropertyInit 5 sampleName1024
          (some (PyObject.int 7)) PropertyType.Color = Outcome.done J (5, 1) ∧
        lookupContent J 5 sampleName1024 = some c ∧
        holdsTypedValue J c (TypedValue.Color 7) :=
  ⟨by decide, by decide,
    (long_name_rejected (fun _ => none) (fun _ => none) PropertyInit 5 sampleLongName none
      PropertyType.Auto).1 (by decide) (by decide) (by decide),
    (long_name_rejected (fun _ => none) (fun _ => none) sampleStateAtMax 0 sampleLongName none
      PropertyType.Auto).2.1 (by decide) (by decide) rfl (by decide) (by decide)
      ⟨3, by decide, by decide, by decide, by decide⟩,
    (long_name_rejected (fun _ => none) (fun _ => none) PropertyInit 5 sampleName1024 none
      PropertyType.Color).2.2 (by decide) Reachable.init (by decide) 7 (by decide)⟩

/-- C24 at a concrete input: deleting the name "e", in the middle of the nine entries of
unique id 1 after `sampleRunNine`. -/
theorem delete_unlinks_one_entry_witness :
    Reachable (stateAfter sampleRunNine) ∧
      ((entriesOf (stateAfter sampleRunNine) 1).map (fun e => e.prop_id)).Nodup ∧
      (OVLexicon_GetFromCString (stateAfter sampleRunNine).propnames "e").2 ∈
        (entriesOf (stateAfter sampleRunNine) 1).map (fun e => e.prop_id) ∧
      ∃ J x, PropertyUniqueSetTypedValue (stateAfter sampleRunNine) 1 "e" PropertyType.Auto
          none = Outcome.done J true ∧
        lookupContent J 1 "e" = none ∧
        (entriesOf J 1).map PropertyUniqueEntry.content =
          ((entriesOf (stateAfter sampleRunNine) 1).filter
            (fun e => decide (e.prop_id ≠
              (OVLexicon_GetFromCString (stateAfter sampleRunNine).propnames "e").2))).map
            PropertyUniqueEntry.content ∧
        x ∈ listOf (stateAfter sampleRunNine) 1 ∧
        (getEntry (stateAfter sampleRunNine).entry x).prop_id =
          (OVLexicon_GetFromCString (stateAfter sampleRunNine).propnames "e").2 ∧
        J.next_free = x ∧ freeList J = x :: freeList (stateAfter sampleRunNine) ∧
        (J.id2offset 1 = none ↔ (entriesOf (stateAfter sampleRunNine) 1).length = 1) :=
  ⟨stateAfter_reachable _ (by decide), by decide, by decide,
    delete_unlinks_one_entry (stateAfter sampleRunNine) (stateAfter_reachable _ (by decide)) 1
      "e" PropertyType.Auto (by decide) (by decide)⟩

/-- C25 at a concrete input: the counter at the largest 32-bit value, the unique ids 1
and 2 live, and 3 a value that is not live. -/
theorem new_unique_id_after_wraparound_witness :
    sampleStateAtMax.NextUniqueID = 2147483647 ∧ (3 : Int) ∉ sampleStateAtMax.ActiveIDs ∧
      ∃ J id, PropertyGetNewUniqueID sampleStateAtMax = Outcome.done J id ∧ id ≠ 0 ∧
        id ∉ sampleStateAtMax.ActiveIDs ∧ J.ActiveIDs = id :: sampleStateAtMax.ActiveIDs :=
  ⟨rfl, by decide,
    new_unique_id_after_wraparound sampleStateAtMax (by decide) (by decide) 3 (by decide)
      (by decide) (by decide) (by decide)⟩

/-- C27 at a concrete input: setting the Int 3 on the name "z" of unique id 1 after
`sampleRunMixed` leaves the list of unique id 2 as it was. -/
theorem set_is_local_to_its_handle_witness :
    Reachable (stateAfter sampleRunMixed) ∧ (2 : Int) ≠ 1 ∧
      kindMatches PropertyType.Int (PropValue.int 3) = true ∧
      ∃ J, (PropertyUniqueSetTypedValue (stateAfter sampleRunMixed) 1 "z" PropertyType.Int
          (some (PropValue.int 3))).state = some J ∧
        (entriesOf J 2).map PropertyUniqueEntry.content =
          (entriesOf (stateAfter sampleRunMixed) 2).map PropertyUniqueEntry.content ∧
        J.ActiveIDs = (stateAfter sampleRunMixed).ActiveIDs :=
  ⟨stateAfter_reachable _ (by decide), by decide, by decide,
    set_is_local_to_its_handle (stateAfter sampleRunMixed) (stateAfter_reachable _ (by decide))
      1 2 (by decide) "z" PropertyType.Int (some (PropValue.int 3))
      (fun v hv => by cases hv; decide)⟩

/-- C28 at a concrete input: the state after `sampleRunDuplicate`, in which the list of
unique id 2 holds the name "b" twice. -/
theorem listed_names_are_referenced_witness :
    Reachable (stateAfter sampleRunDuplicate) ∧
      (entriesOf (stateAfter sampleRunDuplicate) 2).map (fun e => e.prop_id) = [2, 1, 2] ∧
      (∀ hs : List Int, hs.Nodup → ∀ id,
        (totalNameCount (stateAfter sampleRunDuplicate) hs id : Int) ≤
          (stateAfter sampleRunDuplicate).propnames.ref_cnt id) ∧
      ∀ unique_id, ∀ e ∈ entriesOf (stateAfter sampleRunDuplicate) unique_id,
        0 < (stateAfter sampleRunDuplicate).propnames.ref_cnt e.prop_id :=
  ⟨stateAfter_reachable _ (by decide), by decide,
    (listed_names_are_referenced _ (stateAfter_reachable _ (by decide))).1,
    (listed_names_are_referenced _ (stateAfter_reachable _ (by decide))).2.1⟩

/-! ## Export and bulk load: runs on which the code departs from the specification -/

/-- C21 (failing input): unique id 1 has the Boolean property a = false, stored as the
integer 0.  `PropertyAsPyList(1, include_type)` returns the one triple ("a", 1, True): the
exported value is true although the stored integer is zero. -/
theorem export_false_boolean_yields_true :
    lookupContent (stateAfter [Call.set_b 1 "a" 0]) 1 "a" =
        some (1, PropertyType.Boolean, PropValue.int 0) ∧
      propertyTypeToInt PropertyType.Boolean = 1 ∧
      (PropertyAsPyList (stateAfter [Call.set_b 1 "a" 0]) 1 true).ret =
        some (PyObject.list
          [PyObject.list [PyObject.str "a", PyObject.int 1, PyObject.bool true]]) :=
  ⟨by decide, by decide, rfl⟩

/-- C22 (failing input): `PropertyFromPyList` on the list of the one triple ("c", 5, 7),
the Color 7, from `PropertyInit` returns the new unique id 1, and the list of unique id 1
holds the one entry of type Int with the value 7: the given type Color is not stored. -/
theorem load_stores_color_as_int :
    propertyTypeToInt PropertyType.Color = 5 ∧
      (PropertyFromPyList PropertyInit (some (PyObject.list
        [PyObject.list [PyObject.str "c", PyObject.int 5, PyObject.int 7]]))).ret = some 1 ∧
      (PropertyFromPyList PropertyInit (some (PyObject.list
        [PyObject.list [PyObject.str "c", PyObject.int 5, PyObject.int 7]]))).state.map
          (fun J => (entriesOf J 1).map PropertyUniqueEntry.content) =
        some [(1, PropertyType.Int, PropValue.int 7)] ∧
      (PropertyUniqueSet_color PropertyInit 1 "c" 7).state.map
          (fun J => (entriesOf J 1).map PropertyUniqueEntry.content) =
        some [(1, PropertyType.Color, PropValue.int 7)] := by
  decide

/-! ## Slot 0 of the slab is never written -/

theorem getEntry_setNext_zero (e : List PropertyUniqueEntry) (x n : Nat) (hx : x ≠ 0) :
    getEntry (setNext e x n) 0 = getEntry e 0 := by
  rw [getEntry_setNext, if_neg (fun h => hx h.1.symm)]

theorem getEntry_setTypeValue_zero (e : List PropertyUniqueEntry) (x : Nat) (t : PropertyType)
    (v : PropValue) (hx : x ≠ 0) : getEntry (setTypeValue e x t v) 0 = getEntry e 0 := by
  rw [getEntry_setTypeValue, if_neg (fun h => hx h.1.symm)]

theorem getEntry_setPropId_zero (e : List PropertyUniqueEntry) (x : Nat) (p : Int)
    (hx : x ≠ 0) : getEntry (setPropId e x p) 0 = getEntry e 0 := by
  rw [getEntry_setPropId, if_neg (fun h => hx h.1.symm)]

/-- `PropertyUniqueExpand` appends slots and links the new ones: slot 0 is not written. -/
theorem expand_zero (I : CPropertyUnique) :
    getEntry (PropertyUniqueExpand I).entry 0 = getEntry I.entry 0 := by
  unfold PropertyUniqueExpand
  by_cases hnf : I.next_free = 0
  · rw [if_pos hnf]
    dsimp only
    obtain ⟨J, hJ, _, hframe, _⟩ :=
      expand_fold
        { I with entry := I.entry ++
            List.replicate (I.entry.length * 3 / 2 - I.entry.length) default }
        I.entry.length (I.entry.length * 3 / 2 - I.entry.length)
        (by simp)
    rw [hJ, hframe 0 (by omega)]
    show getEntry (I.entry ++ _) 0 = _
    by_cases hlen : 0 < I.entry.length
    · exact getEntry_append_left _ _ _ hlen
    · have h0 : I.entry.length = 0 := by omega
      rw [h0]
      simp
  · rw [if_neg hnf]

theorem prepare_zero (I : CPropertyUnique) :
    getEntry (if I.next_free = 0 then PropertyUniqueExpand I else I).entry 0 =
      getEntry I.entry 0 := by
  by_cases hnf : I.next_free = 0
  · rw [if_pos hnf]; exact expand_zero I
  · rw [if_neg hnf]

theorem newListEntry_zero (I : CPropertyUnique) (u : Int) (pid : Int) (ty : PropertyType)
    (v : PropValue) : getEntry (newListEntry I u pid ty v).1.entry 0 = getEntry I.entry 0 := by
  unfold newListEntry
  dsimp only
  by_cases hnz : (if I.next_free = 0 then PropertyUniqueExpand I else I).next_free ≠ 0
  · rw [if_pos hnz]
    dsimp only
    rw [getEntry_setNext_zero _ _ _ hnz, getEntry_setPropId_zero _ _ _ hnz,
      getEntry_setTypeValue_zero _ _ _ _ hnz]
    exact prepare_zero I
  · rw [if_neg hnz]
    exact prepare_zero I

theorem appendEntry_zero (I : CPropertyUnique) (u : Int) (prev : Nat) (pid : Int)
    (ty : PropertyType) (v : PropValue) :
    getEntry (appendEntry I u prev pid ty v).1.entry 0 = getEntry I.entry 0 := by
  unfold appendEntry
  dsimp only
  by_cases hnz : (if I.next_free = 0 then PropertyUniqueExpand I else I).next_free ≠ 0
  · rw [if_pos hnz]
    dsimp only
    rw [getEntry_setPropId_zero _ _ _ hnz, getEntry_setTypeValue_zero _ _ _ _ hnz]
    by_cases hp : prev ≠ 0
    · rw [if_pos hp]
      dsimp only
      rw [getEntry_setNext_zero _ _ _ hp, getEntry_setNext_zero _ _ _ hnz]
      exact prepare_zero I
    · rw [if_neg hp]
      dsimp only
      rw [getEntry_setNext_zero _ _ _ hnz]
      exact prepare_zero I
  · rw [if_neg hnz]
    exact prepare_zero I

theorem deleteEntry_zero (I : CPropertyUnique) (u : Int) (prev offset : Nat)
    (ho : offset ≠ 0) : getEntry (deleteEntry I u prev offset).entry 0 = getEntry I.entry 0 := by
  unfold deleteEntry
  dsimp only
  rw [getEntry_setNext_zero _ _ _ ho]
  by_cases hp : prev = 0
  · rw [if_pos hp]
  · rw [if_neg hp]
    exact getEntry_setNext_zero _ _ _ hp

theorem redefineEntry_zero (I : CPropertyUnique) (offset : Nat) (ty : PropertyType)
    (v : PropValue) (ho : offset ≠ 0) (J : CPropertyUnique)
    (hJ : (redefineEntry I offset ty v).state = some J) :
    getEntry J.entry 0 = getEntry I.entry 0 := by
  unfold redefineEntry at hJ
  dsimp only at hJ
  split at hJ
  · split at hJ
    · simp only [Outcome.state, Option.some.injEq] at hJ
      rw [← hJ]
    · split_ifs at hJ
      · simp only [Outcome.state, Option.some.injEq] at hJ
        rw [← hJ]
        show getEntry (setTypeValue (releaseOldString I _).entry _ _ _) 0 = _
        rw [getEntry_setTypeValue_zero _ _ _ _ ho, releaseOldString_entry]
      · simp only [Outcome.state, Option.some.injEq] at hJ
        rw [← hJ]
  · simp [Outcome.state] at hJ
  · split at hJ
    · simp only [Outcome.state, Option.some.injEq] at hJ
      rw [← hJ]
    · split_ifs at hJ
      · simp only [Outcome.state, Option.some.injEq] at hJ
        rw [← hJ]
        show getEntry (setTypeValue (releaseOldString I _).entry _ _ _) 0 = _
        rw [getEntry_setTypeValue_zero _ _ _ _ ho, releaseOldString_entry]
      · simp only [Outcome.state, Option.some.injEq] at hJ
        rw [← hJ]
  · simp [Outcome.state] at hJ

theorem setTypedValue_zero (I : CPropertyUnique) (uid : Int) (name : String)
    (ty : PropertyType) (value : Option PropValue) (J : CPropertyUnique)
    (hJ : (PropertyUniqueSetTypedValue I uid name ty value).state = some J) :
    getEntry J.entry 0 = getEntry I.entry 0 := by
  unfold PropertyUniqueSetTypedValue at hJ
  dsimp only at hJ
  cases hh : I.id2offset uid with
  | none =>
    rw [hh] at hJ
    dsimp only at hJ
    cases value with
    | none =>
      simp only [Outcome.state, Option.some.injEq] at hJ
      rw [← hJ]
    | some v =>
      dsimp only at hJ
      split_ifs at hJ
      · simp only [Outcome.state, Option.some.injEq] at hJ
        rw [← hJ]
        exact newListEntry_zero _ _ _ _ _
      · simp [Outcome.state] at hJ
  | some head =>
    rw [hh] at hJ
    dsimp only at hJ
    cases hf : findInList I.entry (OVLexicon_GetFromCString I.propnames name).2
        I.entry.length 0 head with
    | none =>
      rw [hf] at hJ
      simp [Outcome.state] at hJ
    | some r =>
      obtain ⟨prev, offset⟩ := r
      rw [hf] at hJ
      dsimp only at hJ
      by_cases ho : offset ≠ 0
      · rw [if_pos ho] at hJ
        cases value with
        | none =>
          simp only [Outcome.state, Option.some.injEq] at hJ
          rw [← hJ]
          exact deleteEntry_zero _ _ _ _ ho
        | some v =>
          dsimp only at hJ
          cases hr : redefineEntry
              { I with propnames := (OVLexicon_GetFromCString I.propnames name).1 }
              offset ty v with
          | done I1 isset =>
            rw [hr] at hJ
            simp only [Outcome.state, Option.some.injEq] at hJ
            rw [← hJ]
            exact redefineEntry_zero
              { I with propnames := (OVLexicon_GetFromCString I.propnames name).1 }
              offset ty v ho I1 (by rw [hr]; rfl)
          | thrown I1 =>
            rw [hr] at hJ
            simp only [Outcome.state, Option.some.injEq] at hJ
            rw [← hJ]
            exact redefineEntry_zero
              { I with propnames := (OVLexicon_GetFromCString I.propnames name).1 }
              offset ty v ho I1 (by rw [hr]; rfl)
          | diverged =>
            rw [hr] at hJ
            simp [Outcome.state] at hJ
      · rw [if_neg ho] at hJ
        cases value with
        | none =>
          simp only [Outcome.state, Option.some.injEq] at hJ
          rw [← hJ]
        | some v =>
          dsimp only at hJ
          split_ifs at hJ
          · simp only [Outcome.state, Option.some.injEq] at hJ
            rw [← hJ]
            exact appendEntry_zero _ _ _ _ _ _
          · simp [Outcome.state] at hJ

theorem detachLoop_zero (fuel : Nat) :
    ∀ (I : CPropertyUnique) (offset : Nat) (J : CPropertyUnique),
      (detachLoop fuel I offset).state = some J → getEntry J.entry 0 = getEntry I.entry 0 := by
  induction fuel with
  | zero => intro I offset J hJ; simp [detachLoop, Outcome.state] at hJ
  | succ f ih =>
    intro I offset J hJ
    rw [detachLoop] at hJ
    by_cases ho : offset = 0
    · simp only [if_pos ho, Outcome.state, Option.some.injEq] at hJ
      rw [← hJ]
    · simp only [if_neg ho] at hJ
      split_ifs at hJ
      · simp only [Outcome.state, Option.some.injEq] at hJ
        rw [← hJ]
      · rw [ih _ _ J hJ]
        exact getEntry_setNext_zero _ _ _ ho
      · rw [ih _ _ J hJ]
        exact getEntry_setNext_zero _ _ _ ho

theorem detachChain_zero (I : CPropertyUnique) (uid : Int) (J : CPropertyUnique)
    (hJ : (PropertyUniqueDetachChain I uid).state = some J) :
    getEntry J.entry 0 = getEntry I.entry 0 := by
  unfold PropertyUniqueDetachChain at hJ
  cases hh : I.id2offset uid with
  | none =>
    rw [hh] at hJ
    simp only [Outcome.state, Option.some.injEq] at hJ
    rw [← hJ]
  | some offset =>
    rw [hh] at hJ
    dsimp only at hJ
    cases hr : detachLoop I.entry.length
        { I with id2offset := Function.update I.id2offset uid none } offset with
    | done I1 r =>
      rw [hr] at hJ
      simp only [Outcome.state, Option.some.injEq] at hJ
      rw [← hJ]
      exact detachLoop_zero I.entry.length
        { I with id2offset := Function.update I.id2offset uid none } offset I1
        (by rw [hr]; rfl)
    | thrown I1 =>
      rw [hr] at hJ
      simp only [Outcome.state, Option.some.injEq] at hJ
      rw [← hJ]
      exact detachLoop_zero I.entry.length
        { I with id2offset := Function.update I.id2offset uid none } offset I1
        (by rw [hr]; rfl)
    | diverged =>
      rw [hr] at hJ
      simp [Outcome.state] at hJ

theorem copyIncRef_entry (I : CPropertyUnique) (x : Nat) (J : CPropertyUnique)
    (hJ : (copyIncRef I x).state = some J) : J.entry = I.entry := by
  unfold copyIncRef at hJ
  dsimp only at hJ
  split_ifs at hJ
  · split at hJ
    · simp only [Outcome.state, Option.some.injEq] at hJ
      rw [← hJ]
    · simp only [Outcome.state, Option.some.injEq] at hJ
      rw [← hJ]
  · simp only [Outcome.state, Option.some.injEq] at hJ
    rw [← hJ]

theorem copyExistingLoop_zero (dst : Int) (fuel : Nat) :
    ∀ (I : CPropertyUnique) (src_offset dst_offset : Nat) (J : CPropertyUnique),
      (copyExistingLoop dst fuel I src_offset dst_offset).state = some J →
      getEntry J.entry 0 = getEntry I.entry 0 := by
  induction fuel with
  | zero => intro I s d J hJ; simp [copyExistingLoop, Outcome.state] at hJ
  | succ f ih =>
    intro I s d J hJ
    rw [copyExistingLoop] at hJ
    by_cases hs0 : s = 0
    · simp only [if_pos hs0, Outcome.state, Option.some.injEq] at hJ
      rw [← hJ]
    · simp only [if_neg hs0] at hJ
      cases hf : findInList I.entry (getEntry I.entry s).prop_id I.entry.length 0 d with
      | none =>
        rw [hf] at hJ
        simp [Outcome.state] at hJ
      | some r =>
        obtain ⟨prev, found⟩ := r
        rw [hf] at hJ
        dsimp only at hJ
        by_cases hfo : found ≠ 0
        · rw [if_pos hfo] at hJ
          rw [ih _ _ _ J hJ]
          exact getEntry_setTypeValue_zero _ _ _ _ hfo
        · rw [if_neg hfo] at hJ
          by_cases hstale : I.next_free = 0 ∧ (PropertyUniqueExpand I).next_free ≠ 0
          · rw [if_pos hstale] at hJ
            simp [Outcome.state] at hJ
          rw [if_neg hstale] at hJ
          by_cases hnz : (if I.next_free = 0 then PropertyUniqueExpand I else I).next_free ≠ 0
          · rw [if_pos hnz] at hJ
            split at hJ
            · rename_i I6 _ heq
              have e := copyIncRef_entry _ _ I6 (by rw [heq]; rfl)
              rw [ih _ _ _ J hJ, e]
              dsimp only
              rw [getEntry_setPropId_zero _ _ _ hnz, getEntry_setTypeValue_zero _ _ _ _ hnz]
              by_cases hp : prev ≠ 0
              · rw [if_pos hp]
                dsimp only
                rw [getEntry_setNext_zero _ _ _ hp, getEntry_setNext_zero _ _ _ hnz]
                exact prepare_zero I
              · rw [if_neg hp]
                dsimp only
                rw [getEntry_setNext_zero _ _ _ hnz]
                exact prepare_zero I
            · rename_i I6 heq
              have e := copyIncRef_entry _ _ I6 (by rw [heq]; rfl)
              simp only [Outcome.state, Option.some.injEq] at hJ
              rw [← hJ, e]
              dsimp only
              rw [getEntry_setPropId_zero _ _ _ hnz, getEntry_setTypeValue_zero _ _ _ _ hnz]
              by_cases hp : prev ≠ 0
              · rw [if_pos hp]
                dsimp only
                rw [getEntry_setNext_zero _ _ _ hp, getEntry_setNext_zero _ _ _ hnz]
                exact prepare_zero I
              · rw [if_neg hp]
                dsimp only
                rw [getEntry_setNext_zero _ _ _ hnz]
                exact prepare_zero I
            · simp [Outcome.state] at hJ
          · rw [if_neg hnz] at hJ
            rw [ih _ _ _ J hJ]
            exact prepare_zero I

theorem copyNewLoop_zero (dst : Int) (fuel : Nat) :
    ∀ (I : CPropertyUnique) (src_offset prev : Nat) (J : CPropertyUnique),
      (copyNewLoop dst fuel I src_offset prev).state = some J →
      getEntry J.entry 0 = getEntry I.entry 0 := by
  induction fuel with
  | zero => intro I s p J hJ; simp [copyNewLoop, Outcome.state] at hJ
  | succ f ih =>
    intro I s prev J hJ
    rw [copyNewLoop] at hJ
    by_cases hs0 : s = 0
    · simp only [if_pos hs0, Outcome.state, Option.some.injEq] at hJ
      rw [← hJ]
    · simp only [if_neg hs0] at hJ
      by_cases hnz : (if I.next_free = 0 then PropertyUniqueExpand I else I).next_free ≠ 0
      · rw [if_pos hnz] at hJ
        split at hJ
        · rename_i I5 _ heq
          have e := copyIncRef_entry _ _ I5 (by rw [heq]; rfl)
          rw [ih _ _ _ J hJ, e]
          dsimp only
          rw [getEntry_setNext_zero _ _ _ hnz, getEntry_setPropId_zero _ _ _ hnz,
            getEntry_setTypeValue_zero _ _ _ _ hnz]
          by_cases hp : prev = 0
          · rw [if_pos hp]
            exact prepare_zero I
          · rw [if_neg hp]
            dsimp only
            rw [getEntry_setNext_zero _ _ _ hp]
            exact prepare_zero I
        · rename_i I5 heq
          have e := copyIncRef_entry _ _ I5 (by rw [heq]; rfl)
          simp only [Outcome.state, Option.some.injEq] at hJ
          rw [← hJ, e]
          dsimp only
          rw [getEntry_setNext_zero _ _ _ hnz, getEntry_setPropId_zero _ _ _ hnz,
            getEntry_setTypeValue_zero _ _ _ _ hnz]
          by_cases hp : prev = 0
          · rw [if_pos hp]
            exact prepare_zero I
          · rw [if_neg hp]
            dsimp only
            rw [getEntry_setNext_zero _ _ _ hp]
            exact prepare_zero I
        · simp [Outcome.state] at hJ
      · rw [if_neg hnz] at hJ
        rw [ih _ _ _ J hJ]
        exact prepare_zero I

theorem copyProperties_zero (I : CPropertyUnique) (src dst : Int) (J : CPropertyUnique)
    (hJ : (PropertyCopyProperties I src dst).state = some J) :
    getEntry J.entry 0 = getEntry I.entry 0 := by
  unfold PropertyCopyProperties at hJ
  cases hd : I.id2offset dst with
  | some dst_offset =>
    rw [hd] at hJ
    dsimp only at hJ
    cases hs : I.id2offset src with
    | none =>
      rw [hs] at hJ
      simp only [Outcome.state, Option.some.injEq] at hJ
      rw [← hJ]
    | some src_offset =>
      rw [hs] at hJ
      dsimp only at hJ
      cases hr : copyExistingLoop dst I.entry.length I src_offset dst_offset with
      | done I1 r =>
        rw [hr] at hJ
        simp only [Outcome.state, Option.some.injEq] at hJ
        rw [← hJ]
        exact copyExistingLoop_zero dst I.entry.length I src_offset dst_offset I1
          (by rw [hr]; rfl)
      | thrown I1 =>
        rw [hr] at hJ
        simp only [Outcome.state, Option.some.injEq] at hJ
        rw [← hJ]
        exact copyExistingLoop_zero dst I.entry.length I src_offset dst_offset I1
          (by rw [hr]; rfl)
      | diverged =>
        rw [hr] at hJ
        simp [Outcome.state] at hJ
  | none =>
    rw [hd] at hJ
    dsimp only at hJ
    cases hs : I.id2offset src with
    | none =>
      rw [hs] at hJ
      simp only [Outcome.state, Option.some.injEq] at hJ
      rw [← hJ]
    | some src_offset =>
      rw [hs] at hJ
      dsimp only at hJ
      cases hr : copyNewLoop dst I.entry.length I src_offset 0 with
      | done I1 r =>
        rw [hr] at hJ
        simp only [Outcome.state, Option.some.injEq] at hJ
        rw [← hJ]
        exact copyNewLoop_zero dst I.entry.length I src_offset 0 I1 (by rw [hr]; rfl)
      | thrown I1 =>
        rw [hr] at hJ
        simp only [Outcome.state, Option.some.injEq] at hJ
        rw [← hJ]
        exact copyNewLoop_zero dst I.entry.length I src_offset 0 I1 (by rw [hr]; rfl)
      | diverged =>
        rw [hr] at hJ
        simp [Outcome.state] at hJ

/-- No call of the public interface writes slot 0 of the slab. -/
theorem call_zero (c : Call) (I J : CPropertyUnique) (hJ : c.run I = some J) :
    getEntry J.entry 0 = getEntry I.entry 0 := by
  cases c with
  | set_b u n v => exact setTypedValue_zero I u n _ _ J hJ
  | set_int u n v => exact setTypedValue_zero I u n _ _ J hJ
  | set_double u n v => exact setTypedValue_zero I u n _ _ J hJ
  | set_color u n v => exact setTypedValue_zero I u n _ _ J hJ
  | set_string u n v =>
    exact setTypedValue_zero
      { I with string_values := (OVLexicon_GetFromCString I.string_values v).1 } u n
      PropertyType.String (some (PropValue.int (OVLexicon_GetFromCString I.string_values v).2))
      J hJ
  | delete u n => exact setTypedValue_zero I u n _ _ J hJ
  | copy s d => exact copyProperties_zero I s d J hJ
  | detach u => exact detachChain_zero I u J hJ
  | new_unique_id =>
    have := (newUniqueIDLoop_frame _ I J hJ).1
    rw [this]

/-- In every reachable state slot 0 of the slab still is the value-initialised record. -/
theorem reachable_zero {I : CPropertyUnique} (h : Reachable I) :
    getEntry I.entry 0 = default := by
  induction h with
  | init => decide
  | step c _ hJ ih => rw [call_zero c _ _ hJ, ih]

/-! ## Slot 0, type inference over a stored entry, the payload read of the copy -/

/-- C19 (amended): in every reachable state slot 0 of the slab exists and has never been
written, it still is the value-initialised record (name id 0, type Blank, `next` 0) and
holds no property; no `id2offset` value is 0, so no list starts at slot 0; and every
other slot, slot 1 included, is on the free list or on the list of a unique id. -/
theorem slab_index_zero_reserved (I : CPropertyUnique) (h : Reachable I) :
    0 < I.entry.length ∧ getEntry I.entry 0 = default ∧
      (∀ unique_id, I.id2offset unique_id ≠ some 0) ∧
      (∀ x, 1 ≤ x → x < I.entry.length →
        x ∈ freeList I ∨ ∃ unique_id, x ∈ listOf I unique_id) := by
  obtain ⟨⟨free, L, hs⟩, hz⟩ := reachable_inv h
  have hp := slabPartition_of_slabInv hs
  have hsize := hs.size
  exact ⟨by omega, reachable_zero h, hz, hp.2.2.2.2.2.1⟩

/-- C15 (failing input): unique id 1 has the Int property k = 1.  For scans under which
the text "3.14" is no integer token and is the floating-point token 3.14,
`PropertySetromString(1, "k", "3.14")` ends with an escaping `std::bad_variant_access`
and the stored entry still is Int 1, not Float 3.14. -/
theorem set_from_string_over_int_throws (scan_i : String → Option Int)
    (scan_lf : String → Option Rat) (hi : scan_i "3.14" = none)
    (hf : scan_lf "3.14" = some (mkRat 157 50)) :
    lookupContent (stateAfter [Call.set_int 1 "k" 1]) 1 "k" =
        some (1, PropertyType.Int, PropValue.int 1) ∧
      (PropertySetromString scan_i scan_lf (stateAfter [Call.set_int 1 "k" 1]) 1 "k"
        "3.14").isThrown = true ∧
      (PropertySetromString scan_i scan_lf (stateAfter [Call.set_int 1 "k" 1]) 1 "k"
        "3.14").state.bind (fun J => lookupContent J 1 "k") =
        some (1, PropertyType.Int, PropValue.int 1) := by
  have e : PropertySetromString scan_i scan_lf (stateAfter [Call.set_int 1 "k" 1]) 1 "k"
      "3.14" = PropertySet_double (stateAfter [Call.set_int 1 "k" 1]) 1 "k" (mkRat 157 50) := by
    unfold PropertySetromString
    rw [hi, hf]
  rw [e]
  decide

/-- C26 (failing input): unique id 1 has the Float property a = 2.5 and unique id 2 has
eight Int properties, so the nine slots of the initial slab are taken and the free list is
empty.  `PropertyCopyProperties(1, 2)` does not find "a" on the list of unique id 2, calls
`PropertyUniqueExpand`, which resizes the vector, and then reads the payload through
`property_value`, a pointer into the vector taken before the resize: the call has no
defined result, so the code does not determine the payload stored next to the type Float.
With one slot free (after deleting "i") the same copy returns and appends the Float 2.5,
and the copy into unique id 3, which has no list, takes the pointer after the resize and
returns. -/
theorem copy_reads_payload_after_resize :
    (runCalls sampleRunFull PropertyInit).isSome = true ∧
      (stateAfter sampleRunFull).next_free = 0 ∧
      (entriesOf (stateAfter sampleRunFull) 1).map PropertyUniqueEntry.content =
        [(1, PropertyType.Float, PropValue.double (mkRat 5 2))] ∧
      (entriesOf (stateAfter sampleRunFull) 2).map (fun e => e.prop_id) =
        [2, 3, 4, 5, 6, 7, 8, 9] ∧
      (PropertyCopyProperties (stateAfter sampleRunFull) 1 2).state.isSome = false ∧
      (PropertyCopyProperties (stateAfter (sampleRunFull ++ [Call.delete 2 "i"])) 1
          2).state.map (fun J => (entriesOf J 2).map PropertyUniqueEntry.content) =
        some [(2, PropertyType.Int, PropValue.int 1), (3, PropertyType.Int, PropValue.int 2),
          (4, PropertyType.Int, PropValue.int 3), (5, PropertyType.Int, PropValue.int 4),
          (6, PropertyType.Int, PropValue.int 5), (7, PropertyType.Int, PropValue.int 6),
          (8, PropertyType.Int, PropValue.int 7),
          (1, PropertyType.Float, PropValue.double (mkRat 5 2))] ∧
      (PropertyCopyProperties (stateAfter sampleRunFull) 1 3).state.map
          (fun J => (entriesOf J 3).map PropertyUniqueEntry.content) =
        some [(1, PropertyType.Float, PropValue.double (mkRat 5 2))] := by
  decide

/-- C19 (amended) at a concrete input: the state after the nine insertions of
`sampleRunNine`, in which every slot but slot 0 is on the list of unique id 1. -/
theorem slab_index_zero_reserved_witness :
    Reachable (stateAfter sampleRunNine) ∧ listOf (stateAfter sampleRunNine) 1 =
        [9, 8, 7, 6, 5, 4, 3, 2, 1] ∧
      0 < (stateAfter sampleRunNine).entry.length ∧
      getEntry (stateAfter sampleRunNine).entry 0 = default ∧
      (∀ unique_id, (stateAfter sampleRunNine).id2offset unique_id ≠ some 0) ∧
      (∀ x, 1 ≤ x → x < (stateAfter sampleRunNine).entry.length →
        x ∈ freeList (stateAfter sampleRunNine) ∨
          ∃ unique_id, x ∈ listOf (stateAfter sampleRunNine) unique_id) :=
  ⟨stateAfter_reachable _ (by decide), by decide,
    slab_index_zero_reserved _ (stateAfter_reachable _ (by decide))⟩

/-- C15 (failing input) with scans that know the texts "42" and "3.14" only. -/
theorem set_from_string_over_int_throws_witness :
    sampleScanInt "3.14" = none ∧ sampleScanDouble "3.14" = some (mkRat 157 50) ∧
      lookupContent (stateAfter [Call.set_int 1 "k" 1]) 1 "k" =
        some (1, PropertyType.Int, PropValue.int 1) ∧
      (PropertySetromString sampleScanInt sampleScanDouble (stateAfter [Call.set_int 1 "k" 1])
        1 "k" "3.14").isThrown = true ∧
      (PropertySetromString sampleScanInt sampleScanDouble (stateAfter [Call.set_int 1 "k" 1])
        1 "k" "3.14").state.bind (fun J => lookupContent J 1 "k") =
        some (1, PropertyType.Int, PropValue.int 1) :=
  ⟨by decide, by decide,
    set_from_string_over_int_throws sampleScanInt sampleScanDouble (by decide) (by decide)⟩

end Property
